import Mathlib

/-!
Verification of the MiniDB engine (a small SQL database) against its
natural-language specification.  Each section shallowly embeds one part of
the Python source (`minidb/core/executor.py`, `minidb/core/types.py`,
`minidb/core/schema.py`, `minidb/storage/engine.py`,
`minidb/indexing/btree.py`) as executable Lean definitions, and proves or
refutes the specification claims about it.
-/

namespace MiniDB

/-! ## Runtime values (executor)

Python runtime values flowing through `ExpressionEvaluator` are `None`,
`int`, `bool`, `float` and `str`.  Floats are idealized as rationals
(`ℚ`); none of the properties proved here depend on rounding. -/

inductive Value where
  | vnull : Value
  | vint (n : Int) : Value
  | vbool (b : Bool) : Value
  | vrat (q : ℚ) : Value
  | vstr (s : String) : Value
deriving DecidableEq

namespace Value

/-- Numeric view of a value: Python treats `bool` as the ints 0/1 and mixes
ints and floats freely in comparisons and arithmetic. -/
def toNum : Value → Option ℚ
  | vint n => some (n : ℚ)
  | vbool b => some (if b then 1 else 0)
  | vrat q => some q
  | _ => none

/-- Python `==` on runtime values: `None` equals only `None`; numbers
compare numerically across int/bool/float; strings compare as strings;
cross-kind comparisons are `False`. -/
def pyEq (a b : Value) : Bool :=
  match a, b with
  | vnull, vnull => true
  | vnull, _ => false
  | _, vnull => false
  | vstr s, vstr t => s = t
  | vstr _, _ => false
  | _, vstr _ => false
  | a, b =>
    match a.toNum, b.toNum with
    | some x, some y => x = y
    | _, _ => false

/-- Python `<` on runtime values; `none` models a raised `TypeError`
(e.g. comparing `None` or mixing strings with numbers). -/
def pyLt (a b : Value) : Option Bool :=
  match a, b with
  | vstr s, vstr t => some (s < t)
  | a, b =>
    match a.toNum, b.toNum with
    | some x, some y => some (x < y)
    | _, _ => none

/-- Python truthiness (`bool(x)`). -/
def truthy : Value → Bool
  | vnull => false
  | vint n => n ≠ 0
  | vbool b => b
  | vrat q => q ≠ 0
  | vstr s => s ≠ ""

/-- Python `x or 0`, as used by the executor's arithmetic:
the value itself when truthy, otherwise the int 0. -/
def orZero (v : Value) : Value :=
  if v.truthy then v else vint 0

/-- Python `+` (numeric addition / string concatenation); `none` models a
raised `TypeError`. Int-only additions stay ints, as in Python. -/
def pyAdd (a b : Value) : Option Value :=
  match a, b with
  | vstr s, vstr t => some (vstr (s ++ t))
  | vint m, vint n => some (vint (m + n))
  | vint m, vbool c => some (vint (m + (if c then 1 else 0)))
  | vbool c, vint n => some (vint ((if c then 1 else 0) + n))
  | vbool c, vbool d => some (vint ((if c then 1 else 0) + (if d then 1 else 0)))
  | a, b =>
    match a.toNum, b.toNum with
    | some x, some y => some (vrat (x + y))
    | _, _ => none

/-- Python `-` on numbers; `none` models a raised `TypeError`. -/
def pySub (a b : Value) : Option Value :=
  match a, b with
  | vint m, vint n => some (vint (m - n))
  | vint m, vbool c => some (vint (m - (if c then 1 else 0)))
  | vbool c, vint n => some (vint ((if c then 1 else 0) - n))
  | vbool c, vbool d => some (vint ((if c then 1 else 0) - (if d then 1 else 0)))
  | a, b =>
    match a.toNum, b.toNum with
    | some x, some y => some (vrat (x - y))
    | _, _ => none

/-- Python `*` on numbers; `none` models a raised `TypeError`
(string repetition is not modelled; no claim exercises it). -/
def pyMul (a b : Value) : Option Value :=
  match a, b with
  | vint m, vint n => some (vint (m * n))
  | vint m, vbool c => some (vint (m * (if c then 1 else 0)))
  | vbool c, vint n => some (vint ((if c then 1 else 0) * n))
  | vbool c, vbool d => some (vint ((if c then 1 else 0) * (if d then 1 else 0)))
  | a, b =>
    match a.toNum, b.toNum with
    | some x, some y => some (vrat (x * y))
    | _, _ => none

end Value

/-! ## Expressions (`ExpressionEvaluator` in executor.py)

The AST mirrors the parser's `Literal`, `ColumnRef` and `BinaryOp` nodes;
the operator is kept as the same string the source dispatches on.
Table-qualified references, `IN`, `LIKE`, unary operators and scalar
function calls are outside the claims and are not embedded. -/

inductive Expr where
  | lit (v : Value) : Expr
  | col (name : String) : Expr
  | bin (op : String) (l r : Expr) : Expr
deriving DecidableEq

/-- Rows as evaluated by the executor: a dict from column name to value. -/
abbrev Row := List (String × Value)

/-- Python `str.lower()` on a character (ASCII range, which covers SQL
identifiers). -/
def lowerChar (c : Char) : Char :=
  if 'A' ≤ c ∧ c ≤ 'Z' then Char.ofNat (c.toNat + 32) else c

/-- Python `str.lower()` (ASCII range). -/
def lowerStr (s : String) : String := ⟨s.data.map lowerChar⟩

/-- Column lookup from `ExpressionEvaluator._get_column_value`:
case-insensitive search of the row dict; a missing column yields `None`
(the single-table path; the multi-table fallback is not embedded). -/
def getColumnValue (row : Row) (name : String) : Value :=
  match row.find? (fun kv => lowerStr kv.1 = lowerStr name) with
  | some kv => kv.2
  | none => Value.vnull

open Value in
/-- Expression evaluation, following `ExpressionEvaluator.evaluate` and
`_eval_binary_op`.  `Except.error` models an uncaught Python exception.
Note the source evaluates `=` and `!=`/`<>` by raw Python `==`/`!=`
(no NULL guard), while `<`, `>`, `<=`, `>=` are guarded to yield `False`
when either side is `None`. -/
def eval (row : Row) : Expr → Except String Value
  | .lit v => .ok v
  | .col n => .ok (getColumnValue row n)
  | .bin op l r =>
    if op = "IS NULL" then do
      let lv ← eval row l
      .ok (vbool (lv = vnull))
    else if op = "IS NOT NULL" then do
      let lv ← eval row l
      .ok (vbool (lv ≠ vnull))
    else do
      let lv ← eval row l
      let rv ← eval row r
      if op = "AND" then .ok (vbool (lv.truthy && rv.truthy))
      else if op = "OR" then .ok (vbool (lv.truthy || rv.truthy))
      else if op = "=" then .ok (vbool (pyEq lv rv))
      else if op = "!=" ∨ op = "<>" then .ok (vbool (!pyEq lv rv))
      else if op = "<" then
        if lv ≠ vnull ∧ rv ≠ vnull then
          match pyLt lv rv with
          | some b => .ok (vbool b)
          | none => .error "TypeError"
        else .ok (vbool false)
      else if op = ">" then
        if lv ≠ vnull ∧ rv ≠ vnull then
          match pyLt rv lv with
          | some b => .ok (vbool b)
          | none => .error "TypeError"
        else .ok (vbool false)
      else if op = "<=" then
        if lv ≠ vnull ∧ rv ≠ vnull then
          match pyLt rv lv with
          | some b => .ok (vbool (!b))
          | none => .error "TypeError"
        else .ok (vbool false)
      else if op = ">=" then
        if lv ≠ vnull ∧ rv ≠ vnull then
          match pyLt lv rv with
          | some b => .ok (vbool (!b))
          | none => .error "TypeError"
        else .ok (vbool false)
      else if op = "+" then
        match pyAdd lv.orZero rv.orZero with
        | some v => .ok v
        | none => .error "TypeError"
      else if op = "-" then
        match pySub lv.orZero rv.orZero with
        | some v => .ok v
        | none => .error "TypeError"
      else if op = "*" then
        match pyMul lv.orZero rv.orZero with
        | some v => .ok v
        | none => .error "TypeError"
      else .ok vnull

/-- WHERE filtering from `QueryExecutor._execute_select`: a row is kept
when the predicate evaluates truthy; an evaluation error aborts the
query. -/
def applyWhere (cond : Expr) : List Row → Except String (List Row)
  | [] => .ok []
  | r :: rest => do
    let v ← eval r cond
    let kept ← applyWhere cond rest
    if v.truthy then .ok (r :: kept) else .ok kept

/-! ## ORDER BY (`QueryExecutor._apply_order_by`) -/

/-- Sort direction (`OrderDirection` in parser.py). -/
inductive Dir where
  | asc : Dir
  | desc : Dir
deriving DecidableEq

/-- An ORDER BY item (`OrderByItem` in parser.py). -/
structure OrderItem where
  expr : Expr
  direction : Dir
deriving DecidableEq

/-- The row comparator `compare(a, b)` from `_apply_order_by`: walk the
ORDER BY items; NULL on one side decides immediately (before non-NULL on
ASC, after non-NULL on DESC), two NULLs fall through to the next key,
otherwise Python `<`/`>` decide with the direction's sign.  `none` models
an uncaught exception (evaluation error or `TypeError` from comparing
mixed types). -/
def rowCompare : List OrderItem → Row → Row → Option Int
  | [], _, _ => some 0
  | item :: rest, a, b =>
    match eval a item.expr, eval b item.expr with
    | .ok va, .ok vb =>
      if va = .vnull ∧ vb = .vnull then rowCompare rest a b
      else if va = .vnull then
        some (if item.direction = .asc then -1 else 1)
      else if vb = .vnull then
        some (if item.direction = .asc then 1 else -1)
      else
        match Value.pyLt va vb, Value.pyLt vb va with
        | some lt, some gt =>
          if lt then some (if item.direction = .asc then -1 else 1)
          else if gt then some (if item.direction = .asc then 1 else -1)
          else rowCompare rest a b
        | _, _ => none
    | _, _ => none

/-- Boolean "a sorts no later than b" derived from the comparator, as
`functools.cmp_to_key` does.  The `getD 0` default is only reached when
the comparator would raise, in which case Python aborts the whole query;
all theorems below restrict to rows on which the comparator succeeds. -/
def cmpLe (order : List OrderItem) (a b : Row) : Bool :=
  decide ((rowCompare order a b).getD 0 ≤ 0)

/-- The sort itself: Python's `sorted` is a stable comparison sort,
modelled by the stable `List.mergeSort` on the comparator order. -/
def applyOrderBy (order : List OrderItem) (rows : List Row) : List Row :=
  rows.mergeSort (cmpLe order)

/-- Rows whose ORDER BY key values are NULL or int; on these the
comparator never raises. -/
def goodRow (order : List OrderItem) (r : Row) : Prop :=
  ∀ it ∈ order, eval r it.expr = .ok .vnull ∨
    ∃ n : Int, eval r it.expr = .ok (.vint n)

/-- Key value of a row for one ORDER BY item (NULL when evaluation
fails; `goodRow` rows never fail). -/
def keyVal (r : Row) (it : OrderItem) : Value :=
  match eval r it.expr with
  | .ok v => v
  | .error _ => .vnull

/-- Proof-side rank of a key value: the comparator on NULL-or-int keys
behaves as the lexicographic order on these integer pairs (NULL smallest
ascending, largest descending). -/
def rankVal (dir : Dir) (v : Value) : ℤ × ℤ :=
  match dir, v with
  | .asc, .vnull => (0, 0)
  | .asc, .vint n => (1, n)
  | .asc, _ => (1, 0)
  | .desc, .vnull => (1, 0)
  | .desc, .vint n => (0, -n)
  | .desc, _ => (0, 0)

/-- Proof-side three-way comparison of integer pairs, lexicographic. -/
def cmp2 (p q : ℤ × ℤ) : Int :=
  if p.1 < q.1 then -1
  else if q.1 < p.1 then 1
  else if p.2 < q.2 then -1
  else if q.2 < p.2 then 1
  else 0

/-- Proof-side lexicographic three-way comparison of rank vectors. -/
def cmpLex : List (ℤ × ℤ) → List (ℤ × ℤ) → Int
  | [], _ => 0
  | _ :: _, [] => 0
  | p :: ps, q :: qs => if cmp2 p q = 0 then cmpLex ps qs else cmp2 p q

/-- Proof-side rank vector of a row. -/
def ranks (order : List OrderItem) (r : Row) : List (ℤ × ℤ) :=
  order.map (fun it => rankVal it.direction (keyVal r it))

/-! ## Aggregates (`QueryExecutor._compute_aggregate`) -/

/-- One argument of an aggregate call: `*` or an expression. -/
inductive AggArg where
  | star : AggArg
  | expr (e : Expr) : AggArg

/-- Value collection for one row: `*` contributes the int 1 (for
`COUNT(*)`), an expression contributes its value unless it is NULL. -/
def collectRowVals (r : Row) : List AggArg → Except String (List Value)
  | [] => .ok []
  | .star :: rest => do
    let vs ← collectRowVals r rest
    .ok (.vint 1 :: vs)
  | .expr e :: rest => do
    let v ← eval r e
    let vs ← collectRowVals r rest
    if v = .vnull then .ok vs else .ok (v :: vs)

/-- Value collection over the group's rows (the `values` list built by
`_compute_aggregate`). -/
def collectVals (args : List AggArg) : List Row → Except String (List Value)
  | [] => .ok []
  | r :: rs => do
    let here ← collectRowVals r args
    let rest ← collectVals args rs
    .ok (here ++ rest)

/-- Python `list(set(values))`: deduplication by Python equality.  The
iteration order of a Python set is unspecified; every aggregate consuming
the result is order-insensitive, so the keep-last order is chosen. -/
def dedupPy : List Value → List Value
  | [] => []
  | v :: vs =>
    if vs.any (fun w => Value.pyEq v w) then dedupPy vs else v :: dedupPy vs

/-- Python `sum(values)`: left fold of `+` starting from the int 0;
`none` models a raised `TypeError`. -/
def pySum (vs : List Value) : Option Value :=
  vs.foldlM (fun acc v => Value.pyAdd acc v) (Value.vint 0)

/-- Python `sum(values) / len(values)`: true division, yielding a float
(idealized as ℚ). -/
def pyAvg (vs : List Value) : Option Value :=
  match pySum vs with
  | some s =>
    match s.toNum with
    | some q => some (.vrat (q / (vs.length : ℚ)))
    | none => none
  | none => none

/-- Python `min(values)` on a nonempty list: keep the first minimum. -/
def pyMin : List Value → Option Value
  | [] => none
  | v :: vs =>
    vs.foldlM (fun acc w =>
      match Value.pyLt w acc with
      | some b => some (if b then w else acc)
      | none => none) v

/-- Python `max(values)` on a nonempty list: keep the first maximum. -/
def pyMax : List Value → Option Value
  | [] => none
  | v :: vs =>
    vs.foldlM (fun acc w =>
      match Value.pyLt acc w with
      | some b => some (if b then w else acc)
      | none => none) v

/-- Aggregate computation (`_compute_aggregate`): collect the value
stream, optionally deduplicate it (`DISTINCT`), then dispatch on the
function name.  `sum(values) if values else 0` and the analogous guards
are kept as in the source. -/
def computeAggregate (name : String) (args : List AggArg) (distinct : Bool)
    (rows : List Row) : Except String Value := do
  let values0 ← collectVals args rows
  let values := if distinct then dedupPy values0 else values0
  if name = "COUNT" then .ok (.vint values.length)
  else if name = "SUM" then
    if values.isEmpty then .ok (.vint 0)
    else
      match pySum values with
      | some v => .ok v
      | none => .error "TypeError"
  else if name = "AVG" then
    if values.isEmpty then .ok .vnull
    else
      match pyAvg values with
      | some v => .ok v
      | none => .error "TypeError"
  else if name = "MIN" then
    if values.isEmpty then .ok .vnull
    else
      match pyMin values with
      | some v => .ok v
      | none => .error "TypeError"
  else if name = "MAX" then
    if values.isEmpty then .ok .vnull
    else
      match pyMax values with
      | some v => .ok v
      | none => .error "TypeError"
  else .ok .vnull

/-- Proof-side total evaluation (NULL on error). -/
def evalV (r : Row) (e : Expr) : Value :=
  match eval r e with
  | .ok v => v
  | .error _ => .vnull

/-- Proof-side canonical key for Python equality: two values are
Python-equal iff their keys coincide (class 0 = None, 1 = numeric,
2 = string). -/
def eqKey : Value → Nat × ℚ × String
  | .vnull => (0, 0, "")
  | .vint n => (1, (n : ℚ), "")
  | .vbool b => (1, if b then 1 else 0, "")
  | .vrat q => (1, q, "")
  | .vstr s => (2, 0, s)

/-! ## LIMIT / OFFSET (`QueryExecutor._execute_select`) -/

/-- The LIMIT/OFFSET step of `_execute_select`:
`if stmt.offset: rows = rows[stmt.offset:]` then
`if stmt.limit: rows = rows[:stmt.limit]`.  Python truthiness makes both
`None` and `0` skip the slicing. -/
def applyLimitOffset (limit offset : Option Nat) (rows : List Row) :
    List Row :=
  let rows1 :=
    match offset with
    | some o => if o = 0 then rows else rows.drop o
    | none => rows
  match limit with
  | some l => if l = 0 then rows1 else rows1.take l
  | none => rows1

/-! ## Column types and value serialization (`minidb/core/types.py`)

Strings are Lean `String`s; the decimal formatting/parsing of `str` and
`int()` is implemented over the underlying character lists.  FLOAT
columns are not modelled (IEEE-754 shortest-round-trip printing is out
of scope); DATE/TIMESTAMP parsing is modelled as `strptime` restricted
to the anchored `%Y-%m-%d [%H:%M:%S]` shapes that `strftime` emits. -/

inductive DType where
  | integer : DType
  | varchar : DType
  | text : DType
  | boolean : DType
  | date : DType
  | timestamp : DType
deriving DecidableEq

/-- Column type with the optional VARCHAR size (`ColumnType`). -/
structure ColumnType where
  dtype : DType
  size : Option Nat := none
deriving DecidableEq

/-- Python runtime values produced by `TypeValidator.validate_and_convert`
for the modelled column types (`None`, `int`, `bool`, `str`,
`datetime.date`, `datetime.datetime`). -/
inductive PyVal where
  | pnull : PyVal
  | pint (n : Int) : PyVal
  | pbool (b : Bool) : PyVal
  | pstr (s : String) : PyVal
  | pdate (y m d : Nat) : PyVal
  | pdatetime (y mo d h mi s : Nat) : PyVal
deriving DecidableEq

/-- Decimal digit character. -/
def digitChar (n : Nat) : Char := Char.ofNat (48 + n)

/-- Decimal digits of a natural number, most significant first
(Python `str`). -/
def natToDigits (n : Nat) : List Char :=
  if h : n < 10 then [digitChar n]
  else natToDigits (n / 10) ++ [digitChar (n % 10)]
termination_by n
decreasing_by
  exact Nat.div_lt_self (by omega) (by omega)

/-- Python `str(int)`. -/
def intToString (n : Int) : String :=
  if n < 0 then ⟨'-' :: natToDigits (-n).toNat⟩ else ⟨natToDigits n.toNat⟩

/-- Value of a decimal digit character. -/
def digitVal (c : Char) : Option Nat :=
  if '0' ≤ c ∧ c ≤ '9' then some (c.toNat - 48) else none

def parseNatCore : List Char → Nat → Option Nat
  | [], acc => some acc
  | c :: cs, acc =>
    match digitVal c with
    | some d => parseNatCore cs (acc * 10 + d)
    | none => none

/-- Parse a nonempty all-digit string (`int(s)` for unsigned input). -/
def parseNat (cs : List Char) : Option Nat :=
  if cs.isEmpty then none else parseNatCore cs 0

/-- Python `int(s)` on the strings `str(int)` can produce. -/
def parseInt (s : String) : Option Int :=
  match s.data with
  | c :: cs =>
    if c = '-' then (parseNat cs).map (fun n : Nat => -(n : Int))
    else (parseNat (c :: cs)).map (fun n : Nat => (n : Int))
  | [] => none

/-- Zero-padded decimal field of `strftime` (`%Y` width 4, others 2). -/
def padNat (w n : Nat) : List Char :=
  List.replicate (w - (natToDigits n).length) '0' ++ natToDigits n

/-- `strftime('%Y-%m-%d')`. -/
def dateChars (y m d : Nat) : List Char :=
  padNat 4 y ++ '-' :: (padNat 2 m ++ '-' :: padNat 2 d)

/-- `strftime('%Y-%m-%d %H:%M:%S')`. -/
def tsChars (y mo d h mi s : Nat) : List Char :=
  padNat 4 y ++ '-' :: (padNat 2 mo ++ '-' :: (padNat 2 d ++ ' ' ::
    (padNat 2 h ++ ':' :: (padNat 2 mi ++ ':' :: padNat 2 s))))

def isDig (c : Char) : Bool := decide ('0' ≤ c ∧ c ≤ '9')

/-- Parse one decimal field followed by the given separator
(a `strptime` directive step). -/
def parseNumSep (sep : Char) (cs : List Char) : Option (Nat × List Char) :=
  match parseNat (cs.takeWhile isDig), cs.dropWhile isDig with
  | some n, c :: r => if c = sep then some (n, r) else none
  | _, _ => none

/-- Parse one final decimal field (end of the `strptime` format). -/
def parseNumEnd (cs : List Char) : Option Nat :=
  match cs.dropWhile isDig with
  | [] => parseNat cs
  | _ :: _ => none

/-- `strptime(s, '%Y-%m-%d')`. -/
def parseDateChars (cs : List Char) : Option (Nat × Nat × Nat) :=
  match parseNumSep '-' cs with
  | none => none
  | some (y, r1) =>
    match parseNumSep '-' r1 with
    | none => none
    | some (m, r2) =>
      match parseNumEnd r2 with
      | none => none
      | some d => some (y, m, d)

/-- `strptime(s, '%Y-%m-%d %H:%M:%S')`. -/
def parseTsChars (cs : List Char) :
    Option (Nat × Nat × Nat × Nat × Nat × Nat) :=
  match parseNumSep '-' cs with
  | none => none
  | some (y, r1) =>
    match parseNumSep '-' r1 with
    | none => none
    | some (mo, r2) =>
      match parseNumSep ' ' r2 with
      | none => none
      | some (d, r3) =>
        match parseNumSep ':' r3 with
        | none => none
        | some (h, r4) =>
          match parseNumSep ':' r4 with
          | none => none
          | some (mi, r5) =>
            match parseNumEnd r5 with
            | none => none
            | some s => some (y, mo, d, h, mi, s)

/-- `TypeValidator.serialize`: NULL becomes the string `"NULL"`;
INTEGER/BOOLEAN use `str(value)`; VARCHAR/TEXT return the string itself;
DATE/TIMESTAMP use `strftime`. -/
def serialize (v : PyVal) (t : ColumnType) : String :=
  match v with
  | .pnull => "NULL"
  | v =>
    match t.dtype with
    | .integer | .boolean =>
      match v with
      | .pint n => intToString n
      | .pbool b => if b then "True" else "False"
      | _ => ""
    | .varchar | .text =>
      match v with
      | .pstr s => s
      | _ => ""
    | .date =>
      match v with
      | .pdate y m d => ⟨dateChars y m d⟩
      | _ => ""
    | .timestamp =>
      match v with
      | .pdatetime y mo d h mi s => ⟨tsChars y mo d h mi s⟩
      | _ => ""

/-- `TypeValidator.deserialize`: the string `"NULL"` becomes None;
INTEGER parses with `int`, BOOLEAN compares `value.lower()` with
`'true'`, DATE/TIMESTAMP parse with `strptime`, anything else (VARCHAR,
TEXT) returns the string unchanged.  `none` models a raised exception. -/
def deserialize (s : String) (t : ColumnType) : Option PyVal :=
  if s = "NULL" then some .pnull
  else
    match t.dtype with
    | .integer => (parseInt s).map .pint
    | .boolean => some (.pbool (lowerStr s = "true"))
    | .date =>
      (parseDateChars s.data).map (fun p => .pdate p.1 p.2.1 p.2.2)
    | .timestamp =>
      (parseTsChars s.data).map
        (fun p => .pdatetime p.1 p.2.1 p.2.2.1 p.2.2.2.1 p.2.2.2.2.1 p.2.2.2.2.2)
    | _ => some (.pstr s)

/-- A value is well typed for a column when it is what
`validate_and_convert` produces for that column type (Python `date` and
`datetime` field ranges included). -/
def wellTyped : PyVal → ColumnType → Prop
  | .pint _, t => t.dtype = .integer
  | .pbool _, t => t.dtype = .boolean
  | .pstr _, t => t.dtype = .varchar ∨ t.dtype = .text
  | .pdate y m d, t =>
    t.dtype = .date ∧ 1 ≤ y ∧ y ≤ 9999 ∧ 1 ≤ m ∧ m ≤ 12 ∧ 1 ≤ d ∧ d ≤ 31
  | .pdatetime y mo d h mi s, t =>
    t.dtype = .timestamp ∧ 1 ≤ y ∧ y ≤ 9999 ∧ 1 ≤ mo ∧ mo ≤ 12 ∧
      1 ≤ d ∧ d ≤ 31 ∧ h ≤ 23 ∧ mi ≤ 59 ∧ s ≤ 59
  | .pnull, _ => False

/-! ## Schema and table storage (`minidb/core/schema.py`,
`minidb/storage/engine.py`) -/

/-- A column of a table schema (`Column`); `default = pnull` models the
Python default `None`. -/
structure Column where
  name : String
  colType : ColumnType
  primaryKey : Bool := false
  unique : Bool := false
  notNull : Bool := false
  default : PyVal := .pnull

/-- Storage-level rows: a dict from column name to stored value. -/
abbrev RowV := List (String × PyVal)

/-- Python `str.upper()` on a character (ASCII range). -/
def upperChar (c : Char) : Char :=
  if 'a' ≤ c ∧ c ≤ 'z' then Char.ofNat (c.toNat - 32) else c

/-- Python `str.upper()` (ASCII range). -/
def upperStr (s : String) : String := ⟨s.data.map upperChar⟩

/-- Python `str(value)` on the modelled values. -/
def pyStr : PyVal → String
  | .pnull => "None"
  | .pint n => intToString n
  | .pbool b => if b then "True" else "False"
  | .pstr s => s
  | .pdate y m d => ⟨dateChars y m d⟩
  | .pdatetime y mo d h mi s => ⟨tsChars y mo d h mi s⟩

/-- `TypeValidator.validate_and_convert` on non-None values of the
modelled types (None is returned unchanged; conversion failures raise). -/
def validateConvert (v : PyVal) (t : ColumnType) : Except String PyVal :=
  match v with
  | .pnull => .ok .pnull
  | v =>
    match t.dtype with
    | .integer =>
      match v with
      | .pint n => .ok (.pint n)
      | .pbool b => .ok (.pint (if b then 1 else 0))
      | .pstr s =>
        match parseInt s with
        | some n => .ok (.pint n)
        | none => .error "Cannot convert to INTEGER"
      | _ => .error "Cannot convert to INTEGER"
    | .varchar =>
      let str := pyStr v
      match t.size with
      | some sz =>
        if sz ≠ 0 ∧ str.length > sz then .error "String exceeds VARCHAR limit"
        else .ok (.pstr str)
      | none => .ok (.pstr str)
    | .text => .ok (.pstr (pyStr v))
    | .boolean =>
      match v with
      | .pbool b => .ok (.pbool b)
      | .pstr s =>
        if upperStr s = "TRUE" ∨ upperStr s = "1" ∨ upperStr s = "YES" then
          .ok (.pbool true)
        else if upperStr s = "FALSE" ∨ upperStr s = "0" ∨ upperStr s = "NO" then
          .ok (.pbool false)
        else .ok (.pbool (s ≠ ""))
      | .pint n => .ok (.pbool (n ≠ 0))
      | _ => .ok (.pbool true)
    | .date =>
      match v with
      | .pdate y m d => .ok (.pdate y m d)
      | .pdatetime y mo d _ _ _ => .ok (.pdate y mo d)
      | .pstr s =>
        match parseDateChars s.data with
        | some p => .ok (.pdate p.1 p.2.1 p.2.2)
        | none => .error "Cannot convert to DATE"
      | _ => .error "Cannot convert to DATE"
    | .timestamp =>
      match v with
      | .pdatetime y mo d h mi s => .ok (.pdatetime y mo d h mi s)
      | .pstr s =>
        match parseTsChars s.data with
        | some p =>
          .ok (.pdatetime p.1 p.2.1 p.2.2.1 p.2.2.2.1 p.2.2.2.2.1 p.2.2.2.2.2)
        | none =>
          match parseDateChars s.data with
          | some p => .ok (.pdatetime p.1 p.2.1 p.2.2 0 0 0)
          | none => .error "Cannot convert to TIMESTAMP"
      | _ => .error "Cannot convert to TIMESTAMP"

/-- Case-insensitive row lookup in `TableSchema.validate_row` (`value`
stays None both when the key is missing and when NULL was supplied). -/
def lookupCI (row : RowV) (name : String) : PyVal :=
  match row.find? (fun kv => lowerStr kv.1 = lowerStr name) with
  | some kv => kv.2
  | none => .pnull

/-- Exact-name dict lookup (`row.get(col_name)` on validated rows). -/
def lookupEx (row : RowV) (name : String) : PyVal :=
  match row.find? (fun kv => kv.1 = name) with
  | some kv => kv.2
  | none => .pnull

/-- The per-column body of `TableSchema.validate_row`: take the supplied
value (case-insensitively), substitute the default for a None value,
reject None in NOT NULL columns, convert non-None values. -/
def columnValue (col : Column) (row : RowV) : Except String PyVal :=
  let v0 := lookupCI row col.name
  match (if v0 = .pnull then
           if col.default ≠ .pnull then .ok col.default
           else if col.notNull then .error "Column cannot be NULL"
           else .ok v0
         else .ok v0 : Except String PyVal) with
  | .error e => .error e
  | .ok v1 =>
    if v1 ≠ .pnull then validateConvert v1 col.colType else .ok v1

/-- `TableSchema.validate_row`: validate each schema column and emit the
bindings in schema column order. -/
def validateRow (cols : List Column) (row : RowV) : Except String RowV :=
  match cols with
  | [] => .ok []
  | col :: rest =>
    match columnValue col row with
    | .error e => .error e
    | .ok v2 =>
      match validateRow rest row with
      | .error e => .error e
      | .ok tail => .ok ((col.name, v2) :: tail)

/-- Python `==` on stored values (used by the unique-constraint scan). -/
def pyEqP (a b : PyVal) : Bool :=
  match a, b with
  | .pnull, .pnull => true
  | .pint m, .pint n => m = n
  | .pint m, .pbool c => m = (if c then 1 else 0)
  | .pbool c, .pint n => (if c then (1 : Int) else 0) = n
  | .pbool c, .pbool d => c = d
  | .pstr s, .pstr t => s = t
  | .pdate y m d, .pdate y2 m2 d2 => y = y2 ∧ m = m2 ∧ d = d2
  | .pdatetime y mo d h mi s, .pdatetime y2 mo2 d2 h2 mi2 s2 =>
    y = y2 ∧ mo = mo2 ∧ d = d2 ∧ h = h2 ∧ mi = mi2 ∧ s = s2
  | _, _ => false

/-- `TableStorage._check_unique_constraints`: scan every unique column
and every stored row; skip NULL values and (if truthy) the excluded row
id. -/
def checkUnique (uniqueCols : List String) (stored : List (Nat × RowV))
    (row : RowV) (excludeId : Option Nat) : Except String Unit :=
  match uniqueCols with
  | [] => .ok ()
  | c :: cs =>
    let v := lookupEx row c
    if v = .pnull then checkUnique cs stored row excludeId
    else if stored.any (fun p =>
        (match excludeId with
         | some e => !(p.1 = e)
         | none => true) && pyEqP (lookupEx p.2 c) v) then
      .error "Duplicate value for unique column"
    else checkUnique cs stored row excludeId

/-- In-memory state of `TableStorage` (rows is the insertion-ordered
Python dict from row id to row). -/
structure TableStorage where
  schema : List Column
  uniqueCols : List String
  rows : List (Nat × RowV)
  nextRowId : Nat

/-- `TableStorage.insert`: validate, check unique constraints, then
atomically assign the next row id and store the row. -/
def TableStorage.insert (ts : TableStorage) (row : RowV) :
    Except String (TableStorage × Nat) :=
  match validateRow ts.schema row with
  | .error e => .error e
  | .ok validated =>
    match checkUnique ts.uniqueCols ts.rows validated none with
    | .error e => .error e
    | .ok _ =>
      .ok ({ ts with
              rows := ts.rows ++ [(ts.nextRowId, validated)],
              nextRowId := ts.nextRowId + 1 }, ts.nextRowId)

/-- `TableStorage.delete`: remove the row if present; `next_row_id` is
left untouched. -/
def TableStorage.delete (ts : TableStorage) (rid : Nat) :
    TableStorage × Bool :=
  if ts.rows.any (fun p => p.1 = rid) then
    ({ ts with rows := ts.rows.filter (fun p => !(p.1 = rid)) }, true)
  else (ts, false)

/-- Write one key into a row dict (assignment `current_row[name] = v`). -/
def setKey (row : RowV) (k : String) (v : PyVal) : RowV :=
  if row.any (fun p => p.1 = k) then
    row.map (fun p => if p.1 = k then (k, v) else p)
  else row ++ [(k, v)]

/-- The merge loop of `TableStorage.update`: each update key is matched
case-insensitively against the schema and written under the schema
column name. -/
def applyUpdates (cols : List Column) (current : RowV) : RowV → RowV
  | [] => current
  | (k, v) :: rest =>
    match cols.find? (fun c => lowerStr c.name = lowerStr k) with
    | some c => applyUpdates cols (setKey current c.name v) rest
    | none => applyUpdates cols current rest

/-- `TableStorage.update`: merge, re-validate the whole row, re-check
unique constraints excluding this row, and store the validated row. -/
def TableStorage.update (ts : TableStorage) (rid : Nat) (updates : RowV) :
    Except String (TableStorage × Bool) :=
  match ts.rows.find? (fun p => p.1 = rid) with
  | none => .ok (ts, false)
  | some p =>
    match validateRow ts.schema (applyUpdates ts.schema p.2 updates) with
    | .error e => .error e
    | .ok validated =>
      match checkUnique ts.uniqueCols ts.rows validated (some rid) with
      | .error e => .error e
      | .ok _ =>
        .ok ({ ts with rows := ts.rows.map (fun q =>
                if q.1 = rid then (rid, validated) else q) }, true)

/-- One storage operation (INSERT / DELETE / UPDATE; no TRUNCATE). -/
inductive TOp where
  | ins (row : RowV) : TOp
  | del (rid : Nat) : TOp
  | upd (rid : Nat) (updates : RowV) : TOp

/-- Apply one operation; an exception leaves the storage unchanged
(validation and constraint checks happen before any mutation).  The
second component is the row id assigned by a successful insert. -/
def stepOp (ts : TableStorage) : TOp → TableStorage × Option Nat
  | .ins row =>
    match ts.insert row with
    | .ok (ts2, rid) => (ts2, some rid)
    | .error _ => (ts, none)
  | .del rid => ((ts.delete rid).1, none)
  | .upd rid ups =>
    match ts.update rid ups with
    | .ok (ts2, _) => (ts2, none)
    | .error _ => (ts, none)

/-- Run a sequence of operations, collecting the assigned row ids. -/
def runOps (ts : TableStorage) : List TOp → TableStorage × List Nat
  | [] => (ts, [])
  | op :: ops =>
    let s1 := stepOp ts op
    let s2 := runOps s1.1 ops
    (s2.1, s1.2.toList ++ s2.2)

/-- A freshly created table (`rows = {}`, `next_row_id = 1`). -/
def initTS (cols : List Column) (uniq : List String) : TableStorage :=
  ⟨cols, uniq, [], 1⟩

/-! ## B-tree index (`minidb/indexing/btree.py`)

The Python tree stores nodes in a dict keyed by node id; the reachable
structure is a tree, embedded here as an inductive.  Keys are
`Option Int` (`_compare_keys` orders `None` below everything; the
cross-type string fallback is outside the single-typed model).
`_insert_non_full` recurses into children of a freshly split node, so
its Lean form takes explicit fuel; `BTreeIdx.insert` passes
`height + 2`, which `insertFuel_sufficient` shows is never exhausted. -/

abbrev Key := Option Int

/-- `BTreeIndex._compare_keys`. -/
def cmpK : Key → Key → Int
  | none, none => 0
  | none, some _ => -1
  | some _, none => 1
  | some a, some b => if a < b then -1 else if b < a then 1 else 0

/-- A B-tree node (`BTreeNode`): keys, per-key row-id lists, children,
leaf flag. -/
inductive BT where
  | node (keys : List Key) (vals : List (List Int)) (children : List BT)
      (leafF : Bool) : BT

def BT.keys : BT → List Key
  | .node ks _ _ _ => ks

def BT.vals : BT → List (List Int)
  | .node _ vs _ _ => vs

def BT.children : BT → List BT
  | .node _ _ cs _ => cs

def BT.leafF : BT → Bool
  | .node _ _ _ lf => lf

/-- Height of a node (the Python recursion depth bound). -/
def BT.height : BT → Nat
  | .node _ _ cs _ =>
    1 + (cs.attach.map (fun c => BT.height c.1)).foldr max 0
termination_by n => sizeOf n
decreasing_by
  have := List.sizeOf_lt_of_mem c.2
  simp only [BT.node.sizeOf_spec]
  omega

/-- `BTreeIndex._split_child`: split the full child at index `ci`,
moving its median key/value up into `n` and the upper half into a new
right sibling.  The fallback branches model the `IndexError` paths that
a full child (the only caller's precondition) never reaches. -/
def splitChild (t : Nat) (n : BT) (ci : Nat) : BT :=
  match n with
  | .node pkeys pvals pcs plf =>
    match pcs.get? ci with
    | none => n
    | some child =>
      match child with
      | .node ckeys cvals ccs clf =>
        match (ckeys.take t).getLast?, (cvals.take t).getLast? with
        | some medianKey, some medianVals =>
          let childKept := BT.node (ckeys.take t).dropLast
            (cvals.take t).dropLast (if clf then ccs else ccs.take t) clf
          let newNode := BT.node (ckeys.drop t) (cvals.drop t)
            (if clf then [] else ccs.drop t) clf
          BT.node (pkeys.insertIdx ci medianKey)
            (pvals.insertIdx ci medianVals)
            ((pcs.set ci childKept).insertIdx (ci + 1) newNode) plf
        | _, _ => n

/-- The backward scan of `_insert_non_full`: the largest index `i` with
`compare_keys(key, keys[i]) >= 0`, together with `keys[i]` (`none` when
every key compares greater than `key`). -/
def scanIdx (key : Key) : List Key → Option (Nat × Key)
  | [] => none
  | k :: ks =>
    match scanIdx key ks with
    | some p => some (p.1 + 1, p.2)
    | none => if 0 ≤ cmpK key k then some (0, k) else none

/-- Row-id bookkeeping at a found key (shared by the leaf, internal and
post-split found cases of `_insert_non_full`): reject a new row id in a
unique index, append a new row id otherwise, ignore a present one. -/
def addToVals (u : Bool) (n : BT) (i : Nat) (rid : Int) : BT × Option String :=
  match n with
  | .node ks vs cs lf =>
    match vs.get? i with
    | none => (n, some "IndexError")
    | some lst =>
      if u ∧ ¬ lst.contains rid then (n, some "Duplicate key in unique index")
      else if ¬ lst.contains rid then
        (.node ks (vs.set i (lst ++ [rid])) cs lf, none)
      else (n, none)

/-- Replace child `ci` (write-back of the Python in-place mutation). -/
def setChild (n : BT) (ci : Nat) (c : BT) : BT :=
  match n with
  | .node ks vs cs lf => .node ks vs (cs.set ci c) lf

/-- `BTreeIndex._insert_non_full` with explicit fuel; the error
component models a raised exception (the state component keeps the
mutations made before the raise, as the Python object does). -/
def insertNF (t : Nat) (u : Bool) : Nat → BT → Key → Int → BT × Option String
  | 0, n, _, _ => (n, some "fuel")
  | fuel + 1, n, key, rid =>
    match n with
    | .node ks vs cs lf =>
      let scan := scanIdx key ks
      let found : Option Nat :=
        match scan with
        | some p => if cmpK key p.2 = 0 then some p.1 else none
        | none => none
      match found with
      | some i => addToVals u (.node ks vs cs lf) i rid
      | none =>
        let pos : Nat :=
          match scan with
          | some p => p.1 + 1
          | none => 0
        if lf then
          (.node (ks.insertIdx pos key) (vs.insertIdx pos [rid]) cs lf, none)
        else
          match cs.get? pos with
          | none => (.node ks vs cs lf, some "IndexError")
          | some child =>
            if child.keys.length = 2 * t - 1 then
              let n2 := splitChild t (.node ks vs cs lf) pos
              match n2.keys.get? pos with
              | none => (n2, some "IndexError")
              | some kci =>
                if 0 < cmpK key kci then
                  match n2.children.get? (pos + 1) with
                  | none => (n2, some "IndexError")
                  | some c2 =>
                    let r := insertNF t u fuel c2 key rid
                    (setChild n2 (pos + 1) r.1, r.2)
                else if cmpK key kci = 0 then addToVals u n2 pos rid
                else
                  match n2.children.get? pos with
                  | none => (n2, some "IndexError")
                  | some c2 =>
                    let r := insertNF t u fuel c2 key rid
                    (setChild n2 pos r.1, r.2)
            else
              let r := insertNF t u fuel child key rid
              (setChild (.node ks vs cs lf) pos r.1, r.2)

/-- `BTreeIndex._search`: descend to the key, returning its row-id
list. -/
def searchBT (n : BT) (key : Key) : List Int :=
  match n with
  | .node ks vs cs lf =>
    let i := ks.findIdx (fun kk => !(0 < cmpK key kk))
    match hk : ks.get? i with
    | some ki =>
      if cmpK key ki = 0 then (vs.get? i).getD []
      else if lf then []
      else
        match hc : cs.get? i with
        | some c => searchBT c key
        | none => []
    | none =>
      if lf then []
      else
        match hc : cs.get? i with
        | some c => searchBT c key
        | none => []
termination_by sizeOf n
decreasing_by
  · have := List.sizeOf_lt_of_mem (List.get?_mem hc)
    simp only [BT.node.sizeOf_spec]
    omega
  · have := List.sizeOf_lt_of_mem (List.get?_mem hc)
    simp only [BT.node.sizeOf_spec]
    omega

/-- `BTreeIndex._delete`: remove one row id from the key's list. -/
def deleteBT (n : BT) (key : Key) (rid : Int) : BT × Bool :=
  match n with
  | .node ks vs cs lf =>
    let i := ks.findIdx (fun kk => !(0 < cmpK key kk))
    match hk : ks.get? i with
    | some ki =>
      if cmpK key ki = 0 then
        match vs.get? i with
        | some lst =>
          if lst.contains rid then
            (.node ks (vs.set i (lst.erase rid)) cs lf, true)
          else (.node ks vs cs lf, false)
        | none => (.node ks vs cs lf, false)
      else if lf then (.node ks vs cs lf, false)
      else
        match hc : cs.get? i with
        | some c =>
          let r := deleteBT c key rid
          (setChild (.node ks vs cs lf) i r.1, r.2)
        | none => (.node ks vs cs lf, false)
    | none =>
      if lf then (.node ks vs cs lf, false)
      else
        match hc : cs.get? i with
        | some c =>
          let r := deleteBT c key rid
          (setChild (.node ks vs cs lf) i r.1, r.2)
        | none => (.node ks vs cs lf, false)
termination_by sizeOf n
decreasing_by
  · have := List.sizeOf_lt_of_mem (List.get?_mem hc)
    simp only [BT.node.sizeOf_spec]
    omega
  · have := List.sizeOf_lt_of_mem (List.get?_mem hc)
    simp only [BT.node.sizeOf_spec]
    omega

/-- A whole index (`BTreeIndex`): order `t`, uniqueness flag, root. -/
structure BTreeIdx where
  order : Nat
  unique : Bool
  root : BT

/-- `BTreeIndex.insert`: split a full root under a fresh root first,
then insert into the non-full tree. -/
def BTreeIdx.insert (idx : BTreeIdx) (key : Key) (rid : Int) :
    BTreeIdx × Option String :=
  let fuel := idx.root.height + 2
  if idx.root.keys.length = 2 * idx.order - 1 then
    let newRoot := BT.node [] [] [idx.root] false
    let newRoot2 := splitChild idx.order newRoot 0
    let r := insertNF idx.order idx.unique fuel newRoot2 key rid
    ({ idx with root := r.1 }, r.2)
  else
    let r := insertNF idx.order idx.unique fuel idx.root key rid
    ({ idx with root := r.1 }, r.2)

/-- `BTreeIndex.search`. -/
def BTreeIdx.search (idx : BTreeIdx) (key : Key) : List Int :=
  searchBT idx.root key

/-- `BTreeIndex.delete`. -/
def BTreeIdx.del (idx : BTreeIdx) (key : Key) (rid : Int) :
    BTreeIdx × Bool :=
  let r := deleteBT idx.root key rid
  ({ idx with root := r.1 }, r.2)

/-- One index operation. -/
inductive IdxOp where
  | ins (k : Key) (r : Int) : IdxOp
  | del (k : Key) (r : Int) : IdxOp

/-- Apply one operation; on an insert error the in-memory tree keeps the
mutations made before the raise, exactly as the Python object does. -/
def stepIdx (idx : BTreeIdx) : IdxOp → BTreeIdx
  | .ins k r => (idx.insert k r).1
  | .del k r => (idx.del k r).1

def runIdx (idx : BTreeIdx) (ops : List IdxOp) : BTreeIdx :=
  ops.foldl stepIdx idx

/-- A fresh index: a single empty leaf root. -/
def initIdx (t : Nat) (u : Bool) : BTreeIdx :=
  ⟨t, u, .node [] [] [] true⟩

mutual

/-- In-order flattening of a tree: children interleaved with their
separating keys.  Node splits leave this list exactly unchanged, which
drives both the sortedness and the contents-preservation proofs. -/
def inorder : BT → List (Key × List Int)
  | .node ks vs cs lf =>
    if lf then ks.zip vs else interleave ks vs cs
termination_by n => sizeOf n
decreasing_by
  simp only [BT.node.sizeOf_spec]
  omega

/-- Worker of `inorder` for internal nodes; trailing children (one, in a
well-formed node) are flattened in order. -/
def interleave : List Key → List (List Int) → List BT →
    List (Key × List Int)
  | k :: ks, v :: vs, c :: cs => inorder c ++ (k, v) :: interleave ks vs cs
  | _, _, cs => (cs.attach.map (fun c => inorder c.1)).flatten
termination_by ks vs cs => sizeOf cs
decreasing_by
  · simp only [List.cons.sizeOf_spec]
    omega
  · simp only [List.cons.sizeOf_spec]
    omega
  · have := List.sizeOf_lt_of_mem c.2
    omega

end

/-- All row-id lists stored anywhere in the tree. -/
def valLists : BT → List (List Int)
  | .node _ vs cs _ => vs ++ (cs.attach.map (fun c => valLists c.1)).flatten
termination_by n => sizeOf n
decreasing_by
  have := List.sizeOf_lt_of_mem c.2
  simp only [BT.node.sizeOf_spec]
  omega

/-- The key-to-row-id multimap content of a tree. -/
def mmBT (n : BT) : List (Key × Int) :=
  (inorder n).flatMap (fun p => p.2.map (fun r => (p.1, r)))

/-- Strict key precedence: `_compare_keys` returns `-1`. -/
def keyLt (a b : Key) : Prop := cmpK a b < 0

instance (a b : Key) : Decidable (keyLt a b) := by
  unfold keyLt
  infer_instance

/-- Structural well-formedness of a node, maintained by every B-tree
operation: keys and row-id lists are aligned, a leaf has no children,
an internal node has one child more than keys. -/
inductive Shape : BT → Prop where
  | leaf : ∀ ks vs, ks.length = vs.length → Shape (.node ks vs [] true)
  | internal : ∀ ks vs cs, ks.length = vs.length →
      cs.length = ks.length + 1 → (∀ c ∈ cs, Shape c) →
      Shape (.node ks vs cs false)

/-- Keys of the in-order flattening. -/
def keysOf (n : BT) : List Key := (inorder n).map Prod.fst

/-- The search-tree property: strictly increasing in-order keys. -/
def SortedBT (n : BT) : Prop := (keysOf n).Pairwise keyLt

/-- The unique-index invariant on contents: no row-id list anywhere in
the tree holds two distinct row ids. -/
def oneId (n : BT) : Prop := ∀ l ∈ valLists n, ∀ a ∈ l, ∀ b ∈ l, a = b

/-- Where the backward scan of `_insert_non_full` leaves `i + 1` when no
equal key was found: `0` when every key is greater than `key`, one past
the last key that `key` is greater than otherwise. -/
def posSpec (key : Key) (ks : List Key) (pos : Nat) : Prop :=
  (scanIdx key ks = none ∧ pos = 0) ∨
    (∃ i k, scanIdx key ks = some (i, k) ∧ ¬ cmpK key k = 0 ∧ pos = i + 1)

/-- Branch-by-branch characterization of one `_insert_non_full` step;
`insertNF_succ_step` below shows every step takes one of these forms. -/
inductive InsStep (t : Nat) (u : Bool) (fuel : Nat) (ks : List Key)
    (vs : List (List Int)) (cs : List BT) (lf : Bool) (key : Key)
    (rid : Int) : BT × Option String → Prop where
  | found (i : Nat) (k : Key) (hs : scanIdx key ks = some (i, k))
      (hz : cmpK key k = 0) :
      InsStep t u fuel ks vs cs lf key rid
        (addToVals u (.node ks vs cs lf) i rid)
  | leaf (pos : Nat) (hp : posSpec key ks pos) (hlf : lf = true) :
      InsStep t u fuel ks vs cs lf key rid
        (.node (ks.insertIdx pos key) (vs.insertIdx pos [rid]) cs lf, none)
  | ixChild (pos : Nat) (hp : posSpec key ks pos) (hlf : lf = false)
      (hc : cs.get? pos = none) :
      InsStep t u fuel ks vs cs lf key rid
        (.node ks vs cs lf, some "IndexError")
  | descend (pos : Nat) (child : BT) (hp : posSpec key ks pos)
      (hlf : lf = false) (hc : cs.get? pos = some child)
      (hnf : ¬ child.keys.length = 2 * t - 1) :
      InsStep t u fuel ks vs cs lf key rid
        (setChild (.node ks vs cs lf) pos
          (insertNF t u fuel child key rid).1,
         (insertNF t u fuel child key rid).2)
  | ixSplitKey (pos : Nat) (child : BT) (hp : posSpec key ks pos)
      (hlf : lf = false) (hc : cs.get? pos = some child)
      (hf : child.keys.length = 2 * t - 1)
      (hk : (splitChild t (.node ks vs cs lf) pos).keys.get? pos = none) :
      InsStep t u fuel ks vs cs lf key rid
        (splitChild t (.node ks vs cs lf) pos, some "IndexError")
  | splitGtIx (pos : Nat) (child : BT) (kci : Key) (hp : posSpec key ks pos)
      (hlf : lf = false) (hc : cs.get? pos = some child)
      (hf : child.keys.length = 2 * t - 1)
      (hk : (splitChild t (.node ks vs cs lf) pos).keys.get? pos = some kci)
      (hgt : 0 < cmpK key kci)
      (hc2 : (splitChild t (.node ks vs cs lf) pos).children.get? (pos + 1)
        = none) :
      InsStep t u fuel ks vs cs lf key rid
        (splitChild t (.node ks vs cs lf) pos, some "IndexError")
  | splitGt (pos : Nat) (child : BT) (kci : Key) (c2 : BT)
      (hp : posSpec key ks pos) (hlf : lf = false)
      (hc : cs.get? pos = some child)
      (hf : child.keys.length = 2 * t - 1)
      (hk : (splitChild t (.node ks vs cs lf) pos).keys.get? pos = some kci)
      (hgt : 0 < cmpK key kci)
      (hc2 : (splitChild t (.node ks vs cs lf) pos).children.get? (pos + 1)
        = some c2) :
      InsStep t u fuel ks vs cs lf key rid
        (setChild (splitChild t (.node ks vs cs lf) pos) (pos + 1)
          (insertNF t u fuel c2 key rid).1,
         (insertNF t u fuel c2 key rid).2)
  | splitEq (pos : Nat) (child : BT) (kci : Key) (hp : posSpec key ks pos)
      (hlf : lf = false) (hc : cs.get? pos = some child)
      (hf : child.keys.length = 2 * t - 1)
      (hk : (splitChild t (.node ks vs cs lf) pos).keys.get? pos = some kci)
      (heq : cmpK key kci = 0) :
      InsStep t u fuel ks vs cs lf key rid
        (addToVals u (splitChild t (.node ks vs cs lf) pos) pos rid)
  | splitLtIx (pos : Nat) (child : BT) (kci : Key) (hp : posSpec key ks pos)
      (hlf : lf = false) (hc : cs.get? pos = some child)
      (hf : child.keys.length = 2 * t - 1)
      (hk : (splitChild t (.node ks vs cs lf) pos).keys.get? pos = some kci)
      (hlt : cmpK key kci < 0)
      (hc2 : (splitChild t (.node ks vs cs lf) pos).children.get? pos
        = none) :
      InsStep t u fuel ks vs cs lf key rid
        (splitChild t (.node ks vs cs lf) pos, some "IndexError")
  | splitLt (pos : Nat) (child : BT) (kci : Key) (c2 : BT)
      (hp : posSpec key ks pos) (hlf : lf = false)
      (hc : cs.get? pos = some child)
      (hf : child.keys.length = 2 * t - 1)
      (hk : (splitChild t (.node ks vs cs lf) pos).keys.get? pos = some kci)
      (hlt : cmpK key kci < 0)
      (hc2 : (splitChild t (.node ks vs cs lf) pos).children.get? pos
        = some c2) :
      InsStep t u fuel ks vs cs lf key rid
        (setChild (splitChild t (.node ks vs cs lf) pos) pos
          (insertNF t u fuel c2 key rid).1,
         (insertNF t u fuel c2 key rid).2)

/-- A usable index: Python's `order` (≥ 2; the default is 50) and a
well-formed root. -/
def WFI (idx : BTreeIdx) : Prop := 2 ≤ idx.order ∧ Shape idx.root

/-! ## Multi-row INSERT (`QueryExecutor._execute_insert`) -/

/-- Python `row.get(col_name)` on the dict built for one value row. -/
def rowGet (row : RowV) (k : String) : Option PyVal :=
  (row.find? (fun p => p.1 = k)).map (fun p => p.2)

/-- Executor-visible state for one table: its storage plus the column
indexes (`index_manager.get_table_indexes(stmt.table)`). -/
structure ExecSt where
  ts : TableStorage
  idxs : List (String × BTreeIdx)

/-- The index-update loop of `_execute_insert`: for each index whose
column has a non-NULL value in the inserted row dict, insert that value
with the new row id; a raised exception aborts the loop, keeping the
updates already made.  The model's key domain is `Option Int`, so the
runs considered index `INTEGER` columns (missing and NULL values are
skipped exactly as in the source). -/
def idxUpdate (row : RowV) (rid : Int) :
    List (String × BTreeIdx) → List (String × BTreeIdx) × Option String
  | [] => ([], none)
  | (c, idx) :: rest =>
    match rowGet row c with
    | some (.pint n) =>
      let r := idx.insert (some n) rid
      match r.2 with
      | some e => ((c, r.1) :: rest, some e)
      | none =>
        let rr := idxUpdate row rid rest
        ((c, r.1) :: rr.1, rr.2)
    | _ =>
      let rr := idxUpdate row rid rest
      ((c, idx) :: rr.1, rr.2)

/-- One iteration of the row loop of `_execute_insert`: store the row
(`table_storage.insert`), then update the indexes.  A storage exception
leaves everything unchanged; an index exception keeps the stored row
and the earlier index updates. -/
def insertRow (st : ExecSt) (row : RowV) : ExecSt × Option String :=
  match st.ts.insert row with
  | .error e => (st, some e)
  | .ok (ts2, rid) =>
    let r := idxUpdate row (rid : Int) st.idxs
    (⟨ts2, r.1⟩, r.2)

/-- The row loop of `_execute_insert`: value rows are inserted in
order; the first exception aborts the statement, keeping all effects of
the completed iterations.  The `Nat` component is Python's `inserted`
counter at the time the loop stops. -/
def execInsert (st : ExecSt) : List RowV → ExecSt × Option String × Nat
  | [] => (st, none, 0)
  | row :: rest =>
    match insertRow st row with
    | (st2, some e) => (st2, some e, 0)
    | (st2, none) =>
      let r := execInsert st2 rest
      (r.1, r.2.1, r.2.2 + 1)

/-! ### Claim C1 -/

theorem eval_bin_eq_def (row : Row) (l r : Expr) :
    eval row (.bin "=" l r) =
      (eval row l).bind (fun lv => (eval row r).bind (fun rv =>
        .ok (.vbool (Value.pyEq lv rv)))) := rfl

theorem eval_bin_ne_def (row : Row) (l r : Expr) (op : String)
    (h : op = "!=" ∨ op = "<>") :
    eval row (.bin op l r) =
      (eval row l).bind (fun lv => (eval row r).bind (fun rv =>
        .ok (.vbool (!Value.pyEq lv rv)))) := by
  rcases h with h | h <;> subst h <;> rfl

theorem eval_bin_lt_def (row : Row) (l r : Expr) :
    eval row (.bin "<" l r) =
      (eval row l).bind (fun lv => (eval row r).bind (fun rv =>
        if lv ≠ .vnull ∧ rv ≠ .vnull then
          match Value.pyLt lv rv with
          | some b => .ok (.vbool b)
          | none => .error "TypeError"
        else .ok (.vbool false))) := rfl

theorem eval_bin_gt_def (row : Row) (l r : Expr) :
    eval row (.bin ">" l r) =
      (eval row l).bind (fun lv => (eval row r).bind (fun rv =>
        if lv ≠ .vnull ∧ rv ≠ .vnull then
          match Value.pyLt rv lv with
          | some b => .ok (.vbool b)
          | none => .error "TypeError"
        else .ok (.vbool false))) := rfl

theorem eval_bin_le_def (row : Row) (l r : Expr) :
    eval row (.bin "<=" l r) =
      (eval row l).bind (fun lv => (eval row r).bind (fun rv =>
        if lv ≠ .vnull ∧ rv ≠ .vnull then
          match Value.pyLt rv lv with
          | some b => .ok (.vbool (!b))
          | none => .error "TypeError"
        else .ok (.vbool false))) := rfl

theorem eval_bin_ge_def (row : Row) (l r : Expr) :
    eval row (.bin ">=" l r) =
      (eval row l).bind (fun lv => (eval row r).bind (fun rv =>
        if lv ≠ .vnull ∧ rv ≠ .vnull then
          match Value.pyLt lv rv with
          | some b => .ok (.vbool (!b))
          | none => .error "TypeError"
        else .ok (.vbool false))) := rfl

theorem pyEq_vnull_left (v : Value) :
    Value.pyEq .vnull v = decide (v = .vnull) := by
  cases v <;> rfl

theorem pyEq_vnull_right (v : Value) :
    Value.pyEq v .vnull = decide (v = .vnull) := by
  cases v <;> rfl

/-- C1 (counterexample): the claim says `NULL = NULL` evaluates to false
and selects no row; in the code `=` is Python `==`, so `NULL = NULL`
evaluates to `True` and a row whose compared operands are both NULL is
kept by the WHERE filter. -/
theorem C1_counterexample :
    eval [("a", Value.vnull)] (.bin "=" (.col "a") (.col "a")) =
      .ok (.vbool true) ∧
    ¬ (eval [("a", Value.vnull)] (.bin "=" (.col "a") (.col "a")) =
      .ok (.vbool false)) ∧
    applyWhere (.bin "=" (.col "a") (.col "a")) [[("a", Value.vnull)]] =
      .ok [[("a", Value.vnull)]] := by
  refine ⟨rfl, fun h => ?_, rfl⟩
  rw [show eval [("a", Value.vnull)] (.bin "=" (.col "a") (.col "a")) =
    .ok (.vbool true) from rfl] at h
  simp at h

/-- C1 (amended): order comparisons (`<`, `>`, `<=`, `>=`) in which at
least one operand is NULL yield false; but `=` follows Python equality,
so it yields true exactly when both operands are NULL (in particular
`NULL = NULL` is true and such rows are selected), and `!=`/`<>` is its
negation, yielding true when exactly one operand is NULL. -/
theorem C1_corrected (row : Row) (l r : Expr) (lv rv : Value)
    (hl : eval row l = .ok lv) (hr : eval row r = .ok rv)
    (hnull : lv = .vnull ∨ rv = .vnull) :
    (∀ op ∈ (["<", ">", "<=", ">="] : List String),
      eval row (.bin op l r) = .ok (.vbool false)) ∧
    eval row (.bin "=" l r) =
      .ok (.vbool (decide (lv = .vnull ∧ rv = .vnull))) ∧
    (∀ op ∈ (["!=", "<>"] : List String),
      eval row (.bin op l r) =
        .ok (.vbool (!decide (lv = .vnull ∧ rv = .vnull)))) := by
  have hguard : ¬ (lv ≠ Value.vnull ∧ rv ≠ Value.vnull) := by
    rcases hnull with h | h <;> simp [h]
  have heqv : Value.pyEq lv rv = decide (lv = .vnull ∧ rv = .vnull) := by
    rcases hnull with h | h <;> subst h
    · rw [pyEq_vnull_left]
      by_cases hv : rv = Value.vnull <;> simp [hv]
    · rw [pyEq_vnull_right]
      by_cases hv : lv = Value.vnull <;> simp [hv]
  refine ⟨?_, ?_, ?_⟩
  · intro op hop
    simp only [List.mem_cons, List.not_mem_nil, or_false] at hop
    rcases hop with h | h | h | h
    · subst h; rw [eval_bin_lt_def, hl, hr]; simp [Except.bind, hguard]
    · subst h; rw [eval_bin_gt_def, hl, hr]; simp [Except.bind, hguard]
    · subst h; rw [eval_bin_le_def, hl, hr]; simp [Except.bind, hguard]
    · subst h; rw [eval_bin_ge_def, hl, hr]; simp [Except.bind, hguard]
  · rw [eval_bin_eq_def, hl, hr]
    simp [Except.bind, heqv]
  · intro op hop
    simp only [List.mem_cons, List.not_mem_nil, or_false] at hop
    rw [eval_bin_ne_def row l r op hop, hl, hr]
    simp [Except.bind, heqv]

/-- C1 (witness): the amended claim applied to `NULL < 3` and `NULL != 3`. -/
theorem C1_witness :
    eval [] (.bin "<" (.lit .vnull) (.lit (.vint 3))) = .ok (.vbool false) ∧
    eval [] (.bin "!=" (.lit .vnull) (.lit (.vint 3))) = .ok (.vbool true) := by
  have h := C1_corrected [] (.lit .vnull) (.lit (.vint 3)) .vnull (.vint 3)
    rfl rfl (Or.inl rfl)
  refine ⟨h.1 "<" (by simp), ?_⟩
  have h2 := h.2.2 "!=" (by simp)
  simpa using h2

/-! ### Claim C2 -/

theorem cmp2_antisymm (p q : ℤ × ℤ) : cmp2 q p = -cmp2 p q := by
  rcases p with ⟨p1, p2⟩
  rcases q with ⟨q1, q2⟩
  unfold cmp2
  dsimp only
  split_ifs <;> omega

theorem cmp2_eq_zero (p q : ℤ × ℤ) : cmp2 p q = 0 ↔ p = q := by
  rcases p with ⟨p1, p2⟩
  rcases q with ⟨q1, q2⟩
  unfold cmp2
  dsimp only
  simp only [Prod.mk.injEq]
  split_ifs <;> constructor <;> intro h <;> first | exact h.elim | omega

theorem cmp2_trans {p q r : ℤ × ℤ} (h₁ : cmp2 p q ≤ 0) (h₂ : cmp2 q r ≤ 0) :
    cmp2 p r ≤ 0 := by
  rcases p with ⟨p1, p2⟩
  rcases q with ⟨q1, q2⟩
  rcases r with ⟨r1, r2⟩
  unfold cmp2 at *
  dsimp only at *
  split_ifs at * <;> omega

theorem cmpLex_antisymm (ps qs : List (ℤ × ℤ)) (h : ps.length = qs.length) :
    cmpLex qs ps = -cmpLex ps qs := by
  induction ps generalizing qs with
  | nil =>
    cases qs with
    | nil => simp [cmpLex]
    | cons q qs => simp at h
  | cons p ps ih =>
    cases qs with
    | cons q qs =>
      simp only [cmpLex]
      rw [cmp2_antisymm p q]
      by_cases h0 : cmp2 p q = 0
      · simp only [h0, neg_zero, if_pos rfl, if_pos]
        exact ih qs (by simpa using h)
      · rw [if_neg (by simpa using h0), if_neg h0]
    | nil => simp at h

theorem cmpLex_trans {ps qs rs : List (ℤ × ℤ)}
    (h₁ : cmpLex ps qs ≤ 0) (h₂ : cmpLex qs rs ≤ 0)
    (hl₁ : ps.length = qs.length) (hl₂ : qs.length = rs.length) :
    cmpLex ps rs ≤ 0 := by
  induction ps generalizing qs rs with
  | nil =>
    cases qs with
    | nil => cases rs <;> simp_all [cmpLex]
    | cons q qs => simp at hl₁
  | cons p ps ih =>
    cases qs with
    | nil => simp at hl₁
    | cons q qs =>
      cases rs with
      | nil => simp at hl₂
      | cons r rs =>
        simp only [cmpLex] at h₁ h₂ ⊢
        by_cases hpq : cmp2 p q = 0
        · have hpq2 : p = q := (cmp2_eq_zero p q).mp hpq
          subst hpq2
          rw [if_pos hpq] at h₁
          by_cases hqr : cmp2 p r = 0
          · rw [if_pos hqr] at h₂ ⊢
            exact ih h₁ h₂ (by simpa using hl₁) (by simpa using hl₂)
          · rw [if_neg hqr] at h₂ ⊢
            exact h₂
        · rw [if_neg hpq] at h₁
          by_cases hqr : cmp2 q r = 0
          · have hqr2 : q = r := (cmp2_eq_zero q r).mp hqr
            subst hqr2
            rw [if_neg hpq]
            exact h₁
          · rw [if_neg hqr] at h₂
            by_cases hpr : cmp2 p r = 0
            · have hpr2 : p = r := (cmp2_eq_zero p r).mp hpr
              subst hpr2
              have := cmp2_antisymm p q
              omega
            · rw [if_neg hpr]
              exact cmp2_trans h₁ h₂

theorem pyLt_vint (m n : Int) :
    Value.pyLt (.vint m) (.vint n) = some (decide (m < n)) := by
  simp [Value.pyLt, Value.toNum]

theorem cmpLex_cons (p q : ℤ × ℤ) (ps qs : List (ℤ × ℤ)) :
    cmpLex (p :: ps) (q :: qs) =
      if cmp2 p q = 0 then cmpLex ps qs else cmp2 p q := rfl

/-- On NULL-or-int rows, the source comparator agrees with the
lexicographic comparison of rank vectors. -/
theorem rowCompare_eq_cmpLex (a b : Row) :
    ∀ (order : List OrderItem), goodRow order a → goodRow order b →
      rowCompare order a b = some (cmpLex (ranks order a) (ranks order b)) := by
  intro order
  induction order with
  | nil => intro _ _; simp [rowCompare, ranks, cmpLex]
  | cons it rest ih =>
    intro ha hb
    have ha2 : goodRow rest a := fun j hj => ha j (List.mem_cons_of_mem it hj)
    have hb2 : goodRow rest b := fun j hj => hb j (List.mem_cons_of_mem it hj)
    have ihr := ih ha2 hb2
    have hra : ranks (it :: rest) a =
        rankVal it.direction (keyVal a it) :: ranks rest a := rfl
    have hrb : ranks (it :: rest) b =
        rankVal it.direction (keyVal b it) :: ranks rest b := rfl
    rcases ha it (List.mem_cons_self it rest) with ha1 | ⟨m, ha1⟩ <;>
      rcases hb it (List.mem_cons_self it rest) with hb1 | ⟨n, hb1⟩ <;>
      simp only [rowCompare, ha1, hb1, hra, hrb] <;>
      simp only [keyVal, ha1, hb1]
    · -- both NULL: fall through to the remaining keys
      rw [ihr, cmpLex_cons, if_pos ((cmp2_eq_zero _ _).mpr rfl)]
      simp
    · -- a NULL, b int
      rw [if_pos trivial]
      cases hd : it.direction <;>
        simp [cmpLex_cons, cmp2, rankVal] <;> omega
    · -- a int, b NULL
      rw [if_pos trivial]
      cases hd : it.direction <;>
        simp [cmpLex_cons, cmp2, rankVal] <;> omega
    · -- both int
      rw [pyLt_vint, pyLt_vint]
      by_cases hmn : m < n
      · rw [decide_eq_true hmn]
        cases hd : it.direction <;>
          simp [cmpLex_cons, cmp2, rankVal, hmn] <;> omega
      · by_cases hnm : n < m
        · rw [decide_eq_false hmn, decide_eq_true hnm]
          cases hd : it.direction <;>
            simp [cmpLex_cons, cmp2, rankVal, hmn, hnm] <;> omega
        · have hmn2 : m = n := by omega
          subst hmn2
          rw [decide_eq_false hmn]
          simp only [Bool.false_eq_true, if_false, ihr, cmpLex_cons]
          rw [if_pos ((cmp2_eq_zero _ _).mpr rfl)]
          simp

theorem ranks_length_eq (order : List OrderItem) (a b : Row) :
    (ranks order a).length = (ranks order b).length := by
  simp [ranks]

theorem cmpLe_total_good {order : List OrderItem} {a b : Row}
    (ha : goodRow order a) (hb : goodRow order b) :
    cmpLe order a b = true ∨ cmpLe order b a = true := by
  unfold cmpLe
  rw [rowCompare_eq_cmpLex a b order ha hb,
    rowCompare_eq_cmpLex b a order hb ha,
    cmpLex_antisymm (ranks order a) (ranks order b)
      (ranks_length_eq order a b)]
  simp only [Option.getD_some, decide_eq_true_eq]
  omega

theorem cmpLe_trans_good {order : List OrderItem} {a b c : Row}
    (ha : goodRow order a) (hb : goodRow order b) (hc : goodRow order c)
    (h₁ : cmpLe order a b = true) (h₂ : cmpLe order b c = true) :
    cmpLe order a c = true := by
  unfold cmpLe at *
  rw [rowCompare_eq_cmpLex a b order ha hb] at h₁
  rw [rowCompare_eq_cmpLex b c order hb hc] at h₂
  rw [rowCompare_eq_cmpLex a c order ha hc]
  simp only [Option.getD_some, decide_eq_true_eq] at *
  exact cmpLex_trans h₁ h₂ (ranks_length_eq order a b) (ranks_length_eq order b c)

theorem merge_nil_right {α : Type} (l : List α) (le : α → α → Bool) :
    l.merge [] le = l := by
  cases l with
  | nil => rw [List.nil_merge]
  | cons x xs => rw [List.merge] <;> simp

/-- Pairwise sortedness of `List.merge` with the comparator laws needed
only on elements satisfying `P` (the library lemma demands them
globally, which the Python comparator cannot satisfy across
incomparable value types). -/
theorem pairwise_merge_res {α : Type} {P : α → Prop} {le : α → α → Bool}
    (total : ∀ a b, P a → P b → le a b = true ∨ le b a = true)
    (trans : ∀ a b c, P a → P b → P c →
      le a b = true → le b c = true → le a c = true) :
    ∀ (l₁ l₂ : List α), (∀ a ∈ l₁, P a) → (∀ a ∈ l₂, P a) →
      l₁.Pairwise (fun a b => le a b = true) →
      l₂.Pairwise (fun a b => le a b = true) →
      (l₁.merge l₂ le).Pairwise (fun a b => le a b = true) := by
  intro l₁
  induction l₁ with
  | nil =>
    intro l₂ _ _ _ hp₂
    simpa [List.nil_merge] using hp₂
  | cons x xs ih₁ =>
    intro l₂
    induction l₂ with
    | nil =>
      intro _ _ hp₁ _
      simpa [merge_nil_right] using hp₁
    | cons y ys ih₂ =>
      intro h₁ h₂ hp₁ hp₂
      rw [List.cons_merge_cons]
      by_cases hxy : le x y = true
      · rw [if_pos hxy]
        refine List.Pairwise.cons ?_ ?_
        · intro z hz
          rw [List.mem_merge] at hz
          rcases hz with hz | hz
          · exact (List.pairwise_cons.mp hp₁).1 z hz
          · rcases List.mem_cons.mp hz with rfl | hz
            · exact hxy
            · exact trans x y z (h₁ x (by simp)) (h₂ y (by simp))
                (h₂ z (List.mem_cons_of_mem y hz)) hxy
                ((List.pairwise_cons.mp hp₂).1 z hz)
        · exact ih₁ (y :: ys) (fun u hu => h₁ u (List.mem_cons_of_mem x hu))
            h₂ (List.pairwise_cons.mp hp₁).2 hp₂
      · have hyx : le y x = true :=
          (total x y (h₁ x (by simp)) (h₂ y (by simp))).resolve_left hxy
        rw [if_neg hxy]
        refine List.Pairwise.cons ?_ ?_
        · intro z hz
          rw [List.mem_merge] at hz
          rcases hz with hz | hz
          · rcases List.mem_cons.mp hz with rfl | hz
            · exact hyx
            · exact trans y x z (h₂ y (by simp)) (h₁ x (by simp))
                (h₁ z (List.mem_cons_of_mem x hz)) hyx
                ((List.pairwise_cons.mp hp₁).1 z hz)
          · exact (List.pairwise_cons.mp hp₂).1 z hz
        · exact ih₂ h₁ (fun u hu => h₂ u (List.mem_cons_of_mem y hu))
            hp₁ (List.pairwise_cons.mp hp₂).2

/-- Pairwise sortedness of `List.mergeSort` with comparator laws
restricted to elements of the list being sorted. -/
theorem pairwise_mergeSort_res {α : Type} {P : α → Prop} {le : α → α → Bool}
    (total : ∀ a b, P a → P b → le a b = true ∨ le b a = true)
    (trans : ∀ a b c, P a → P b → P c →
      le a b = true → le b c = true → le a c = true) :
    ∀ (l : List α), (∀ a ∈ l, P a) →
      (l.mergeSort le).Pairwise (fun a b => le a b = true) := by
  suffices H : ∀ (n : Nat) (l : List α), l.length ≤ n → (∀ a ∈ l, P a) →
      (l.mergeSort le).Pairwise (fun a b => le a b = true) by
    intro l hl
    exact H l.length l le_rfl hl
  intro n
  induction n with
  | zero =>
    intro l hlen _
    have hnil : l = [] := List.eq_nil_of_length_eq_zero (Nat.le_zero.mp hlen)
    subst hnil
    simp
  | succ n ihn =>
    intro l hlen hl
    match l, hlen, hl with
    | [], _, _ => simp
    | [a], _, _ => simp
    | a :: b :: xs, hlen, hl =>
      have heq : (a :: b :: xs).mergeSort le =
          ((List.splitInTwo ⟨a :: b :: xs, rfl⟩).1.1.mergeSort le).merge
            ((List.splitInTwo ⟨a :: b :: xs, rfl⟩).2.1.mergeSort le) le := by
        conv_lhs => rw [List.mergeSort]
      rw [heq, List.splitInTwo_fst, List.splitInTwo_snd]
      dsimp only
      have htk : ∀ u ∈ (a :: b :: xs).take (((a :: b :: xs).length + 1) / 2),
          P u := fun u hu => hl u (List.mem_of_mem_take hu)
      have hdr : ∀ u ∈ (a :: b :: xs).drop (((a :: b :: xs).length + 1) / 2),
          P u := fun u hu => hl u (List.mem_of_mem_drop hu)
      refine pairwise_merge_res total trans _ _
        (fun u hu => htk u (List.mem_mergeSort.mp hu))
        (fun u hu => hdr u (List.mem_mergeSort.mp hu))
        (ihn _ ?_ htk) (ihn _ ?_ hdr)
      · rw [List.length_take]
        simp only [List.length_cons] at hlen ⊢
        omega
      · rw [List.length_drop]
        simp only [List.length_cons] at hlen ⊢
        omega

unseal List.merge List.mergeSort in
/-- C2 (counterexample): the claim says NULL-keyed rows sort before
non-NULL-keyed rows regardless of direction; under `ORDER BY k DESC` the
code places the NULL row after the non-NULL row. -/
theorem C2_counterexample :
    applyOrderBy [⟨.col "k", .desc⟩]
        [[("k", Value.vnull)], [("k", Value.vint 1)]] =
      [[("k", Value.vint 1)], [("k", Value.vnull)]] ∧
    ¬ (applyOrderBy [⟨.col "k", .desc⟩]
        [[("k", Value.vnull)], [("k", Value.vint 1)]] =
      [[("k", Value.vnull)], [("k", Value.vint 1)]]) := by
  constructor
  · decide
  · decide

/-- C2 (amended): ORDER BY sorts by successive keys with a per-key
direction (output is a permutation of the input, pairwise ordered by the
source comparator); on rows whose key values are NULL or int, rows with
NULL in the primary sort key are placed before rows with non-NULL values
when that key is ASC, but after them when it is DESC. -/
theorem C2_corrected (it : OrderItem) (rest : List OrderItem)
    (rows : List Row) (hdom : ∀ r ∈ rows, goodRow (it :: rest) r) :
    (applyOrderBy (it :: rest) rows).Perm rows ∧
    (applyOrderBy (it :: rest) rows).Pairwise
      (fun a b => cmpLe (it :: rest) a b = true) ∧
    (it.direction = .asc →
      (applyOrderBy (it :: rest) rows).Pairwise
        (fun a b => keyVal a it ≠ .vnull → keyVal b it ≠ .vnull)) ∧
    (it.direction = .desc →
      (applyOrderBy (it :: rest) rows).Pairwise
        (fun a b => keyVal a it = .vnull → keyVal b it = .vnull)) := by
  have hperm : (applyOrderBy (it :: rest) rows).Perm rows :=
    List.mergeSort_perm rows (cmpLe (it :: rest))
  have hpair : (applyOrderBy (it :: rest) rows).Pairwise
      (fun a b => cmpLe (it :: rest) a b = true) :=
    @pairwise_mergeSort_res Row (goodRow (it :: rest)) (cmpLe (it :: rest))
      (fun _ _ ha hb => cmpLe_total_good ha hb)
      (fun _ _ _ ha hb hc h₁ h₂ => cmpLe_trans_good ha hb hc h₁ h₂)
      rows hdom
  refine ⟨hperm, hpair, ?_, ?_⟩
  · intro hd
    refine hpair.imp_of_mem ?_
    intro a b hma hmb hab hka
    have ha := hdom a (hperm.mem_iff.mp hma)
    have hb := hdom b (hperm.mem_iff.mp hmb)
    intro hkb
    rcases ha it (List.mem_cons_self it rest) with ha1 | ⟨m, ha1⟩
    · exact hka (by simp [keyVal, ha1])
    rcases hb it (List.mem_cons_self it rest) with hb1 | ⟨n, hb1⟩
    swap
    · simp [keyVal, hb1] at hkb
    have hbr := rowCompare_eq_cmpLex a b (it :: rest) ha hb
    unfold cmpLe at hab
    rw [hbr] at hab
    simp only [Option.getD_some, decide_eq_true_eq] at hab
    have hhead : ranks (it :: rest) a = (1, m) :: ranks rest a := by
      simp [ranks, keyVal, ha1, rankVal, hd]
    have hheadb : ranks (it :: rest) b = (0, 0) :: ranks rest b := by
      simp [ranks, keyVal, hb1, rankVal, hd]
    rw [hhead, hheadb, cmpLex_cons] at hab
    norm_num [cmp2] at hab
  · intro hd
    refine hpair.imp_of_mem ?_
    intro a b hma hmb hab hka
    have ha := hdom a (hperm.mem_iff.mp hma)
    have hb := hdom b (hperm.mem_iff.mp hmb)
    by_contra hkb
    rcases hb it (List.mem_cons_self it rest) with hb1 | ⟨n, hb1⟩
    · exact hkb (by simp [keyVal, hb1])
    rcases ha it (List.mem_cons_self it rest) with ha1 | ⟨m, ha1⟩
    swap
    · simp [keyVal, ha1] at hka
    have hbr := rowCompare_eq_cmpLex a b (it :: rest) ha hb
    unfold cmpLe at hab
    rw [hbr] at hab
    simp only [Option.getD_some, decide_eq_true_eq] at hab
    have hhead : ranks (it :: rest) a = (1, 0) :: ranks rest a := by
      simp [ranks, keyVal, ha1, rankVal, hd]
    have hheadb : ranks (it :: rest) b = (0, -n) :: ranks rest b := by
      simp [ranks, keyVal, hb1, rankVal, hd]
    rw [hhead, hheadb, cmpLex_cons] at hab
    norm_num [cmp2] at hab

/-- C2 (witness): the amended claim applied to two concrete rows under
`ORDER BY k ASC`. -/
theorem C2_witness :
    (applyOrderBy [⟨.col "k", .asc⟩]
        [[("k", Value.vint 2)], [("k", Value.vnull)]]).Perm
      [[("k", Value.vint 2)], [("k", Value.vnull)]] ∧
    (applyOrderBy [⟨.col "k", .asc⟩]
        [[("k", Value.vint 2)], [("k", Value.vnull)]]).Pairwise
      (fun a b =>
        keyVal a ⟨.col "k", .asc⟩ ≠ .vnull →
        keyVal b ⟨.col "k", .asc⟩ ≠ .vnull) := by
  have h := C2_corrected ⟨.col "k", .asc⟩ []
    [[("k", Value.vint 2)], [("k", Value.vnull)]]
    (by
      intro r hr j hj
      simp only [List.mem_singleton] at hj
      subst hj
      simp only [List.mem_cons, List.not_mem_nil, or_false] at hr
      rcases hr with rfl | rfl
      · exact Or.inr ⟨2, rfl⟩
      · exact Or.inl rfl)
  exact ⟨h.1, h.2.2.1 rfl⟩

/-! ### Claim C5 -/

theorem pyEq_eq_eqKey (a b : Value) :
    Value.pyEq a b = decide (eqKey a = eqKey b) := by
  cases a <;> cases b <;>
    simp [Value.pyEq, Value.toNum, eqKey, Prod.ext_iff] <;>
    split_ifs <;> simp_all

theorem collectVals_cons (args : List AggArg) (r : Row) (rs : List Row) :
    collectVals args (r :: rs) =
      (collectRowVals r args).bind (fun here =>
        (collectVals args rs).bind (fun rest => .ok (here ++ rest))) := rfl

theorem collectVals_append (args : List AggArg) (l₁ l₂ : List Row) :
    collectVals args (l₁ ++ l₂) =
      (collectVals args l₁).bind (fun v₁ =>
        (collectVals args l₂).bind (fun v₂ => .ok (v₁ ++ v₂))) := by
  induction l₁ with
  | nil =>
    simp only [List.nil_append, collectVals]
    cases collectVals args l₂ <;> simp [Except.bind]
  | cons r rs ih =>
    simp only [List.cons_append, collectVals_cons, ih]
    cases collectRowVals r args <;>
      [simp [Except.bind];
       (cases collectVals args rs <;>
         [simp [Except.bind];
          (cases collectVals args l₂ <;> simp [Except.bind])])]

theorem collectRowVals_single (r : Row) (e : Expr) (v : Value)
    (h : eval r e = .ok v) :
    collectRowVals r [.expr e] = .ok (if v = .vnull then [] else [v]) := by
  by_cases hv : v = .vnull
  · subst hv
    simp only [collectRowVals, h]
    rfl
  · simp only [collectRowVals, h]
    show (if v = Value.vnull then (Except.ok [] : Except String (List Value))
      else Except.ok [v]) = Except.ok (if v = Value.vnull then [] else [v])
    rw [if_neg hv, if_neg hv]

theorem computeAggregate_congr (name : String) (d : Bool)
    {a₁ a₂ : List AggArg} {r₁ r₂ : List Row}
    (h : collectVals a₁ r₁ = collectVals a₂ r₂) :
    computeAggregate name a₁ d r₁ = computeAggregate name a₂ d r₂ := by
  unfold computeAggregate
  rw [h]

theorem collectVals_single_eq (e : Expr) :
    ∀ rows : List Row, (∀ r ∈ rows, ∃ v, eval r e = .ok v) →
      collectVals [.expr e] rows =
        .ok ((rows.map (fun r => evalV r e)).filter
          (fun v => !decide (v = .vnull))) := by
  intro rows
  induction rows with
  | nil => intro _; rfl
  | cons r rs ih =>
    intro he
    obtain ⟨v, hv⟩ := he r (List.mem_cons_self r rs)
    rw [collectVals_cons, collectRowVals_single r e v hv,
      ih (fun u hu => he u (List.mem_cons_of_mem r hu))]
    have hevalV : evalV r e = v := by simp [evalV, hv]
    simp only [List.map_cons, List.filter_cons, hevalV, Except.bind]
    by_cases hnull : v = .vnull
    · simp [hnull]
    · simp [hnull]

theorem mem_dedupPy {vs : List Value} : ∀ w ∈ dedupPy vs, w ∈ vs := by
  induction vs with
  | nil => intro w hw; simp [dedupPy] at hw
  | cons v vs ih =>
    intro w hw
    simp only [dedupPy] at hw
    by_cases hc : vs.any (fun u => Value.pyEq v u) = true
    · rw [if_pos hc] at hw
      exact List.mem_cons_of_mem _ (ih w hw)
    · rw [if_neg hc] at hw
      rcases List.mem_cons.mp hw with rfl | hw
      · exact List.mem_cons_self _ _
      · exact List.mem_cons_of_mem _ (ih w hw)

theorem dedupPy_pairwise (vs : List Value) :
    (dedupPy vs).Pairwise (fun a b => Value.pyEq a b = false) := by
  induction vs with
  | nil => simp [dedupPy]
  | cons v vs ih =>
    simp only [dedupPy]
    by_cases hc : vs.any (fun u => Value.pyEq v u) = true
    · rw [if_pos hc]
      exact ih
    · rw [if_neg hc]
      refine List.Pairwise.cons ?_ ih
      intro w hw
      have hmem := mem_dedupPy w hw
      simp only [List.any_eq_true, not_exists, not_and] at hc
      have := hc w hmem
      cases h2 : Value.pyEq v w
      · rfl
      · exact absurd h2 this

theorem dedupPy_any (w : Value) (vs : List Value) :
    (dedupPy vs).any (fun v => Value.pyEq w v) =
      vs.any (fun v => Value.pyEq w v) := by
  induction vs with
  | nil => rfl
  | cons v vs ih =>
    simp only [dedupPy]
    by_cases hc : vs.any (fun u => Value.pyEq v u) = true
    · rw [if_pos hc, ih, List.any_cons]
      cases hwv : Value.pyEq w v
      · simp
      · obtain ⟨x, hx, hvx⟩ := List.any_eq_true.mp hc
        have hwx : Value.pyEq w x = true := by
          rw [pyEq_eq_eqKey] at hwv hvx ⊢
          simp only [decide_eq_true_eq] at hwv hvx ⊢
          exact hwv.trans hvx
        have : vs.any (fun u => Value.pyEq w u) = true :=
          List.any_eq_true.mpr ⟨x, hx, hwx⟩
        simp [this]
    · rw [if_neg hc]
      simp only [List.any_cons, ih]

/-- C5: COUNT(expr) counts the rows with a non-NULL value; a NULL-valued
row is ignored by every aggregate (in particular SUM and AVG); over an
empty input SUM yields 0 and AVG/MIN/MAX yield NULL; DISTINCT
deduplicates the collected value stream (by Python equality) before the
aggregate is applied. -/
theorem C5_confirmed (e : Expr) :
    (∀ rows : List Row, (∀ r ∈ rows, ∃ v, eval r e = .ok v) →
      computeAggregate "COUNT" [.expr e] false rows =
        .ok (.vint (((rows.map (fun r => evalV r e)).filter
          (fun v => !decide (v = .vnull))).length))) ∧
    (∀ (name : String) (d : Bool) (rows₁ rows₂ : List Row) (r : Row),
      eval r e = .ok .vnull →
      computeAggregate name [.expr e] d (rows₁ ++ r :: rows₂) =
        computeAggregate name [.expr e] d (rows₁ ++ rows₂)) ∧
    (∀ (args : List AggArg) (d : Bool),
      computeAggregate "SUM" args d [] = .ok (.vint 0) ∧
      computeAggregate "AVG" args d [] = .ok .vnull ∧
      computeAggregate "MIN" args d [] = .ok .vnull ∧
      computeAggregate "MAX" args d [] = .ok .vnull) ∧
    (∀ (args : List AggArg) (rows : List Row) (vs : List Value),
      collectVals args rows = .ok vs →
      computeAggregate "COUNT" args true rows =
        .ok (.vint (dedupPy vs).length) ∧
      (dedupPy vs).Pairwise (fun a b => Value.pyEq a b = false) ∧
      (∀ w, (dedupPy vs).any (fun v => Value.pyEq w v) =
        vs.any (fun v => Value.pyEq w v))) := by
  refine ⟨?_, ?_, ?_, ?_⟩
  · intro rows he
    unfold computeAggregate
    rw [collectVals_single_eq e rows he]
    rfl
  · intro name d rows₁ rows₂ r hr
    refine computeAggregate_congr name d ?_
    rw [collectVals_append, collectVals_append, collectVals_cons,
      collectRowVals_single r e .vnull hr]
    cases collectVals [AggArg.expr e] rows₁
    · rfl
    · cases collectVals [AggArg.expr e] rows₂
      · rfl
      · rfl
  · intro args d
    cases d <;> exact ⟨rfl, rfl, rfl, rfl⟩
  · intro args rows vs h
    refine ⟨?_, dedupPy_pairwise vs, fun w => dedupPy_any w vs⟩
    unfold computeAggregate
    rw [h]
    rfl

/-- C5 (witness): the aggregate facts applied to concrete rows over
column `x`. -/
theorem C5_witness :
    computeAggregate "COUNT" [.expr (.col "x")] false
      [[("x", Value.vint 1)], [("x", Value.vnull)]] = .ok (.vint 1) ∧
    computeAggregate "SUM" [.expr (.col "x")] false
      [[("x", Value.vint 7)], [("x", Value.vnull)]] =
      computeAggregate "SUM" [.expr (.col "x")] false
        [[("x", Value.vint 7)]] ∧
    computeAggregate "AVG" [] false ([] : List Row) = .ok .vnull ∧
    computeAggregate "COUNT" [.expr (.col "x")] true
      [[("x", Value.vint 5)], [("x", Value.vint 5)]] = .ok (.vint 1) := by
  have h := C5_confirmed (.col "x")
  refine ⟨?_, ?_, (h.2.2.1 [] false).2.1, ?_⟩
  · have h1 := h.1 [[("x", Value.vint 1)], [("x", Value.vnull)]]
      (by
        intro r hr
        simp only [List.mem_cons, List.not_mem_nil, or_false] at hr
        rcases hr with rfl | rfl
        · exact ⟨Value.vint 1, rfl⟩
        · exact ⟨Value.vnull, rfl⟩)
    exact h1.trans (by rfl)
  · have h2 := h.2.1 "SUM" false [[("x", Value.vint 7)]] [] [("x", Value.vnull)]
      rfl
    simpa using h2
  · have h4 := h.2.2.2 [.expr (.col "x")]
      [[("x", Value.vint 5)], [("x", Value.vint 5)]]
      [Value.vint 5, Value.vint 5] rfl
    exact h4.1.trans (by rfl)

/-! ### Claim C8 -/

/-- C8: `LIMIT 0` and `OFFSET 0` are treated exactly like an absent
clause (Python truthiness of `stmt.limit`/`stmt.offset`), so `LIMIT 0`
returns the full row set and `OFFSET 0` skips nothing. -/
theorem C8_confirmed :
    (∀ rows : List Row, applyLimitOffset (some 0) (some 0) rows = rows) ∧
    (∀ (limit : Option Nat) (rows : List Row),
      applyLimitOffset limit (some 0) rows = applyLimitOffset limit none rows) ∧
    (∀ (offset : Option Nat) (rows : List Row),
      applyLimitOffset (some 0) offset rows =
        applyLimitOffset none offset rows) := by
  refine ⟨fun rows => rfl, fun limit rows => ?_, fun offset rows => ?_⟩
  · cases limit <;> rfl
  · cases offset <;> rfl

/-! ### Claim C6 -/

theorem digitVal_digitChar {d : Nat} (h : d < 10) :
    digitVal (digitChar d) = some d := by
  interval_cases d <;> decide

theorem isDig_digitChar {d : Nat} (h : d < 10) :
    isDig (digitChar d) = true := by
  interval_cases d <;> decide

theorem natToDigits_all_digits (n : Nat) :
    ∀ c ∈ natToDigits n, isDig c = true := by
  induction n using natToDigits.induct with
  | case1 n h =>
    intro c hc
    rw [natToDigits, dif_pos h] at hc
    simp only [List.mem_singleton] at hc
    subst hc
    exact isDig_digitChar h
  | case2 n h ih =>
    intro c hc
    rw [natToDigits, dif_neg h] at hc
    rcases List.mem_append.mp hc with hc | hc
    · exact ih c hc
    · simp only [List.mem_singleton] at hc
      subst hc
      exact isDig_digitChar (Nat.mod_lt n (by omega))

theorem natToDigits_ne_nil (n : Nat) : natToDigits n ≠ [] := by
  rw [natToDigits]
  split <;> simp

theorem parseNatCore_append (l₁ l₂ : List Char) (acc : Nat) :
    parseNatCore (l₁ ++ l₂) acc =
      (parseNatCore l₁ acc).bind (fun a => parseNatCore l₂ a) := by
  induction l₁ generalizing acc with
  | nil => rfl
  | cons c cs ih =>
    simp only [List.cons_append, parseNatCore]
    cases digitVal c with
    | none => rfl
    | some d => exact ih (acc * 10 + d)

theorem parseNatCore_natToDigits (n acc : Nat) :
    parseNatCore (natToDigits n) acc =
      some (acc * 10 ^ (natToDigits n).length + n) := by
  induction n using natToDigits.induct generalizing acc with
  | case1 n h =>
    rw [natToDigits, dif_pos h]
    simp [parseNatCore, digitVal_digitChar h]
  | case2 n h ih =>
    rw [natToDigits, dif_neg h, parseNatCore_append]
    rw [ih acc]
    rw [show ((some (acc * 10 ^ (natToDigits (n / 10)).length + n / 10)).bind
      (fun a => parseNatCore [digitChar (n % 10)] a)) =
      parseNatCore [digitChar (n % 10)]
        (acc * 10 ^ (natToDigits (n / 10)).length + n / 10) from rfl]
    simp only [parseNatCore, digitVal_digitChar (Nat.mod_lt n (by omega)),
      List.length_append, List.length_singleton]
    congr 1
    rw [pow_succ]
    calc (acc * 10 ^ (natToDigits (n / 10)).length + n / 10) * 10 + n % 10
        = acc * (10 ^ (natToDigits (n / 10)).length * 10) +
            (10 * (n / 10) + n % 10) := by ring
      _ = acc * (10 ^ (natToDigits (n / 10)).length * 10) + n := by
            rw [Nat.div_add_mod]

theorem parseNat_natToDigits (n : Nat) :
    parseNat (natToDigits n) = some n := by
  rw [parseNat, if_neg (by simpa using natToDigits_ne_nil n),
    parseNatCore_natToDigits]
  simp

theorem parseNatCore_zeros (k : Nat) (cs : List Char) :
    parseNatCore (List.replicate k '0' ++ cs) 0 = parseNatCore cs 0 := by
  induction k with
  | zero => rfl
  | succ k ih =>
    rw [List.replicate_succ]
    simpa [parseNatCore, digitVal] using ih

theorem padNat_ne_nil (w n : Nat) : padNat w n ≠ [] := by
  unfold padNat
  intro h
  rcases List.append_eq_nil.mp h with ⟨_, h2⟩
  exact natToDigits_ne_nil n h2

theorem parseNat_padNat (w n : Nat) : parseNat (padNat w n) = some n := by
  rw [parseNat, if_neg (by simpa using padNat_ne_nil w n)]
  unfold padNat
  rw [parseNatCore_zeros, parseNatCore_natToDigits]
  simp

theorem padNat_all_digits (w n : Nat) :
    ∀ c ∈ padNat w n, isDig c = true := by
  intro c hc
  rcases List.mem_append.mp hc with hc | hc
  · rw [List.eq_of_mem_replicate hc]
    decide
  · exact natToDigits_all_digits n c hc

theorem takeWhile_all_sep {p : Char → Bool} :
    ∀ (l₁ : List Char) (x : Char) (l₂ : List Char),
      (∀ c ∈ l₁, p c = true) → p x = false →
      (l₁ ++ x :: l₂).takeWhile p = l₁ ∧
        (l₁ ++ x :: l₂).dropWhile p = x :: l₂ := by
  intro l₁
  induction l₁ with
  | nil =>
    intro x l₂ _ hx
    simp [List.takeWhile_cons, List.dropWhile_cons, hx]
  | cons c cs ih =>
    intro x l₂ hall hx
    have hc : p c = true := hall c (List.mem_cons_self c cs)
    have := ih x l₂ (fun u hu => hall u (List.mem_cons_of_mem c hu)) hx
    simp [List.takeWhile_cons, List.dropWhile_cons, hc, this.1, this.2]

theorem parseNumSep_pad {sep : Char} (hsep : isDig sep = false)
    (w n : Nat) (rest : List Char) :
    parseNumSep sep (padNat w n ++ sep :: rest) = some (n, rest) := by
  obtain ⟨ht, hd⟩ :=
    takeWhile_all_sep (padNat w n) sep rest (padNat_all_digits w n) hsep
  rw [parseNumSep, ht, hd, parseNat_padNat]
  simp

theorem dropWhile_all {p : Char → Bool} :
    ∀ (l : List Char), (∀ c ∈ l, p c = true) → l.dropWhile p = [] := by
  intro l
  induction l with
  | nil => intro _; rfl
  | cons c cs ih =>
    intro hall
    rw [List.dropWhile_cons]
    simp only [hall c (List.mem_cons_self c cs), if_true]
    exact ih (fun u hu => hall u (List.mem_cons_of_mem c hu))

theorem parseNumEnd_pad (w n : Nat) : parseNumEnd (padNat w n) = some n := by
  rw [parseNumEnd, dropWhile_all (padNat w n) (padNat_all_digits w n),
    parseNat_padNat]

theorem parseDateChars_dateChars (y m d : Nat) :
    parseDateChars (dateChars y m d) = some (y, m, d) := by
  simp only [parseDateChars, dateChars,
    parseNumSep_pad (show isDig '-' = false by decide),
    parseNumEnd_pad]

theorem parseTsChars_tsChars (y mo d h mi s : Nat) :
    parseTsChars (tsChars y mo d h mi s) = some (y, mo, d, h, mi, s) := by
  simp only [parseTsChars, tsChars,
    parseNumSep_pad (show isDig '-' = false by decide),
    parseNumSep_pad (show isDig ' ' = false by decide),
    parseNumSep_pad (show isDig ':' = false by decide),
    parseNumEnd_pad]

theorem parseInt_intToString (n : Int) : parseInt (intToString n) = some n := by
  by_cases hn : n < 0
  · rw [intToString, if_pos hn]
    show parseInt ⟨'-' :: natToDigits (-n).toNat⟩ = some n
    rw [parseInt]
    dsimp only
    rw [if_pos rfl, parseNat_natToDigits]
    simp only [Option.map, Option.some.injEq]
    omega
  · rw [intToString, if_neg hn]
    show parseInt ⟨natToDigits n.toNat⟩ = some n
    rw [parseInt]
    rcases hds : natToDigits n.toNat with _ | ⟨c, cs⟩
    · exact absurd hds (natToDigits_ne_nil _)
    · have hdig : isDig c = true := by
        refine natToDigits_all_digits n.toNat c ?_
        rw [hds]
        exact List.mem_cons_self c cs
      have hne : ¬ c = '-' := by
        intro hcm
        rw [hcm] at hdig
        exact absurd hdig (by decide)
      dsimp only
      rw [if_neg hne, ← hds, parseNat_natToDigits]
      simp only [Option.map]
      congr 1
      omega

theorem intToString_ne_null (n : Int) : intToString n ≠ "NULL" := by
  intro h
  have hdata : (intToString n).data = ['N', 'U', 'L', 'L'] := by rw [h]
  by_cases hn : n < 0
  · rw [intToString, if_pos hn] at hdata
    simp only [String.data] at hdata
    have hh : '-' = 'N' := ((List.cons.injEq _ _ _ _).mp hdata).1
    exact absurd hh (by decide)
  · rw [intToString, if_neg hn] at hdata
    simp only [String.data] at hdata
    have hmem : 'N' ∈ natToDigits n.toNat := by
      rw [hdata]
      exact List.mem_cons_self _ _
    have := natToDigits_all_digits n.toNat 'N' hmem
    exact absurd this (by decide)

theorem padNat_length_ge (w n : Nat) : w ≤ (padNat w n).length := by
  rw [padNat, List.length_append, List.length_replicate]
  omega

theorem dateChars_ne_null (y m d : Nat) : (⟨dateChars y m d⟩ : String) ≠ "NULL" := by
  intro h
  have hdata : (⟨dateChars y m d⟩ : String).data = "NULL".data := by rw [h]
  simp only [String.data] at hdata
  have hlen : (dateChars y m d).length = 4 := by
    rw [hdata]
    rfl
  rw [dateChars] at hlen
  simp only [List.length_append, List.length_cons] at hlen
  have h4 := padNat_length_ge 4 y
  have h2 := padNat_length_ge 2 m
  have h2b := padNat_length_ge 2 d
  omega

theorem tsChars_ne_null (y mo d h mi s : Nat) :
    (⟨tsChars y mo d h mi s⟩ : String) ≠ "NULL" := by
  intro he
  have hdata : (⟨tsChars y mo d h mi s⟩ : String).data = "NULL".data := by
    rw [he]
  simp only [String.data] at hdata
  have hlen : (tsChars y mo d h mi s).length = 4 := by
    rw [hdata]
    rfl
  rw [tsChars] at hlen
  simp only [List.length_append, List.length_cons] at hlen
  have h4 := padNat_length_ge 4 y
  have h2 := padNat_length_ge 2 mo
  have h2b := padNat_length_ge 2 d
  have h2c := padNat_length_ge 2 h
  have h2d := padNat_length_ge 2 mi
  have h2e := padNat_length_ge 2 s
  omega

/-- C6 (counterexample): the claim says serialize-then-deserialize is the
identity on every non-NULL value; the non-NULL TEXT value `"NULL"`
serializes to the NULL marker string and deserializes back to None. -/
theorem C6_counterexample :
    serialize (.pstr "NULL") ⟨.text, none⟩ = "NULL" ∧
    deserialize (serialize (.pstr "NULL") ⟨.text, none⟩) ⟨.text, none⟩ =
      some .pnull ∧
    deserialize (serialize (.pstr "NULL") ⟨.text, none⟩) ⟨.text, none⟩ ≠
      some (.pstr "NULL") := by
  refine ⟨rfl, rfl, by decide⟩

/-- C6 (amended): deserialize ∘ serialize is the identity on every
well-typed non-NULL value of the modelled column types except the
VARCHAR/TEXT string `"NULL"`, which collides with the NULL marker and
deserializes to None. -/
theorem C6_corrected (v : PyVal) (t : ColumnType) (hw : wellTyped v t)
    (hns : v ≠ .pstr "NULL") :
    deserialize (serialize v t) t = some v := by
  cases v with
  | pnull => exact absurd hw (by simp [wellTyped])
  | pint n =>
    have ht : t.dtype = .integer := hw
    rw [serialize]
    simp only [ht]
    rw [deserialize, if_neg (intToString_ne_null n)]
    rw [ht, parseInt_intToString]
    rfl
  | pbool b =>
    have ht : t.dtype = .boolean := hw
    rw [serialize]
    simp only [ht]
    cases b
    · rw [deserialize, if_neg (by decide), ht]
      rfl
    · rw [deserialize, if_neg (by decide), ht]
      rfl
  | pstr s =>
    have hsne : s ≠ "NULL" := by
      intro h
      exact hns (by rw [h])
    rcases hw with ht | ht <;>
      (rw [serialize]; simp only [ht];
       rw [deserialize, if_neg hsne, ht])
  | pdate y m d =>
    have ht : t.dtype = .date := hw.1
    rw [serialize]
    simp only [ht]
    rw [deserialize, if_neg (dateChars_ne_null y m d), ht]
    show (parseDateChars (⟨dateChars y m d⟩ : String).data).map _ = _
    rw [show (⟨dateChars y m d⟩ : String).data = dateChars y m d from rfl,
      parseDateChars_dateChars]
    rfl
  | pdatetime y mo d h mi s =>
    have ht : t.dtype = .timestamp := hw.1
    rw [serialize]
    simp only [ht]
    rw [deserialize, if_neg (tsChars_ne_null y mo d h mi s), ht]
    show (parseTsChars (⟨tsChars y mo d h mi s⟩ : String).data).map _ = _
    rw [show (⟨tsChars y mo d h mi s⟩ : String).data =
      tsChars y mo d h mi s from rfl, parseTsChars_tsChars]
    rfl

/-- C6 (witness): the round trip applied to a negative int, a boolean
and a date. -/
theorem C6_witness :
    deserialize (serialize (.pint (-42)) ⟨.integer, none⟩) ⟨.integer, none⟩ =
      some (.pint (-42)) ∧
    deserialize (serialize (.pbool true) ⟨.boolean, none⟩) ⟨.boolean, none⟩ =
      some (.pbool true) ∧
    deserialize (serialize (.pdate 2024 5 9) ⟨.date, none⟩) ⟨.date, none⟩ =
      some (.pdate 2024 5 9) := by
  refine ⟨?_, ?_, ?_⟩
  · exact C6_corrected (.pint (-42)) ⟨.integer, none⟩ rfl (by decide)
  · exact C6_corrected (.pbool true) ⟨.boolean, none⟩ rfl (by decide)
  · exact C6_corrected (.pdate 2024 5 9) ⟨.date, none⟩
      ⟨rfl, by omega, by omega, by omega, by omega, by omega, by omega⟩
      (by decide)

/-! ### Claim C3 -/

theorem insert_ok_shape {ts : TableStorage} {row : RowV}
    {ts2 : TableStorage} {rid : Nat} (h : ts.insert row = .ok (ts2, rid)) :
    ∃ vr, validateRow ts.schema row = .ok vr ∧ rid = ts.nextRowId ∧
      ts2 = { ts with
              rows := ts.rows ++ [(ts.nextRowId, vr)]
              nextRowId := ts.nextRowId + 1 } := by
  unfold TableStorage.insert at h
  cases hv : validateRow ts.schema row with
  | error e => rw [hv] at h; cases h
  | ok vr =>
    rw [hv] at h
    dsimp only at h
    cases hc : checkUnique ts.uniqueCols ts.rows vr none with
    | error e => rw [hc] at h; cases h
    | ok u =>
      rw [hc] at h
      dsimp only at h
      simp only [Except.ok.injEq, Prod.mk.injEq] at h
      exact ⟨vr, rfl, h.2.symm, h.1.symm⟩

theorem update_ok_shape {ts : TableStorage} {rid : Nat} {ups : RowV}
    {ts2 : TableStorage} {b : Bool} (h : ts.update rid ups = .ok (ts2, b)) :
    ts2 = ts ∨
    ∃ vr, (∃ cur, validateRow ts.schema (applyUpdates ts.schema cur ups) =
        .ok vr) ∧
      ts2 = { ts with rows := ts.rows.map (fun q =>
              if q.1 = rid then (rid, vr) else q) } := by
  unfold TableStorage.update at h
  cases hf : ts.rows.find? (fun p => p.1 = rid) with
  | none =>
    rw [hf] at h
    simp only [Except.ok.injEq, Prod.mk.injEq] at h
    exact Or.inl h.1.symm
  | some p =>
    rw [hf] at h
    dsimp only at h
    cases hv : validateRow ts.schema (applyUpdates ts.schema p.2 ups) with
    | error e => rw [hv] at h; cases h
    | ok vr =>
      rw [hv] at h
      dsimp only at h
      cases hc : checkUnique ts.uniqueCols ts.rows vr (some rid) with
      | error e => rw [hc] at h; cases h
      | ok u =>
        rw [hc] at h
        dsimp only at h
        simp only [Except.ok.injEq, Prod.mk.injEq] at h
        exact Or.inr ⟨vr, ⟨p.2, hv⟩, h.1.symm⟩

theorem stepOp_nextRowId (ts : TableStorage) (op : TOp) :
    ((stepOp ts op).2 = none → (stepOp ts op).1.nextRowId = ts.nextRowId) ∧
    (∀ rid, (stepOp ts op).2 = some rid →
      rid = ts.nextRowId ∧ (stepOp ts op).1.nextRowId = ts.nextRowId + 1) := by
  cases op with
  | ins row =>
    simp only [stepOp]
    cases h : ts.insert row with
    | error e => simp
    | ok pr =>
      obtain ⟨vr, _, hrid, hts⟩ := insert_ok_shape
        (show ts.insert row = Except.ok (pr.1, pr.2) by rw [h])
      simp only [Option.some.injEq]
      constructor
      · intro hnone; cases hnone
      · intro rid2 hrid2
        subst hrid2
        rw [hts, hrid]
        exact ⟨rfl, rfl⟩
  | del rid =>
    simp only [stepOp, TableStorage.delete]
    split <;> simp
  | upd rid ups =>
    simp only [stepOp]
    cases h : ts.update rid ups with
    | error e => simp
    | ok pr =>
      rcases update_ok_shape
        (show ts.update rid ups = Except.ok (pr.1, pr.2) by rw [h]) with
        hts | ⟨vr, _, hts⟩ <;> (rw [hts]; simp)

theorem runOps_assigned : ∀ (ops : List TOp) (ts : TableStorage),
    (runOps ts ops).2 =
      List.range' ts.nextRowId (runOps ts ops).2.length := by
  intro ops
  induction ops with
  | nil => intro ts; rfl
  | cons op ops ih =>
    intro ts
    simp only [runOps]
    cases hs : (stepOp ts op).2 with
    | none =>
      simp only [Option.toList, List.nil_append]
      rw [ih (stepOp ts op).1, (stepOp_nextRowId ts op).1 hs,
        List.length_range']
    | some rid =>
      obtain ⟨hrid, hnext⟩ := (stepOp_nextRowId ts op).2 rid hs
      simp only [Option.toList, List.cons_append, List.nil_append,
        List.length_cons]
      rw [ih (stepOp ts op).1, hnext, hrid, List.range'_succ,
        List.length_range']

/-- C3: from a fresh table, the row ids assigned by successful inserts
form exactly the consecutive sequence 1, 2, …; hence ids are strictly
increasing, an id (in particular a deleted one) is never reassigned, and
after N successful inserts the maximum ever-assigned id is N. -/
theorem C3_confirmed (cols : List Column) (uniq : List String)
    (ops : List TOp) :
    (runOps (initTS cols uniq) ops).2 =
      List.range' 1 (runOps (initTS cols uniq) ops).2.length ∧
    (runOps (initTS cols uniq) ops).2.Pairwise (· < ·) ∧
    (∀ rid ∈ (runOps (initTS cols uniq) ops).2,
      1 ≤ rid ∧ rid ≤ (runOps (initTS cols uniq) ops).2.length) ∧
    (0 < (runOps (initTS cols uniq) ops).2.length →
      (runOps (initTS cols uniq) ops).2.length ∈
        (runOps (initTS cols uniq) ops).2) := by
  have h := runOps_assigned ops (initTS cols uniq)
  have h1 : (initTS cols uniq).nextRowId = 1 := rfl
  rw [h1] at h
  refine ⟨h, ?_, ?_, ?_⟩
  · rw [h]
    exact List.pairwise_lt_range' 1 _
  · intro rid hrid
    rw [h] at hrid
    have := List.mem_range'_1.mp hrid
    omega
  · intro hpos
    have hmem : (runOps (initTS cols uniq) ops).2.length ∈
        List.range' 1 (runOps (initTS cols uniq) ops).2.length :=
      List.mem_range'_1.mpr (by omega)
    rw [← h] at hmem
    exact hmem

/-- C3 (witness): three successful inserts around a delete assign the
ids 1, 2, 3. -/
theorem C3_witness :
    (runOps (initTS [] []) [.ins [], .ins [], .del 1, .ins []]).2.length ∈
      (runOps (initTS [] []) [.ins [], .ins [], .del 1, .ins []]).2 :=
  (C3_confirmed [] [] [.ins [], .ins [], .del 1, .ins []]).2.2.2 (by decide)

/-! ### Claim C9 -/

theorem validateConvert_ok_ne_null {v : PyVal} {t : ColumnType} {w : PyVal}
    (h : validateConvert v t = .ok w) (hv : v ≠ .pnull) : w ≠ .pnull := by
  intro hw
  subst hw
  unfold validateConvert at h
  cases v <;>
    first
      | exact hv rfl
      | (cases htd : t.dtype <;> rw [htd] at h <;> (try dsimp only at h) <;>
          ((repeat' (split at h)) <;> simp_all))

theorem columnValue_ne_null {col : Column} {row : RowV} {v : PyVal}
    (hd : col.default ≠ .pnull) (h : columnValue col row = .ok v) :
    v ≠ .pnull := by
  unfold columnValue at h
  dsimp only at h
  by_cases h0 : lookupCI row col.name = .pnull
  · rw [if_pos h0, if_pos hd] at h
    dsimp only at h
    rw [if_pos hd] at h
    exact validateConvert_ok_ne_null h hd
  · rw [if_neg h0] at h
    dsimp only at h
    rw [if_pos h0] at h
    exact validateConvert_ok_ne_null h h0

theorem validateRow_names : ∀ (cols : List Column) (row vr : RowV),
    validateRow cols row = .ok vr →
    vr.map Prod.fst = cols.map Column.name := by
  intro cols
  induction cols with
  | nil =>
    intro row vr h
    unfold validateRow at h
    injection h with h2
    subst h2
    rfl
  | cons col rest ih =>
    intro row vr h
    unfold validateRow at h
    cases h1 : columnValue col row with
    | error e => rw [h1] at h; cases h
    | ok v2 =>
      rw [h1] at h
      dsimp only at h
      cases h2 : validateRow rest row with
      | error e => rw [h2] at h; cases h
      | ok tail =>
        rw [h2] at h
        dsimp only at h
        injection h with h3
        subst h3
        rw [List.map_cons, List.map_cons, ih row tail h2]

theorem validateRow_default_ne_null :
    ∀ (cols : List Column) (row vr : RowV),
      validateRow cols row = .ok vr →
      (cols.map (fun c => lowerStr c.name)).Nodup →
      ∀ col ∈ cols, col.default ≠ .pnull →
      ∀ p ∈ vr, p.1 = col.name → p.2 ≠ .pnull := by
  intro cols
  induction cols with
  | nil =>
    intro row vr h _ col hcol
    cases hcol
  | cons c rest ih =>
    intro row vr h hnodup col hcol hdef p hp hpname
    unfold validateRow at h
    cases h1 : columnValue c row with
    | error e => rw [h1] at h; cases h
    | ok v2 =>
      rw [h1] at h
      dsimp only at h
      cases h2 : validateRow rest row with
      | error e => rw [h2] at h; cases h
      | ok tail =>
        rw [h2] at h
        dsimp only at h
        injection h with h3
        subst h3
        have hrestnames := validateRow_names rest row tail h2
        rcases List.mem_cons.mp hp with rfl | hptail
        · -- p is the binding produced for column c
          rcases List.mem_cons.mp hcol with rfl | hcolrest
          · exact columnValue_ne_null hdef h1
          · -- a later column with the same name would contradict Nodup
            exfalso
            have hlow : lowerStr col.name ∈ rest.map (fun u => lowerStr u.name) :=
              List.mem_map.mpr ⟨col, hcolrest, rfl⟩
            have hlow2 : lowerStr c.name ∈
                rest.map (fun u => lowerStr u.name) := by
              dsimp only at hpname
              rw [hpname]
              exact hlow
            exact (List.nodup_cons.mp hnodup).1 hlow2
        · rcases List.mem_cons.mp hcol with rfl | hcolrest
          · -- col = c: bindings in the tail are named by rest's columns
            exfalso
            have hmem : p.1 ∈ tail.map Prod.fst := List.mem_map_of_mem _ hptail
            rw [hrestnames, hpname] at hmem
            have hlow : lowerStr col.name ∈ rest.map (fun u => lowerStr u.name) := by
              rcases List.mem_map.mp hmem with ⟨u, hu, hname⟩
              exact List.mem_map.mpr ⟨u, hu, by rw [hname]⟩
            exact (List.nodup_cons.mp hnodup).1 hlow
          · exact ih row tail h2 (List.nodup_cons.mp hnodup).2 col hcolrest
              hdef p hptail hpname

theorem stepOp_preserves (P : RowV → Prop) (ts : TableStorage) (op : TOp)
    (hall : ∀ pr ∈ ts.rows, P pr.2)
    (hv : ∀ row vr, validateRow ts.schema row = .ok vr → P vr) :
    (∀ pr ∈ (stepOp ts op).1.rows, P pr.2) ∧
      (stepOp ts op).1.schema = ts.schema := by
  cases op with
  | ins row =>
    simp only [stepOp]
    cases h : ts.insert row with
    | error e => exact ⟨hall, rfl⟩
    | ok pr =>
      obtain ⟨vr, hvr, _, hts⟩ := insert_ok_shape
        (show ts.insert row = Except.ok (pr.1, pr.2) by rw [h])
      rw [hts]
      refine ⟨?_, rfl⟩
      intro q hq
      rcases List.mem_append.mp hq with hq | hq
      · exact hall q hq
      · simp only [List.mem_singleton] at hq
        subst hq
        exact hv row vr hvr
  | del rid =>
    simp only [stepOp, TableStorage.delete]
    split
    · exact ⟨fun q hq => hall q (List.mem_of_mem_filter hq), rfl⟩
    · exact ⟨hall, rfl⟩
  | upd rid ups =>
    simp only [stepOp]
    cases h : ts.update rid ups with
    | error e => exact ⟨hall, rfl⟩
    | ok pr =>
      rcases update_ok_shape
        (show ts.update rid ups = Except.ok (pr.1, pr.2) by rw [h]) with
        hts | ⟨vr, ⟨cur, hvr⟩, hts⟩
      · rw [hts]; exact ⟨hall, rfl⟩
      · rw [hts]
        refine ⟨?_, rfl⟩
        intro q hq
        rcases List.mem_map.mp hq with ⟨q0, hq0, hq1⟩
        by_cases hid : q0.1 = rid
        · rw [if_pos hid] at hq1
          subst hq1
          exact hv _ vr hvr
        · rw [if_neg hid] at hq1
          subst hq1
          exact hall q0 hq0

theorem runOps_preserves (P : RowV → Prop) :
    ∀ (ops : List TOp) (ts : TableStorage),
      (∀ pr ∈ ts.rows, P pr.2) →
      (∀ row vr, validateRow ts.schema row = .ok vr → P vr) →
      ∀ pr ∈ (runOps ts ops).1.rows, P pr.2 := by
  intro ops
  induction ops with
  | nil => intro ts hall _ pr hpr; exact hall pr hpr
  | cons op ops ih =>
    intro ts hall hv
    simp only [runOps]
    obtain ⟨hall2, hschema⟩ := stepOp_preserves P ts op hall hv
    exact ih (stepOp ts op).1 hall2 (by rw [hschema]; exact hv)

/-- C9: a column with a non-NULL default can never hold NULL: row
validation substitutes the default for a missing value and for an
explicitly supplied NULL, and every stored row (after any sequence of
inserts, updates and deletes on a fresh table) is a validation output,
so its value in that column is non-NULL. -/
theorem C9_confirmed (cols : List Column) (uniq : List String)
    (col : Column) (hnodup : (cols.map (fun c => lowerStr c.name)).Nodup)
    (hc : col ∈ cols) (hd : col.default ≠ .pnull) :
    (∀ row vr, validateRow cols row = .ok vr →
      ∀ p ∈ vr, p.1 = col.name → p.2 ≠ .pnull) ∧
    (∀ ops : List TOp, ∀ pr ∈ (runOps (initTS cols uniq) ops).1.rows,
      ∀ p ∈ pr.2, p.1 = col.name → p.2 ≠ .pnull) := by
  refine ⟨fun row vr h => validateRow_default_ne_null cols row vr h hnodup
    col hc hd, ?_⟩
  intro ops
  exact runOps_preserves
    (fun r => ∀ p ∈ r, p.1 = col.name → p.2 ≠ .pnull) ops
    (initTS cols uniq) (fun pr hpr => absurd hpr (by simp [initTS]))
    (fun row vr h => validateRow_default_ne_null cols row vr h hnodup
      col hc hd)

/-- C9 (witness): inserting an explicit NULL into a column with default 7
stores 7, not NULL. -/
theorem C9_witness :
    (1, [("a", PyVal.pint 7)]) ∈ (runOps
      (initTS [{ name := "a", colType := ⟨.integer, none⟩,
                 default := PyVal.pint 7 }] [])
      [.ins [("a", PyVal.pnull)]]).1.rows ∧
    (PyVal.pint 7 : PyVal) ≠ .pnull := by
  refine ⟨by decide, ?_⟩
  exact (C9_confirmed
    [{ name := "a", colType := ⟨.integer, none⟩, default := PyVal.pint 7 }]
    []
    { name := "a", colType := ⟨.integer, none⟩, default := PyVal.pint 7 }
    (by simp) (List.mem_singleton.mpr rfl) (by simp)).2
    [.ins [("a", PyVal.pnull)]]
    (1, [("a", PyVal.pint 7)]) (by decide) ("a", PyVal.pint 7)
    (by decide) rfl

/-! ### B-tree: unfolding and key-comparison basics -/

theorem inorder_node (ks : List Key) (vs : List (List Int)) (cs : List BT)
    (lf : Bool) :
    inorder (.node ks vs cs lf)
      = if lf then ks.zip vs else interleave ks vs cs := by
  rw [inorder]

theorem interleave_cons (k : Key) (ks : List Key) (v : List Int)
    (vs : List (List Int)) (c : BT) (cs : List BT) :
    interleave (k :: ks) (v :: vs) (c :: cs)
      = inorder c ++ (k, v) :: interleave ks vs cs := by
  rw [interleave]

theorem interleave_nilk (vs : List (List Int)) (cs : List BT) :
    interleave [] vs cs = (cs.map inorder).flatten := by
  rw [interleave]
  · simp [List.attach_map_coe]
  · exact fun k ks v vs2 c cs2 h _ _ => List.noConfusion h

theorem interleave_nilv (ks : List Key) (cs : List BT) :
    interleave ks [] cs = (cs.map inorder).flatten := by
  rw [interleave]
  · simp [List.attach_map_coe]
  · exact fun k ks2 v vs2 c cs2 _ h _ => List.noConfusion h

theorem interleave_nilc (ks : List Key) (vs : List (List Int)) :
    interleave ks vs [] = [] := by
  rw [interleave]
  · simp
  · exact fun k ks2 v vs2 c cs2 _ _ h => List.noConfusion h

theorem valLists_node (ks : List Key) (vs : List (List Int)) (cs : List BT)
    (lf : Bool) :
    valLists (.node ks vs cs lf) = vs ++ (cs.map valLists).flatten := by
  rw [valLists]
  simp [List.attach_map_coe]

theorem mem_valLists {l : List Int} {ks : List Key} {vs : List (List Int)}
    {cs : List BT} {lf : Bool} :
    l ∈ valLists (.node ks vs cs lf) ↔ l ∈ vs ∨ ∃ c ∈ cs, l ∈ valLists c := by
  rw [valLists_node]
  simp [List.mem_flatten]

theorem cmpK_self (k : Key) : cmpK k k = 0 := by
  cases k with
  | none => rfl
  | some a => simp [cmpK]

theorem cmpK_eq_zero {a b : Key} (h : cmpK a b = 0) : a = b := by
  cases a with
  | none =>
    cases b with
    | none => rfl
    | some y => simp [cmpK] at h
  | some x =>
    cases b with
    | none => simp [cmpK] at h
    | some y =>
      simp only [cmpK] at h
      split_ifs at h with h1 h2
      all_goals exact congrArg some (by omega)

theorem cmpK_swap (a b : Key) : cmpK a b = -cmpK b a := by
  cases a <;> cases b <;> simp only [cmpK] <;> try norm_num
  split_ifs <;> omega

theorem keyLt_of_pos {a b : Key} (h : 0 < cmpK a b) : keyLt b a := by
  unfold keyLt
  rw [cmpK_swap]
  omega

theorem keyLt_of_neg {a b : Key} (h : cmpK a b < 0) : keyLt a b := h

theorem keyLt_irrefl (k : Key) : ¬ keyLt k k := by
  unfold keyLt
  rw [cmpK_self]
  omega

theorem keyLt_trans {a b c : Key} (h1 : keyLt a b) (h2 : keyLt b c) :
    keyLt a c := by
  unfold keyLt at *
  cases a <;> cases b <;> cases c <;>
    simp only [cmpK] at * <;> try omega
  all_goals split_ifs at * <;> omega

/-! ### B-tree: the backward scan -/

theorem scanIdx_none {key : Key} {ks : List Key}
    (h : scanIdx key ks = none) : ∀ k ∈ ks, cmpK key k < 0 := by
  induction ks with
  | nil => intro k hk; cases hk
  | cons k0 ks ih =>
    intro k hk
    rw [scanIdx] at h
    cases hs : scanIdx key ks with
    | some p => rw [hs] at h; exact absurd h (by simp)
    | none =>
      rw [hs] at h
      dsimp only at h
      by_cases h0 : 0 ≤ cmpK key k0
      · rw [if_pos h0] at h; exact absurd h (by simp)
      · rcases List.mem_cons.mp hk with rfl | hk2
        · omega
        · exact ih hs k hk2

theorem scanIdx_some {key : Key} {ks : List Key} {i : Nat} {k : Key}
    (h : scanIdx key ks = some (i, k)) :
    ks.get? i = some k ∧ 0 ≤ cmpK key k ∧
      ∀ j kj, i < j → ks.get? j = some kj → cmpK key kj < 0 := by
  induction ks generalizing i with
  | nil => rw [scanIdx] at h; exact absurd h (by simp)
  | cons k0 ks ih =>
    rw [scanIdx] at h
    cases hs : scanIdx key ks with
    | some p =>
      obtain ⟨pi, pk⟩ := p
      rw [hs] at h
      dsimp only at h
      have hik : i = pi + 1 ∧ k = pk := by
        have := Option.some.inj h
        exact ⟨(Prod.mk.injEq _ _ _ _ ▸ this).1.symm,
          (Prod.mk.injEq _ _ _ _ ▸ this).2.symm⟩
      obtain ⟨rfl, rfl⟩ := hik
      obtain ⟨h1, h2, h3⟩ := ih hs
      refine ⟨by simpa using h1, h2, ?_⟩
      intro j kj hj hg
      match j, hj with
      | j + 1, hj =>
        exact h3 j kj (by omega) (by simpa using hg)
    | none =>
      rw [hs] at h
      dsimp only at h
      by_cases h0 : 0 ≤ cmpK key k0
      · rw [if_pos h0] at h
        have hik : i = 0 ∧ k = k0 := by
          have := Option.some.inj h
          exact ⟨(Prod.mk.injEq _ _ _ _ ▸ this).1.symm,
            (Prod.mk.injEq _ _ _ _ ▸ this).2.symm⟩
        obtain ⟨rfl, rfl⟩ := hik
        refine ⟨rfl, h0, ?_⟩
        intro j kj hj hg
        match j, hj with
        | j + 1, _ =>
          exact scanIdx_none hs kj (List.get?_mem (by simpa using hg))
      · rw [if_neg h0] at h
        exact absurd h (by simp)

theorem scanIdx_mem {key : Key} {ks : List Key} (hmem : key ∈ ks) :
    scanIdx key ks ≠ none := by
  intro h
  have := scanIdx_none h key hmem
  rw [cmpK_self] at this
  omega

theorem posSpec_le {key : Key} {ks : List Key} {pos : Nat}
    (h : posSpec key ks pos) : pos ≤ ks.length := by
  rcases h with ⟨-, rfl⟩ | ⟨i, k, hs, -, rfl⟩
  · omega
  · have := (scanIdx_some hs).1
    have : i < ks.length := by
      rcases List.get?_eq_some.mp this with ⟨hlt, -⟩
      exact hlt
    omega

theorem posSpec_drop {key : Key} {ks : List Key} {pos : Nat}
    (h : posSpec key ks pos) :
    ∀ j kj, pos ≤ j → ks.get? j = some kj → cmpK key kj < 0 := by
  intro j kj hj hg
  rcases h with ⟨hs, rfl⟩ | ⟨i, k, hs, hne, rfl⟩
  · exact scanIdx_none hs kj (List.get?_mem hg)
  · exact (scanIdx_some hs).2.2 j kj (by omega) hg

theorem posSpec_last {key : Key} {ks : List Key} {pos : Nat}
    (h : posSpec key ks pos) :
    ∀ k1, pos ≠ 0 → ks.get? (pos - 1) = some k1 → 0 < cmpK key k1 := by
  intro k1 h0 hg
  rcases h with ⟨-, rfl⟩ | ⟨i, k, hs, hne, rfl⟩
  · omega
  · obtain ⟨h1, h2, -⟩ := scanIdx_some hs
    have : k1 = k := by
      simp only [Nat.add_sub_cancel] at hg
      rw [h1] at hg
      exact (Option.some.inj hg).symm
    subst this
    omega

/-! ### B-tree: `insertIdx` helpers -/

theorem insertIdx_zero {α : Type} (l : List α) (a : α) :
    l.insertIdx 0 a = a :: l := rfl

theorem insertIdx_succ_cons {α : Type} (x : α) (l : List α) (a : α)
    (i : Nat) : (x :: l).insertIdx (i + 1) a = x :: l.insertIdx i a := rfl

theorem insertIdx_succ_nil {α : Type} (a : α) (i : Nat) :
    ([] : List α).insertIdx (i + 1) a = [] := rfl

theorem mem_insertIdx_weak {α : Type} {x a : α} {i : Nat} {l : List α}
    (h : x ∈ l.insertIdx i a) : x = a ∨ x ∈ l := by
  induction l generalizing i with
  | nil =>
    cases i with
    | zero => simpa using h
    | succ i => rw [insertIdx_succ_nil] at h; cases h
  | cons y ys ih =>
    cases i with
    | zero => simpa using h
    | succ i =>
      rw [insertIdx_succ_cons] at h
      rcases List.mem_cons.mp h with rfl | h2
      · exact .inr (List.mem_cons_self _ _)
      · rcases ih h2 with h3 | h3
        · exact .inl h3
        · exact .inr (List.mem_cons_of_mem _ h3)

theorem get?_insertIdx_lt {α : Type} {l : List α} {a : α} {i j : Nat}
    (h : j < i) : (l.insertIdx i a).get? j = l.get? j := by
  induction l generalizing i j with
  | nil =>
    match i, h with
    | i + 1, _ => rw [insertIdx_succ_nil]
  | cons y ys ih =>
    match i, h with
    | i + 1, h =>
      rw [insertIdx_succ_cons]
      cases j with
      | zero => rfl
      | succ j => simpa using ih (by omega)

theorem get?_insertIdx_self {α : Type} {l : List α} {a : α} {i : Nat}
    (h : i ≤ l.length) : (l.insertIdx i a).get? i = some a := by
  induction l generalizing i with
  | nil =>
    match i, h with
    | 0, _ => rfl
  | cons y ys ih =>
    cases i with
    | zero => rfl
    | succ i =>
      rw [insertIdx_succ_cons]
      simpa using ih (by simpa using h)

theorem get?_insertIdx_succ {α : Type} {l : List α} {a : α} {i j : Nat}
    (h : i ≤ j) : (l.insertIdx i a).get? (j + 1) = l.get? j := by
  induction l generalizing i j with
  | nil =>
    cases i with
    | zero => simp [insertIdx_zero]
    | succ i => rw [insertIdx_succ_nil]; simp
  | cons y ys ih =>
    cases i with
    | zero => simp [insertIdx_zero]
    | succ i =>
      rw [insertIdx_succ_cons]
      match j, h with
      | j + 1, h => simpa using ih (by omega)

/-! ### B-tree: one-step characterization of `_insert_non_full` -/

theorem insertNF_succ_step (t : Nat) (u : Bool) (fuel : Nat)
    (ks : List Key) (vs : List (List Int)) (cs : List BT) (lf : Bool)
    (key : Key) (rid : Int) :
    InsStep t u fuel ks vs cs lf key rid
      (insertNF t u (fuel + 1) (.node ks vs cs lf) key rid) := by
  rw [insertNF]
  cases hs : scanIdx key ks with
  | some p =>
    obtain ⟨pi, pk⟩ := p
    by_cases hz : cmpK key pk = 0
    · simp only [hs]
      try dsimp only
      rw [if_pos hz]
      exact .found pi pk hs hz
    · have hp : posSpec key ks (pi + 1) := .inr ⟨pi, pk, hs, hz, rfl⟩
      simp only [hs]
      try dsimp only
      rw [if_neg hz]
      try dsimp only
      cases hlf : lf with
      | true => exact .leaf (pi + 1) hp rfl
      | false =>
        cases hcp : cs.get? (pi + 1) with
        | none => exact .ixChild (pi + 1) hp rfl hcp
        | some child =>
          try dsimp only
          by_cases hfull : child.keys.length = 2 * t - 1
          · rw [if_pos hfull]
            try dsimp only
            cases hk2 : (splitChild t (.node ks vs cs false)
                (pi + 1)).keys.get? (pi + 1) with
            | none => exact .ixSplitKey (pi + 1) child hp rfl hcp hfull hk2
            | some kci =>
              try dsimp only
              by_cases hgt : 0 < cmpK key kci
              · rw [if_pos hgt]
                cases hc2 : (splitChild t (.node ks vs cs false)
                    (pi + 1)).children.get? (pi + 1 + 1) with
                | none =>
                  exact .splitGtIx (pi + 1) child kci hp rfl hcp hfull hk2
                    hgt hc2
                | some c2 =>
                  exact .splitGt (pi + 1) child kci c2 hp rfl hcp hfull hk2
                    hgt hc2
              · rw [if_neg hgt]
                by_cases heq : cmpK key kci = 0
                · rw [if_pos heq]
                  exact .splitEq (pi + 1) child kci hp rfl hcp hfull hk2 heq
                · rw [if_neg heq]
                  have hlt : cmpK key kci < 0 := by omega
                  cases hc2 : (splitChild t (.node ks vs cs false)
                      (pi + 1)).children.get? (pi + 1) with
                  | none =>
                    exact .splitLtIx (pi + 1) child kci hp rfl hcp hfull hk2
                      hlt hc2
                  | some c2 =>
                    exact .splitLt (pi + 1) child kci c2 hp rfl hcp hfull hk2
                      hlt hc2
          · rw [if_neg hfull]
            exact .descend (pi + 1) child hp rfl hcp hfull
  | none =>
    have hp : posSpec key ks 0 := .inl ⟨hs, rfl⟩
    simp only [hs]
    try dsimp only
    cases hlf : lf with
    | true => exact .leaf 0 hp rfl
    | false =>
      cases hcp : cs.get? 0 with
      | none => exact .ixChild 0 hp rfl hcp
      | some child =>
        try dsimp only
        by_cases hfull : child.keys.length = 2 * t - 1
        · rw [if_pos hfull]
          try dsimp only
          cases hk2 : (splitChild t (.node ks vs cs false) 0).keys.get? 0 with
          | none => exact .ixSplitKey 0 child hp rfl hcp hfull hk2
          | some kci =>
            try dsimp only
            by_cases hgt : 0 < cmpK key kci
            · rw [if_pos hgt]
              cases hc2 : (splitChild t (.node ks vs cs false)
                  0).children.get? 1 with
              | none => exact .splitGtIx 0 child kci hp rfl hcp hfull hk2 hgt hc2
              | some c2 =>
                exact .splitGt 0 child kci c2 hp rfl hcp hfull hk2 hgt hc2
            · rw [if_neg hgt]
              by_cases heq : cmpK key kci = 0
              · rw [if_pos heq]
                exact .splitEq 0 child kci hp rfl hcp hfull hk2 heq
              · rw [if_neg heq]
                have hlt : cmpK key kci < 0 := by omega
                cases hc2 : (splitChild t (.node ks vs cs false)
                    0).children.get? 0 with
                | none =>
                  exact .splitLtIx 0 child kci hp rfl hcp hfull hk2 hlt hc2
                | some c2 =>
                  exact .splitLt 0 child kci c2 hp rfl hcp hfull hk2 hlt hc2
        · rw [if_neg hfull]
          exact .descend 0 child hp rfl hcp hfull

/-! ### B-tree: row-id list contents -/

theorem mem_valLists_left {l : List Int} {ks : List Key}
    {vs : List (List Int)} {cs : List BT} {lf : Bool} (h : l ∈ vs) :
    l ∈ valLists (.node ks vs cs lf) :=
  mem_valLists.mpr (.inl h)

theorem mem_valLists_child {l : List Int} {c : BT} {ks : List Key}
    {vs : List (List Int)} {cs : List BT} {lf : Bool} (hc : c ∈ cs)
    (h : l ∈ valLists c) : l ∈ valLists (.node ks vs cs lf) :=
  mem_valLists.mpr (.inr ⟨c, hc, h⟩)

theorem valLists_of_children {n c : BT} (hc : c ∈ n.children) {l : List Int}
    (h : l ∈ valLists c) : l ∈ valLists n := by
  obtain ⟨ks, vs, cs, lf⟩ := n
  exact mem_valLists_child hc h

theorem valLists_splitChild {t : Nat} {n : BT} {ci : Nat} {l : List Int}
    (h : l ∈ valLists (splitChild t n ci)) : l ∈ valLists n := by
  obtain ⟨pks, pvs, pcs, plf⟩ := n
  simp only [splitChild] at h
  cases hg : pcs.get? ci with
  | none => rw [hg] at h; exact h
  | some child =>
    rw [hg] at h
    obtain ⟨cks, cvs, ccs, clf⟩ := child
    dsimp only at h
    cases hm1 : (cks.take t).getLast? with
    | none => rw [hm1] at h; exact h
    | some mk =>
      rw [hm1] at h
      cases hm2 : (cvs.take t).getLast? with
      | none => rw [hm2] at h; exact h
      | some mv =>
        rw [hm2] at h
        dsimp only at h
        have hchild : BT.node cks cvs ccs clf ∈ pcs := List.get?_mem hg
        rcases mem_valLists.mp h with hv | ⟨c2, hc2, hl2⟩
        · rcases mem_insertIdx_weak hv with rfl | hv2
          · exact mem_valLists_child hchild
              (mem_valLists_left
                (List.mem_of_mem_take (List.mem_of_mem_getLast? hm2)))
          · exact mem_valLists_left hv2
        · rcases mem_insertIdx_weak hc2 with rfl | hc3
          · rcases mem_valLists.mp hl2 with hv | ⟨c3, hc3, hl3⟩
            · exact mem_valLists_child hchild
                (mem_valLists_left (List.mem_of_mem_drop hv))
            · have hc4 : c3 ∈ ccs := by
                cases clf with
                | true => simp at hc3
                | false => exact List.mem_of_mem_drop (by simpa using hc3)
              exact mem_valLists_child hchild (mem_valLists_child hc4 hl3)
          · rcases List.mem_or_eq_of_mem_set hc3 with hc4 | rfl
            · exact mem_valLists_child hc4 hl2
            · rcases mem_valLists.mp hl2 with hv | ⟨c3, hc3, hl3⟩
              · exact mem_valLists_child hchild
                  (mem_valLists_left
                    (List.mem_of_mem_take (List.mem_of_mem_dropLast hv)))
              · have hc4 : c3 ∈ ccs := by
                  cases clf with
                  | true => simpa using hc3
                  | false => exact List.mem_of_mem_take (by simpa using hc3)
                exact mem_valLists_child hchild (mem_valLists_child hc4 hl3)

theorem addToVals_true_eq (n : BT) (i : Nat) (rid : Int) :
    (addToVals true n i rid).1 = n := by
  obtain ⟨ks, vs, cs, lf⟩ := n
  simp only [addToVals]
  cases hg : vs.get? i with
  | none => rfl
  | some lst =>
    dsimp only
    by_cases hc : rid ∈ lst
    · rw [if_neg (by simp [hc]), if_neg (by simp [hc])]
    · rw [if_pos (by simp [hc])]

theorem addToVals_err_eq {u : Bool} {n : BT} {i : Nat} {rid : Int}
    {e : String} (h : (addToVals u n i rid).2 = some e) :
    (addToVals u n i rid).1 = n := by
  obtain ⟨ks, vs, cs, lf⟩ := n
  simp only [addToVals] at h ⊢
  cases hg : vs.get? i with
  | none => rfl
  | some lst =>
    rw [hg] at h
    dsimp only at h ⊢
    by_cases h1 : u = true ∧ ¬ lst.contains rid = true
    · rw [if_pos h1]
    · rw [if_neg h1] at h ⊢
      by_cases h2 : ¬ lst.contains rid = true
      · rw [if_pos h2] at h
        exact absurd h (by simp)
      · rw [if_neg h2]

theorem valLists_setChild {n c : BT} {ci : Nat} {l : List Int}
    (h : l ∈ valLists (setChild n ci c)) :
    l ∈ valLists n ∨ l ∈ valLists c := by
  obtain ⟨ks, vs, cs, lf⟩ := n
  simp only [setChild] at h
  rcases mem_valLists.mp h with hv | ⟨c2, hc2, hl2⟩
  · exact .inl (mem_valLists_left hv)
  · rcases List.mem_or_eq_of_mem_set hc2 with hc3 | rfl
    · exact .inl (mem_valLists_child hc3 hl2)
    · exact .inr hl2

theorem insertNF_unique_valLists (t : Nat) :
    ∀ (fuel : Nat) (n : BT) (key : Key) (rid : Int) {l : List Int},
      l ∈ valLists (insertNF t true fuel n key rid).1 →
      l ∈ valLists n ∨ l = [rid] := by
  intro fuel
  induction fuel with
  | zero => intro n key rid l h; exact .inl h
  | succ fuel ih =>
    intro n key rid l h
    obtain ⟨ks, vs, cs, lf⟩ := n
    have hstep := insertNF_succ_step t true fuel ks vs cs lf key rid
    generalize hr : insertNF t true (fuel + 1) (.node ks vs cs lf) key rid
      = r at h hstep
    cases hstep with
    | found i k hs hz =>
      rw [addToVals_true_eq] at h
      exact .inl h
    | leaf pos hp hlf =>
      dsimp only at h
      rcases mem_valLists.mp h with hv | ⟨c, hc, hl⟩
      · rcases mem_insertIdx_weak hv with rfl | hv2
        · exact .inr rfl
        · exact .inl (mem_valLists_left hv2)
      · exact .inl (mem_valLists_child hc hl)
    | ixChild pos hp hlf hc => exact .inl h
    | descend pos child hp hlf hc hnf =>
      dsimp only at h
      rcases valLists_setChild h with h2 | h2
      · exact .inl h2
      · rcases ih child key rid h2 with h3 | h3
        · exact .inl (mem_valLists_child (List.get?_mem hc) h3)
        · exact .inr h3
    | ixSplitKey pos child hp hlf hc hf hk =>
      exact .inl (valLists_splitChild h)
    | splitGtIx pos child kci hp hlf hc hf hk hgt hc2 =>
      exact .inl (valLists_splitChild h)
    | splitGt pos child kci c2 hp hlf hc hf hk hgt hc2 =>
      dsimp only at h
      rcases valLists_setChild h with h2 | h2
      · exact .inl (valLists_splitChild h2)
      · rcases ih c2 key rid h2 with h3 | h3
        · exact .inl (valLists_splitChild
            (valLists_of_children (List.get?_mem hc2) h3))
        · exact .inr h3
    | splitEq pos child kci hp hlf hc hf hk heq =>
      rw [addToVals_true_eq] at h
      exact .inl (valLists_splitChild h)
    | splitLtIx pos child kci hp hlf hc hf hk hlt hc2 =>
      exact .inl (valLists_splitChild h)
    | splitLt pos child kci c2 hp hlf hc hf hk hlt hc2 =>
      dsimp only at h
      rcases valLists_setChild h with h2 | h2
      · exact .inl (valLists_splitChild h2)
      · rcases ih c2 key rid h2 with h3 | h3
        · exact .inl (valLists_splitChild
            (valLists_of_children (List.get?_mem hc2) h3))
        · exact .inr h3

theorem deleteBT_valLists (n : BT) (key : Key) (rid : Int) :
    ∀ l ∈ valLists (deleteBT n key rid).1,
      l ∈ valLists n ∨ ∃ l0 ∈ valLists n, l = l0.erase rid := by
  induction n, key, rid using deleteBT.induct with
  | case1 key rid ks vs cs lf i ki hki hz lst hlst hcont =>
    intro l hl
    have hki2 : ks.get? (ks.findIdx (fun kk => !(0 < cmpK key kk)))
      = some ki := hki
    have hlst2 : vs.get? (ks.findIdx (fun kk => !(0 < cmpK key kk)))
      = some lst := hlst
    rw [deleteBT] at hl
    dsimp only at hl
    rw [hki2] at hl
    dsimp only at hl
    rw [if_pos hz, hlst2] at hl
    dsimp only at hl
    rw [if_pos hcont] at hl
    dsimp only at hl
    rcases mem_valLists.mp hl with hv | ⟨c, hc, hlc⟩
    · rcases List.mem_or_eq_of_mem_set hv with hv2 | rfl
      · exact .inl (mem_valLists_left hv2)
      · exact .inr ⟨lst, mem_valLists_left (List.get?_mem hlst2), rfl⟩
    · exact .inl (mem_valLists_child hc hlc)
  | case2 key rid ks vs cs lf i ki hki hz lst hlst hcont =>
    intro l hl
    have hki2 : ks.get? (ks.findIdx (fun kk => !(0 < cmpK key kk)))
      = some ki := hki
    have hlst2 : vs.get? (ks.findIdx (fun kk => !(0 < cmpK key kk)))
      = some lst := hlst
    rw [deleteBT] at hl
    dsimp only at hl
    rw [hki2] at hl
    dsimp only at hl
    rw [if_pos hz, hlst2] at hl
    dsimp only at hl
    rw [if_neg hcont] at hl
    exact .inl hl
  | case3 key rid ks vs cs lf i ki hki hz hlst =>
    intro l hl
    have hki2 : ks.get? (ks.findIdx (fun kk => !(0 < cmpK key kk)))
      = some ki := hki
    have hlst2 : vs.get? (ks.findIdx (fun kk => !(0 < cmpK key kk)))
      = none := hlst
    rw [deleteBT] at hl
    dsimp only at hl
    rw [hki2] at hl
    dsimp only at hl
    rw [if_pos hz, hlst2] at hl
    exact .inl hl
  | case4 key rid ks vs cs i ki hki hz =>
    intro l hl
    have hki2 : ks.get? (ks.findIdx (fun kk => !(0 < cmpK key kk)))
      = some ki := hki
    rw [deleteBT] at hl
    dsimp only at hl
    rw [hki2] at hl
    dsimp only at hl
    rw [if_neg hz] at hl
    exact .inl hl
  | case5 key rid ks vs cs lf i ki hki hz hlf c hc ih =>
    intro l hl
    have hki2 : ks.get? (ks.findIdx (fun kk => !(0 < cmpK key kk)))
      = some ki := hki
    have hc2 : cs.get? (ks.findIdx (fun kk => !(0 < cmpK key kk)))
      = some c := hc
    rw [deleteBT] at hl
    dsimp only at hl
    rw [hki2] at hl
    dsimp only at hl
    rw [if_neg hz, if_neg hlf, hc2] at hl
    dsimp only at hl
    rcases valLists_setChild hl with h2 | h2
    · exact .inl h2
    · rcases ih l h2 with h3 | ⟨l0, hl0, rfl⟩
      · exact .inl (mem_valLists_child (List.get?_mem hc2) h3)
      · exact .inr ⟨l0, mem_valLists_child (List.get?_mem hc2) hl0, rfl⟩
  | case6 key rid ks vs cs lf i ki hki hz hlf hc =>
    intro l hl
    have hki2 : ks.get? (ks.findIdx (fun kk => !(0 < cmpK key kk)))
      = some ki := hki
    have hc2 : cs.get? (ks.findIdx (fun kk => !(0 < cmpK key kk)))
      = none := hc
    rw [deleteBT] at hl
    dsimp only at hl
    rw [hki2] at hl
    dsimp only at hl
    rw [if_neg hz, if_neg hlf, hc2] at hl
    exact .inl hl
  | case7 key rid ks vs cs i hki =>
    intro l hl
    have hki2 : ks.get? (ks.findIdx (fun kk => !(0 < cmpK key kk)))
      = none := hki
    rw [deleteBT] at hl
    dsimp only at hl
    rw [hki2] at hl
    exact .inl hl
  | case8 key rid ks vs cs lf i hki hlf c hc ih =>
    intro l hl
    have hki2 : ks.get? (ks.findIdx (fun kk => !(0 < cmpK key kk)))
      = none := hki
    have hc2 : cs.get? (ks.findIdx (fun kk => !(0 < cmpK key kk)))
      = some c := hc
    rw [deleteBT] at hl
    dsimp only at hl
    rw [hki2] at hl
    dsimp only at hl
    rw [if_neg hlf, hc2] at hl
    dsimp only at hl
    rcases valLists_setChild hl with h2 | h2
    · exact .inl h2
    · rcases ih l h2 with h3 | ⟨l0, hl0, rfl⟩
      · exact .inl (mem_valLists_child (List.get?_mem hc2) h3)
      · exact .inr ⟨l0, mem_valLists_child (List.get?_mem hc2) hl0, rfl⟩
  | case9 key rid ks vs cs lf i hki hlf hc =>
    intro l hl
    have hki2 : ks.get? (ks.findIdx (fun kk => !(0 < cmpK key kk)))
      = none := hki
    have hc2 : cs.get? (ks.findIdx (fun kk => !(0 < cmpK key kk)))
      = none := hc
    rw [deleteBT] at hl
    dsimp only at hl
    rw [hki2] at hl
    dsimp only at hl
    rw [if_neg hlf, hc2] at hl
    exact .inl hl

theorem searchBT_valLists (n : BT) (key : Key) :
    searchBT n key = [] ∨ searchBT n key ∈ valLists n := by
  induction n, key using searchBT.induct with
  | case1 key ks vs cs lf i ki hki hz =>
    have hki2 : ks.get? (ks.findIdx (fun kk => !(0 < cmpK key kk)))
      = some ki := hki
    rw [searchBT]
    try dsimp only
    rw [hki2]
    try dsimp only
    rw [if_pos hz]
    cases hv : vs.get? (ks.findIdx (fun kk => !(0 < cmpK key kk))) with
    | none => exact .inl rfl
    | some lst =>
      exact .inr (mem_valLists_left (List.get?_mem hv))
  | case2 key ks vs cs i ki hki hz =>
    have hki2 : ks.get? (ks.findIdx (fun kk => !(0 < cmpK key kk)))
      = some ki := hki
    rw [searchBT]
    try dsimp only
    rw [hki2]
    try dsimp only
    rw [if_neg hz]
    exact .inl rfl
  | case3 key ks vs cs lf i ki hki hz hlf c hc ih =>
    have hki2 : ks.get? (ks.findIdx (fun kk => !(0 < cmpK key kk)))
      = some ki := hki
    have hc2 : cs.get? (ks.findIdx (fun kk => !(0 < cmpK key kk)))
      = some c := hc
    rw [searchBT]
    try dsimp only
    rw [hki2]
    try dsimp only
    rw [if_neg hz, if_neg hlf, hc2]
    rcases ih with h | h
    · exact .inl h
    · exact .inr (mem_valLists_child (List.get?_mem hc2) h)
  | case4 key ks vs cs lf i ki hki hz hlf hc =>
    have hki2 : ks.get? (ks.findIdx (fun kk => !(0 < cmpK key kk)))
      = some ki := hki
    have hc2 : cs.get? (ks.findIdx (fun kk => !(0 < cmpK key kk)))
      = none := hc
    rw [searchBT]
    try dsimp only
    rw [hki2]
    try dsimp only
    rw [if_neg hz, if_neg hlf, hc2]
    exact .inl rfl
  | case5 key ks vs cs i hki =>
    have hki2 : ks.get? (ks.findIdx (fun kk => !(0 < cmpK key kk)))
      = none := hki
    rw [searchBT]
    try dsimp only
    rw [hki2]
    exact .inl rfl
  | case6 key ks vs cs lf i hki hlf c hc ih =>
    have hki2 : ks.get? (ks.findIdx (fun kk => !(0 < cmpK key kk)))
      = none := hki
    have hc2 : cs.get? (ks.findIdx (fun kk => !(0 < cmpK key kk)))
      = some c := hc
    rw [searchBT]
    try dsimp only
    rw [hki2]
    try dsimp only
    rw [if_neg hlf, hc2]
    rcases ih with h | h
    · exact .inl h
    · exact .inr (mem_valLists_child (List.get?_mem hc2) h)
  | case7 key ks vs cs lf i hki hlf hc =>
    have hki2 : ks.get? (ks.findIdx (fun kk => !(0 < cmpK key kk)))
      = none := hki
    have hc2 : cs.get? (ks.findIdx (fun kk => !(0 < cmpK key kk)))
      = none := hc
    rw [searchBT]
    try dsimp only
    rw [hki2]
    try dsimp only
    rw [if_neg hlf, hc2]
    exact .inl rfl

theorem inorder_entry_valLists (n : BT) :
    ∀ p ∈ inorder n, p.2 ∈ valLists n := by
  refine inorder.induct (fun n => ∀ p ∈ inorder n, p.2 ∈ valLists n)
    (fun ks vs cs => ∀ p ∈ interleave ks vs cs,
      p.2 ∈ vs ∨ ∃ c ∈ cs, p.2 ∈ valLists c) ?_ ?_ ?_ ?_ n
  · intro ks vs cs p hp
    rw [inorder_node, if_pos rfl] at hp
    exact mem_valLists_left (List.of_mem_zip hp).2
  · intro ks vs cs lf hlf ih p hp
    rw [inorder_node, if_neg hlf] at hp
    rcases ih p hp with hv | ⟨c, hc, hl⟩
    · exact mem_valLists_left hv
    · exact mem_valLists_child hc hl
  · intro k ks v vs c cs ih1 ih2 p hp
    rw [interleave_cons] at hp
    rcases List.mem_append.mp hp with h1 | h1
    · exact .inr ⟨c, List.mem_cons_self _ _, ih1 p h1⟩
    · rcases List.mem_cons.mp h1 with rfl | h2
      · exact .inl (List.mem_cons_self _ _)
      · rcases ih2 p h2 with hv | ⟨c2, hc2, hl⟩
        · exact .inl (List.mem_cons_of_mem _ hv)
        · exact .inr ⟨c2, List.mem_cons_of_mem _ hc2, hl⟩
  · intro ks vs cs hne ih p hp
    rw [interleave] at hp
    · rcases List.mem_flatten.mp hp with ⟨L, hL, hpL⟩
      rcases List.mem_map.mp hL with ⟨⟨c, hc⟩, -, rfl⟩
      exact .inr ⟨c, hc, ih ⟨c, hc⟩ p hpL⟩
    · exact hne

/-! ### B-tree: the unique-index invariant is preserved -/

theorem oneId_insertNF {t fuel : Nat} {n : BT} {key : Key} {rid : Int}
    (h : oneId n) : oneId (insertNF t true fuel n key rid).1 := by
  intro l hl a ha b hb
  rcases insertNF_unique_valLists t fuel n key rid hl with h2 | rfl
  · exact h l h2 a ha b hb
  · rcases List.mem_singleton.mp ha with rfl
    rcases List.mem_singleton.mp hb with rfl
    rfl

theorem oneId_deleteBT {n : BT} {key : Key} {rid : Int} (h : oneId n) :
    oneId (deleteBT n key rid).1 := by
  intro l hl a ha b hb
  rcases deleteBT_valLists n key rid l hl with h2 | ⟨l0, hl0, rfl⟩
  · exact h l h2 a ha b hb
  · exact h l0 hl0 a (List.mem_of_mem_erase ha) b (List.mem_of_mem_erase hb)

theorem oneId_newRoot {n : BT} (h : oneId n) :
    oneId (.node [] [] [n] false) := by
  intro l hl
  rcases mem_valLists.mp hl with hv | ⟨c, hc, hlc⟩
  · cases hv
  · rcases List.mem_singleton.mp hc with rfl
    exact h l hlc

theorem oneId_splitChild {t : Nat} {n : BT} {ci : Nat} (h : oneId n) :
    oneId (splitChild t n ci) := fun l hl => h l (valLists_splitChild hl)

theorem oneId_idx_insert {idx : BTreeIdx} (hu : idx.unique = true)
    (h : oneId idx.root) (key : Key) (rid : Int) :
    oneId (idx.insert key rid).1.root := by
  unfold BTreeIdx.insert
  dsimp only
  rw [hu]
  by_cases hfull : idx.root.keys.length = 2 * idx.order - 1
  · rw [if_pos hfull]
    exact oneId_insertNF (oneId_splitChild (oneId_newRoot h))
  · rw [if_neg hfull]
    exact oneId_insertNF h

theorem stepIdx_unique (idx : BTreeIdx) (op : IdxOp) :
    (stepIdx idx op).unique = idx.unique := by
  cases op with
  | ins k r =>
    unfold stepIdx BTreeIdx.insert
    dsimp only
    by_cases hfull : idx.root.keys.length = 2 * idx.order - 1
    · rw [if_pos hfull]
    · rw [if_neg hfull]
  | del k r => rfl

theorem oneId_stepIdx {idx : BTreeIdx} (hu : idx.unique = true)
    (h : oneId idx.root) (op : IdxOp) : oneId (stepIdx idx op).root := by
  cases op with
  | ins k r => exact oneId_idx_insert hu h k r
  | del k r => exact oneId_deleteBT h

theorem oneId_runIdx_aux (ops : List IdxOp) :
    ∀ (idx : BTreeIdx), idx.unique = true → oneId idx.root →
      oneId (runIdx idx ops).root ∧ (runIdx idx ops).unique = true := by
  induction ops with
  | nil => exact fun idx hu h => ⟨h, hu⟩
  | cons op ops ih =>
    intro idx hu h
    exact ih (stepIdx idx op) ((stepIdx_unique idx op).trans hu)
      (oneId_stepIdx hu h op)

theorem oneId_initIdx (t : Nat) (u : Bool) : oneId (initIdx t u).root := by
  intro l hl
  rcases mem_valLists.mp hl with hv | ⟨c, hc, -⟩
  · cases hv
  · cases hc

theorem oneId_runIdx (t : Nat) (ops : List IdxOp) :
    oneId (runIdx (initIdx t true) ops).root :=
  (oneId_runIdx_aux ops (initIdx t true) rfl (oneId_initIdx t true)).1

/-! ### B-tree: structural well-formedness is preserved -/

theorem Shape.lens {ks : List Key} {vs : List (List Int)} {cs : List BT}
    {lf : Bool} (h : Shape (.node ks vs cs lf)) : ks.length = vs.length := by
  cases h <;> assumption

theorem Shape.count {ks : List Key} {vs : List (List Int)} {cs : List BT}
    (h : Shape (.node ks vs cs false)) : cs.length = ks.length + 1 := by
  cases h
  assumption

theorem Shape.noChildren {ks : List Key} {vs : List (List Int)}
    {cs : List BT} (h : Shape (.node ks vs cs true)) : cs = [] := by
  cases h
  rfl

theorem Shape.child {ks : List Key} {vs : List (List Int)} {cs : List BT}
    {lf : Bool} {c : BT} (h : Shape (.node ks vs cs lf)) (hc : c ∈ cs) :
    Shape c := by
  cases h with
  | leaf => cases hc
  | internal _ _ _ _ _ hcs => exact hcs c hc

theorem Shape.childOf {n c : BT} (h : Shape n) (hc : c ∈ n.children) :
    Shape c := by
  obtain ⟨ks, vs, cs, lf⟩ := n
  exact h.child hc

theorem getLast?_none {α : Type} {l : List α} (h : l.getLast? = none) :
    l = [] := by
  rcases l with - | ⟨a, l⟩
  · rfl
  · exfalso
    have h2 := List.getLast?_isSome (l := a :: l)
    rw [h] at h2
    simp at h2

theorem shape_splitChild {t : Nat} (ht : 1 ≤ t) {ks : List Key}
    {vs : List (List Int)} {cs : List BT} {lf : Bool} {ci : Nat} {child : BT}
    (hs : Shape (.node ks vs cs lf)) (hc : cs.get? ci = some child)
    (hf : child.keys.length = 2 * t - 1) :
    Shape (splitChild t (.node ks vs cs lf) ci) := by
  cases hs with
  | leaf ks vs hl =>
    rw [List.get?_eq_none.mpr (by simp)] at hc
    cases hc
  | internal ks vs cs hl hcnt hcs =>
    have hci : ci < cs.length := by
      rcases List.get?_eq_some.mp hc with ⟨h1, -⟩
      exact h1
    have hchild := hcs child (List.get?_mem hc)
    obtain ⟨cks, cvs, ccs, clf⟩ := child
    have hclens : cks.length = cvs.length := hchild.lens
    have hckl : cks.length = 2 * t - 1 := hf
    have htake : (cks.take t).length = t := by
      rw [List.length_take]
      omega
    have htakev : (cvs.take t).length = t := by
      rw [List.length_take]
      omega
    simp only [splitChild]
    rw [hc]
    dsimp only
    cases hm1 : (cks.take t).getLast? with
    | none =>
      have := getLast?_none hm1
      rw [this, List.length_nil] at htake
      omega
    | some mk =>
      cases hm2 : (cvs.take t).getLast? with
      | none =>
        have := getLast?_none hm2
        rw [this, List.length_nil] at htakev
        omega
      | some mv =>
        dsimp only
        have hkept : Shape (BT.node (cks.take t).dropLast
            (cvs.take t).dropLast (if clf then ccs else ccs.take t) clf) := by
          cases clf with
          | true =>
            rw [if_pos rfl]
            rw [hchild.noChildren]
            exact Shape.leaf _ _ (by rw [List.length_dropLast,
              List.length_dropLast, htake, htakev])
          | false =>
            rw [if_neg (by simp)]
            refine Shape.internal _ _ _ (by rw [List.length_dropLast,
              List.length_dropLast, htake, htakev]) ?_ ?_
            · rw [List.length_take, List.length_dropLast, htake,
                hchild.count]
              omega
            · intro c2 hc2
              exact hchild.child (List.mem_of_mem_take hc2)
        have hnew : Shape (BT.node (cks.drop t) (cvs.drop t)
            (if clf then [] else ccs.drop t) clf) := by
          cases clf with
          | true =>
            rw [if_pos rfl]
            exact Shape.leaf _ _ (by rw [List.length_drop,
              List.length_drop, hclens])
          | false =>
            rw [if_neg (by simp)]
            refine Shape.internal _ _ _ (by rw [List.length_drop,
              List.length_drop, hclens]) ?_ ?_
            · rw [List.length_drop, List.length_drop, hchild.count]
              omega
            · intro c2 hc2
              exact hchild.child (List.mem_of_mem_drop hc2)
        have hcile : ci ≤ ks.length := by omega
        refine Shape.internal _ _ _ ?_ ?_ ?_
        · rw [List.length_insertIdx _ _ hcile,
            List.length_insertIdx _ _ (by omega), hl]
        · rw [List.length_insertIdx _ _ (by
            rw [List.length_set]; omega),
            List.length_set, hcnt, List.length_insertIdx _ _ hcile]
        · intro c2 hc2
          rcases mem_insertIdx_weak hc2 with rfl | hc3
          · exact hnew
          · rcases List.mem_or_eq_of_mem_set hc3 with hc4 | rfl
            · exact hcs c2 hc4
            · exact hkept

theorem shape_addToVals {u : Bool} {n : BT} {i : Nat} {rid : Int}
    (h : Shape n) : Shape (addToVals u n i rid).1 := by
  obtain ⟨ks, vs, cs, lf⟩ := n
  simp only [addToVals]
  cases hg : vs.get? i with
  | none => exact h
  | some lst =>
    dsimp only
    by_cases h1 : u = true ∧ ¬ lst.contains rid = true
    · rw [if_pos h1]
      exact h
    · rw [if_neg h1]
      by_cases h2 : ¬ lst.contains rid = true
      · rw [if_pos h2]
        cases h with
        | leaf ks vs hl =>
          exact Shape.leaf _ _ (by rw [List.length_set, hl])
        | internal ks vs cs hl hcnt hcs =>
          exact Shape.internal _ _ _ (by rw [List.length_set, hl]) hcnt hcs
      · rw [if_neg h2]
        exact h

theorem shape_setChild {n c : BT} {ci : Nat} (h : Shape n) (hc : Shape c) :
    Shape (setChild n ci c) := by
  obtain ⟨ks, vs, cs, lf⟩ := n
  simp only [setChild]
  cases h with
  | leaf ks vs hl =>
    exact Shape.leaf _ _ hl
  | internal ks vs cs hl hcnt hcs =>
    refine Shape.internal _ _ _ hl (by rw [List.length_set, hcnt]) ?_
    intro c2 hc2
    rcases List.mem_or_eq_of_mem_set hc2 with hc3 | rfl
    · exact hcs c2 hc3
    · exact hc

theorem shape_insertNF {t : Nat} (ht : 1 ≤ t) (u : Bool) :
    ∀ (fuel : Nat) (n : BT) (key : Key) (rid : Int), Shape n →
      Shape (insertNF t u fuel n key rid).1 := by
  intro fuel
  induction fuel with
  | zero => exact fun n key rid h => h
  | succ fuel ih =>
    intro n key rid h
    obtain ⟨ks, vs, cs, lf⟩ := n
    have hstep := insertNF_succ_step t u fuel ks vs cs lf key rid
    generalize insertNF t u (fuel + 1) (.node ks vs cs lf) key rid
      = r at hstep
    cases hstep with
    | found i k hs hz => exact shape_addToVals h
    | leaf pos hp hlf =>
      subst hlf
      have hpos := posSpec_le hp
      have hcs := h.noChildren
      subst hcs
      exact Shape.leaf _ _ (by rw [List.length_insertIdx _ _ hpos,
        List.length_insertIdx _ _ (by rw [← h.lens]; exact hpos), h.lens])
    | ixChild pos hp hlf hc => exact h
    | descend pos child hp hlf hc hnf =>
      exact shape_setChild h (ih child key rid (h.child (List.get?_mem hc)))
    | ixSplitKey pos child hp hlf hc hf hk =>
      subst hlf
      exact shape_splitChild ht h hc hf
    | splitGtIx pos child kci hp hlf hc hf hk hgt hc2 =>
      subst hlf
      exact shape_splitChild ht h hc hf
    | splitGt pos child kci c2 hp hlf hc hf hk hgt hc2 =>
      subst hlf
      have hsp := shape_splitChild ht h hc hf
      exact shape_setChild hsp (ih c2 key rid
        (hsp.childOf (List.get?_mem hc2)))
    | splitEq pos child kci hp hlf hc hf hk heq =>
      subst hlf
      exact shape_addToVals (shape_splitChild ht h hc hf)
    | splitLtIx pos child kci hp hlf hc hf hk hlt hc2 =>
      subst hlf
      exact shape_splitChild ht h hc hf
    | splitLt pos child kci c2 hp hlf hc hf hk hlt hc2 =>
      subst hlf
      have hsp := shape_splitChild ht h hc hf
      exact shape_setChild hsp (ih c2 key rid
        (hsp.childOf (List.get?_mem hc2)))

theorem shape_deleteBT (n : BT) (key : Key) (rid : Int) (h : Shape n) :
    Shape (deleteBT n key rid).1 := by
  induction n, key, rid using deleteBT.induct with
  | case1 key rid ks vs cs lf i ki hki hz lst hlst hcont =>
    have hki2 : ks.get? (ks.findIdx (fun kk => !(0 < cmpK key kk)))
      = some ki := hki
    have hlst2 : vs.get? (ks.findIdx (fun kk => !(0 < cmpK key kk)))
      = some lst := hlst
    rw [deleteBT]
    dsimp only
    rw [hki2]
    dsimp only
    rw [if_pos hz, hlst2]
    dsimp only
    rw [if_pos hcont]
    dsimp only
    cases h with
    | leaf ks vs hl => exact Shape.leaf _ _ (by rw [List.length_set, hl])
    | internal ks vs cs hl hcnt hcs =>
      exact Shape.internal _ _ _ (by rw [List.length_set, hl]) hcnt hcs
  | case2 key rid ks vs cs lf i ki hki hz lst hlst hcont =>
    have hki2 : ks.get? (ks.findIdx (fun kk => !(0 < cmpK key kk)))
      = some ki := hki
    have hlst2 : vs.get? (ks.findIdx (fun kk => !(0 < cmpK key kk)))
      = some lst := hlst
    rw [deleteBT]
    dsimp only
    rw [hki2]
    dsimp only
    rw [if_pos hz, hlst2]
    dsimp only
    rw [if_neg hcont]
    exact h
  | case3 key rid ks vs cs lf i ki hki hz hlst =>
    have hki2 : ks.get? (ks.findIdx (fun kk => !(0 < cmpK key kk)))
      = some ki := hki
    have hlst2 : vs.get? (ks.findIdx (fun kk => !(0 < cmpK key kk)))
      = none := hlst
    rw [deleteBT]
    dsimp only
    rw [hki2]
    dsimp only
    rw [if_pos hz, hlst2]
    exact h
  | case4 key rid ks vs cs i ki hki hz =>
    have hki2 : ks.get? (ks.findIdx (fun kk => !(0 < cmpK key kk)))
      = some ki := hki
    rw [deleteBT]
    dsimp only
    rw [hki2]
    dsimp only
    rw [if_neg hz]
    exact h
  | case5 key rid ks vs cs lf i ki hki hz hlf c hc ih =>
    have hki2 : ks.get? (ks.findIdx (fun kk => !(0 < cmpK key kk)))
      = some ki := hki
    have hc2 : cs.get? (ks.findIdx (fun kk => !(0 < cmpK key kk)))
      = some c := hc
    rw [deleteBT]
    dsimp only
    rw [hki2]
    dsimp only
    rw [if_neg hz, if_neg hlf, hc2]
    dsimp only
    exact shape_setChild h (ih (h.child (List.get?_mem hc2)))
  | case6 key rid ks vs cs lf i ki hki hz hlf hc =>
    have hki2 : ks.get? (ks.findIdx (fun kk => !(0 < cmpK key kk)))
      = some ki := hki
    have hc2 : cs.get? (ks.findIdx (fun kk => !(0 < cmpK key kk)))
      = none := hc
    rw [deleteBT]
    dsimp only
    rw [hki2]
    dsimp only
    rw [if_neg hz, if_neg hlf, hc2]
    exact h
  | case7 key rid ks vs cs i hki =>
    have hki2 : ks.get? (ks.findIdx (fun kk => !(0 < cmpK key kk)))
      = none := hki
    rw [deleteBT]
    dsimp only
    rw [hki2]
    exact h
  | case8 key rid ks vs cs lf i hki hlf c hc ih =>
    have hki2 : ks.get? (ks.findIdx (fun kk => !(0 < cmpK key kk)))
      = none := hki
    have hc2 : cs.get? (ks.findIdx (fun kk => !(0 < cmpK key kk)))
      = some c := hc
    rw [deleteBT]
    dsimp only
    rw [hki2]
    dsimp only
    rw [if_neg hlf, hc2]
    dsimp only
    exact shape_setChild h (ih (h.child (List.get?_mem hc2)))
  | case9 key rid ks vs cs lf i hki hlf hc =>
    have hki2 : ks.get? (ks.findIdx (fun kk => !(0 < cmpK key kk)))
      = none := hki
    have hc2 : cs.get? (ks.findIdx (fun kk => !(0 < cmpK key kk)))
      = none := hc
    rw [deleteBT]
    dsimp only
    rw [hki2]
    dsimp only
    rw [if_neg hlf, hc2]
    exact h

theorem shape_idx_insert {idx : BTreeIdx} (ht : 1 ≤ idx.order)
    (h : Shape idx.root) (key : Key) (rid : Int) :
    Shape (idx.insert key rid).1.root := by
  unfold BTreeIdx.insert
  dsimp only
  by_cases hfull : idx.root.keys.length = 2 * idx.order - 1
  · rw [if_pos hfull]
    have hnr : Shape (BT.node [] [] [idx.root] false) := by
      refine Shape.internal _ _ _ rfl rfl ?_
      intro c hc
      rcases List.mem_singleton.mp hc with rfl
      exact h
    exact shape_insertNF ht idx.unique _ _ key rid
      (shape_splitChild ht hnr rfl hfull)
  · rw [if_neg hfull]
    exact shape_insertNF ht idx.unique _ _ key rid h

theorem shape_stepIdx {idx : BTreeIdx} (ht : 1 ≤ idx.order)
    (h : Shape idx.root) (op : IdxOp) : Shape (stepIdx idx op).root := by
  cases op with
  | ins k r => exact shape_idx_insert ht h k r
  | del k r => exact shape_deleteBT _ k r h

theorem stepIdx_order (idx : BTreeIdx) (op : IdxOp) :
    (stepIdx idx op).order = idx.order := by
  cases op with
  | ins k r =>
    unfold stepIdx BTreeIdx.insert
    dsimp only
    by_cases hfull : idx.root.keys.length = 2 * idx.order - 1
    · rw [if_pos hfull]
    · rw [if_neg hfull]
  | del k r => rfl

theorem shape_runIdx_aux (ops : List IdxOp) :
    ∀ (idx : BTreeIdx), 1 ≤ idx.order → Shape idx.root →
      Shape (runIdx idx ops).root ∧ (runIdx idx ops).order = idx.order := by
  induction ops with
  | nil => exact fun idx ht h => ⟨h, rfl⟩
  | cons op ops ih =>
    intro idx ht h
    obtain ⟨h1, h2⟩ := ih (stepIdx idx op)
      (by rw [stepIdx_order]; exact ht) (shape_stepIdx ht h op)
    exact ⟨h1, h2.trans (stepIdx_order idx op)⟩

theorem shape_initIdx (t : Nat) (u : Bool) : Shape (initIdx t u).root :=
  Shape.leaf [] [] rfl

theorem shape_runIdx (t : Nat) (u : Bool) (ht : 1 ≤ t) (ops : List IdxOp) :
    Shape (runIdx (initIdx t u) ops).root ∧
      (runIdx (initIdx t u) ops).order = t :=
  shape_runIdx_aux ops (initIdx t u) ht (shape_initIdx t u)

/-! ### B-tree: in-order decomposition and split invariance -/

theorem pairwise_get {α : Type} {R : α → α → Prop} {l : List α}
    (h : l.Pairwise R) {i j : Nat} {a b : α} (hij : i < j)
    (hi : l.get? i = some a) (hj : l.get? j = some b) : R a b := by
  rw [List.pairwise_iff_get] at h
  rcases List.get?_eq_some.mp hi with ⟨hi1, hi2⟩
  rcases List.get?_eq_some.mp hj with ⟨hj1, hj2⟩
  subst hi2
  subst hj2
  exact h ⟨i, hi1⟩ ⟨j, hj1⟩ hij

theorem dropLast_take {α : Type} (t : Nat) (l : List α) (h : t ≤ l.length) :
    (l.take t).dropLast = l.take (t - 1) := by
  rw [List.dropLast_eq_take, List.length_take, List.take_take]
  congr 1
  omega

theorem getLast?_take_eq_get? {α : Type} {t : Nat} {l : List α} {a : α}
    (hm : (l.take t).getLast? = some a) (h1 : 1 ≤ t) (h2 : t ≤ l.length) :
    l.get? (t - 1) = some a := by
  rw [List.getLast?_eq_get?, List.length_take] at hm
  rw [List.get?_take (by omega)] at hm
  have hmin : min t l.length = t := by omega
  rw [hmin] at hm
  exact hm

theorem zip_take_drop :
    ∀ (t : Nat) (ks : List Key) (vs : List (List Int)) (k : Key)
      (v : List Int), 1 ≤ t → t ≤ ks.length → ks.length = vs.length →
      ks.get? (t - 1) = some k → vs.get? (t - 1) = some v →
      (ks.take (t - 1)).zip (vs.take (t - 1)) ++
        (k, v) :: (ks.drop t).zip (vs.drop t) = ks.zip vs := by
  intro t
  induction t with
  | zero => intro ks vs k v h1; omega
  | succ t ih =>
    intro ks vs k v h1 hle hl hk hv
    cases ks with
    | nil => simp at hle
    | cons k0 ks0 =>
      cases vs with
      | nil => simp at hl
      | cons v0 vs0 =>
        cases t with
        | zero =>
          have hk0 : k0 = k := by simpa using hk
          have hv0 : v0 = v := by simpa using hv
          subst hk0
          subst hv0
          simp
        | succ t2 =>
          have := ih ks0 vs0 k v (by omega) (by simpa using hle)
            (by simpa using hl) (by simpa using hk) (by simpa using hv)
          simp only [Nat.add_sub_cancel] at this ⊢
          rw [List.take_succ_cons, List.take_succ_cons, List.drop_succ_cons,
            List.drop_succ_cons, List.zip_cons_cons, List.zip_cons_cons]
          rw [List.cons_append]
          rw [this]

theorem interleave_take_drop :
    ∀ (t : Nat) (ks : List Key) (vs : List (List Int)) (cs : List BT)
      (k : Key) (v : List Int), 1 ≤ t → t ≤ ks.length →
      ks.length = vs.length → cs.length = ks.length + 1 →
      ks.get? (t - 1) = some k → vs.get? (t - 1) = some v →
      interleave (ks.take (t - 1)) (vs.take (t - 1)) (cs.take t) ++
        (k, v) :: interleave (ks.drop t) (vs.drop t) (cs.drop t)
        = interleave ks vs cs := by
  intro t
  induction t with
  | zero => intro ks vs cs k v h1; omega
  | succ t ih =>
    intro ks vs cs k v h1 hle hl hcnt hk hv
    cases ks with
    | nil => simp at hle
    | cons k0 ks0 =>
      cases vs with
      | nil => simp at hl
      | cons v0 vs0 =>
        cases cs with
        | nil => simp at hcnt
        | cons c0 cs0 =>
          cases t with
          | zero =>
            have hk0 : k0 = k := by simpa using hk
            have hv0 : v0 = v := by simpa using hv
            subst hk0
            subst hv0
            simp only [Nat.sub_self, List.take_zero, List.take_succ_cons,
              List.take_zero, List.drop_succ_cons, List.drop_zero]
            rw [interleave_nilk, interleave_cons]
            simp
          | succ t2 =>
            have hrec := ih ks0 vs0 cs0 k v (by omega) (by simpa using hle)
              (by simpa using hl) (by simpa using hcnt)
              (by simpa using hk) (by simpa using hv)
            simp only [Nat.add_sub_cancel] at hrec ⊢
            rw [List.take_succ_cons, List.take_succ_cons,
              List.take_succ_cons, List.drop_succ_cons, List.drop_succ_cons,
              List.drop_succ_cons, interleave_cons, interleave_cons]
            rw [← hrec]
            simp

theorem interleave_decomp :
    ∀ (j : Nat) (ks : List Key) (vs : List (List Int)) (cs : List BT)
      (c : BT), cs.get? j = some c → ks.length = vs.length →
      cs.length = ks.length + 1 →
      ∃ A B,
        interleave ks vs cs = A ++ inorder c ++ B ∧
        (∀ c2, interleave ks vs (cs.set j c2) = A ++ inorder c2 ++ B) ∧
        (j = 0 → A = []) ∧
        (∀ k v, j ≠ 0 → ks.get? (j - 1) = some k →
          vs.get? (j - 1) = some v → ∃ A2, A = A2 ++ [(k, v)]) ∧
        (j = ks.length → B = []) ∧
        (∀ k v, ks.get? j = some k → vs.get? j = some v →
          ∃ B2, B = (k, v) :: B2) := by
  intro j
  induction j with
  | zero =>
    intro ks vs cs c hc hl hcnt
    cases cs with
    | nil => cases hc
    | cons c0 cs0 =>
      have hc0 : c0 = c := by simpa using hc
      subst hc0
      cases ks with
      | nil =>
        have hvs : vs = [] := by
          cases vs with
          | nil => rfl
          | cons v0 vs0 => simp at hl
        subst hvs
        have hcs0 : cs0 = [] := by
          cases cs0 with
          | nil => rfl
          | cons a b => simp at hcnt
        subst hcs0
        refine ⟨[], [], ?_, ?_, fun _ => rfl, ?_, fun _ => rfl, ?_⟩
        · rw [interleave_nilk]
          simp
        · intro c2
          rw [show ([c0].set 0 c2) = [c2] from rfl, interleave_nilk]
          simp
        · intro k v h0
          exact absurd rfl h0
        · intro k v hk
          cases hk
      | cons k0 ks0 =>
        cases vs with
        | nil => simp at hl
        | cons v0 vs0 =>
          refine ⟨[], (k0, v0) :: interleave ks0 vs0 cs0, ?_, ?_,
            fun _ => rfl, ?_, ?_, ?_⟩
          · rw [interleave_cons]
            simp
          · intro c2
            rw [show ((c0 :: cs0).set 0 c2) = c2 :: cs0 from rfl,
              interleave_cons]
            simp
          · intro k v h0
            exact absurd rfl h0
          · intro hlen
            simp at hlen
          · intro k v hk hv
            have hk0 : k0 = k := by simpa using hk
            have hv0 : v0 = v := by simpa using hv
            subst hk0
            subst hv0
            exact ⟨interleave ks0 vs0 cs0, rfl⟩
  | succ j ih =>
    intro ks vs cs c hc hl hcnt
    cases cs with
    | nil => cases hc
    | cons c0 cs0 =>
      cases ks with
      | nil =>
        have hcs0 : cs0 = [] := by
          cases cs0 with
          | nil => rfl
          | cons a b => simp at hcnt
        subst hcs0
        have : ([] : List BT).get? j = some c := by simpa using hc
        cases this
      | cons k0 ks0 =>
        cases vs with
        | nil => simp at hl
        | cons v0 vs0 =>
          have hc2 : cs0.get? j = some c := by simpa using hc
          obtain ⟨A, B, h1, h2, h3, h4, h5, h6⟩ := ih ks0 vs0 cs0 c hc2
            (by simpa using hl) (by simpa using hcnt)
          refine ⟨inorder c0 ++ (k0, v0) :: A, B, ?_, ?_, ?_, ?_, ?_, ?_⟩
          · rw [interleave_cons, h1]
            simp
          · intro c2
            rw [show ((c0 :: cs0).set (j + 1) c2) = c0 :: cs0.set j c2
              from rfl, interleave_cons, h2 c2]
            simp
          · intro h0
            exact absurd h0 (by omega)
          · intro k v hne hk hv
            cases j with
            | zero =>
              have hA := h3 rfl
              subst hA
              have hk0 : k0 = k := by simpa using hk
              have hv0 : v0 = v := by simpa using hv
              subst hk0
              subst hv0
              exact ⟨inorder c0, rfl⟩
            | succ j2 =>
              obtain ⟨A2, hA2⟩ := h4 k v (by omega) (by simpa using hk)
                (by simpa using hv)
              refine ⟨inorder c0 ++ (k0, v0) :: A2, ?_⟩
              rw [hA2]
              simp
          · intro hlen
            exact h5 (by simpa using hlen)
          · intro k v hk hv
            exact h6 k v (by simpa using hk) (by simpa using hv)

theorem interleave_split :
    ∀ (ci : Nat) (ks : List Key) (vs : List (List Int)) (cs : List BT)
      (child c1 c2 : BT) (k : Key) (v : List Int),
      cs.get? ci = some child → ks.length = vs.length →
      cs.length = ks.length + 1 →
      inorder c1 ++ (k, v) :: inorder c2 = inorder child →
      interleave (ks.insertIdx ci k) (vs.insertIdx ci v)
        ((cs.set ci c1).insertIdx (ci + 1) c2) = interleave ks vs cs := by
  intro ci
  induction ci with
  | zero =>
    intro ks vs cs child c1 c2 k v hc hl hcnt hio
    cases cs with
    | nil => cases hc
    | cons c0 cs0 =>
      have hc0 : c0 = child := by simpa using hc
      subst hc0
      rw [insertIdx_zero, insertIdx_zero,
        show ((c0 :: cs0).set 0 c1) = c1 :: cs0 from rfl,
        show ((c1 :: cs0).insertIdx 1 c2) = c1 :: c2 :: cs0 from rfl,
        interleave_cons]
      cases ks with
      | nil =>
        have hvs : vs = [] := by
          cases vs with
          | nil => rfl
          | cons v0 vs0 => simp at hl
        subst hvs
        have hcs0 : cs0 = [] := by
          cases cs0 with
          | nil => rfl
          | cons a b => simp at hcnt
        subst hcs0
        rw [interleave_nilk, interleave_nilk]
        simp [← hio]
      | cons k0 ks0 =>
        cases vs with
        | nil => simp at hl
        | cons v0 vs0 =>
          rw [interleave_cons, interleave_cons, ← hio]
          simp
  | succ ci ih =>
    intro ks vs cs child c1 c2 k v hc hl hcnt hio
    cases cs with
    | nil => cases hc
    | cons c0 cs0 =>
      cases ks with
      | nil =>
        have hcs0 : cs0 = [] := by
          cases cs0 with
          | nil => rfl
          | cons a b => simp at hcnt
        subst hcs0
        have : ([] : List BT).get? ci = some child := by simpa using hc
        cases this
      | cons k0 ks0 =>
        cases vs with
        | nil => simp at hl
        | cons v0 vs0 =>
          have hc2 : cs0.get? ci = some child := by simpa using hc
          rw [insertIdx_succ_cons, insertIdx_succ_cons,
            show (((c0 :: cs0).set (ci + 1) c1).insertIdx (ci + 1 + 1) c2)
              = c0 :: (cs0.set ci c1).insertIdx (ci + 1) c2 from rfl,
            interleave_cons, interleave_cons,
            ih ks0 vs0 cs0 child c1 c2 k v hc2 (by simpa using hl)
              (by simpa using hcnt) hio]

theorem inorder_splitChild {t : Nat} (ht : 1 ≤ t) {ks : List Key}
    {vs : List (List Int)} {cs : List BT} {ci : Nat} {child : BT}
    (hs : Shape (.node ks vs cs false)) (hc : cs.get? ci = some child)
    (hf : child.keys.length = 2 * t - 1) :
    inorder (splitChild t (.node ks vs cs false) ci)
      = inorder (.node ks vs cs false) := by
  have hchild := hs.child (List.get?_mem hc)
  obtain ⟨cks, cvs, ccs, clf⟩ := child
  have hclens : cks.length = cvs.length := hchild.lens
  have hckl : cks.length = 2 * t - 1 := hf
  have htle : t ≤ cks.length := by omega
  have htake : (cks.take t).length = t := by
    rw [List.length_take]
    omega
  have htakev : (cvs.take t).length = t := by
    rw [List.length_take]
    omega
  simp only [splitChild]
  rw [hc]
  dsimp only
  cases hm1 : (cks.take t).getLast? with
  | none => rfl
  | some mk =>
    cases hm2 : (cvs.take t).getLast? with
    | none => rfl
    | some mv =>
      dsimp only
      have hk : cks.get? (t - 1) = some mk :=
        getLast?_take_eq_get? hm1 ht htle
      have hv : cvs.get? (t - 1) = some mv :=
        getLast?_take_eq_get? hm2 ht (by omega)
      have hio : inorder (BT.node (cks.take t).dropLast
            (cvs.take t).dropLast (if clf then ccs else ccs.take t) clf)
          ++ (mk, mv) :: inorder (BT.node (cks.drop t) (cvs.drop t)
            (if clf then [] else ccs.drop t) clf)
          = inorder (BT.node cks cvs ccs clf) := by
        cases clf with
        | true =>
          have hccs := hchild.noChildren
          subst hccs
          rw [if_pos rfl, if_pos rfl]
          rw [inorder_node, if_pos rfl, inorder_node, if_pos rfl,
            inorder_node, if_pos rfl]
          rw [dropLast_take _ _ htle, dropLast_take _ _ (by omega)]
          exact zip_take_drop t cks cvs mk mv ht htle hclens hk hv
        | false =>
          rw [if_neg (by simp), if_neg (by simp)]
          rw [inorder_node, if_neg (by simp), inorder_node,
            if_neg (by simp), inorder_node, if_neg (by simp)]
          rw [dropLast_take _ _ htle, dropLast_take _ _ (by omega)]
          exact interleave_take_drop t cks cvs ccs mk mv ht htle hclens
            hchild.count hk hv
      rw [inorder_node, if_neg (show ¬ (false = true) by simp),
        inorder_node, if_neg (show ¬ (false = true) by simp)]
      exact interleave_split ci ks vs cs _ _ _ mk mv hc hs.lens hs.count hio

theorem inorder_decomp {ks : List Key} {vs : List (List Int)} {cs : List BT}
    {c : BT} {j : Nat} (hs : Shape (.node ks vs cs false))
    (hc : cs.get? j = some c) :
    ∃ A B,
      inorder (.node ks vs cs false) = A ++ inorder c ++ B ∧
      (∀ c2, inorder (setChild (.node ks vs cs false) j c2)
        = A ++ inorder c2 ++ B) ∧
      (j = 0 → A = []) ∧
      (∀ k v, j ≠ 0 → ks.get? (j - 1) = some k →
        vs.get? (j - 1) = some v → ∃ A2, A = A2 ++ [(k, v)]) ∧
      (j = ks.length → B = []) ∧
      (∀ k v, ks.get? j = some k → vs.get? j = some v →
        ∃ B2, B = (k, v) :: B2) := by
  obtain ⟨A, B, h1, h2, h3, h4, h5, h6⟩ :=
    interleave_decomp j ks vs cs c hc hs.lens hs.count
  refine ⟨A, B, ?_, ?_, h3, h4, h5, h6⟩
  · rw [inorder_node, if_neg (by simp)]
    exact h1
  · intro c2
    simp only [setChild]
    rw [inorder_node, if_neg (by simp)]
    exact h2 c2

/-! ### B-tree: contents as a key-to-row-id multimap -/

theorem inorder_setChild {n c c2 : BT} {j : Nat} (hs : Shape n)
    (hc : n.children.get? j = some c) (hio : inorder c2 = inorder c) :
    inorder (setChild n j c2) = inorder n := by
  obtain ⟨ks, vs, cs, lf⟩ := n
  cases lf with
  | true =>
    rw [hs.noChildren] at hc
    cases hc
  | false =>
    obtain ⟨A, B, h1, h2, -⟩ := inorder_decomp hs hc
    rw [h2 c2, hio, h1]

theorem zip_pair_mem {α β : Type} :
    ∀ {l : List α} {l2 : List β} {i : Nat} {a : α} {b : β},
      l.get? i = some a → l2.get? i = some b → (a, b) ∈ l.zip l2 := by
  intro l
  induction l with
  | nil => intro l2 i a b ha; cases ha
  | cons x xs ih =>
    intro l2 i a b ha hb
    cases l2 with
    | nil => cases hb
    | cons y ys =>
      cases i with
      | zero =>
        have hxa : x = a := by simpa using ha
        have hyb : y = b := by simpa using hb
        subst hxa
        subst hyb
        exact List.mem_cons_self _ _
      | succ i =>
        exact List.mem_cons_of_mem _
          (ih (by simpa using ha) (by simpa using hb))

theorem interleave_pair_mem :
    ∀ (i : Nat) {ks : List Key} {vs : List (List Int)} {cs : List BT}
      {k : Key} {v : List Int}, ks.get? i = some k → vs.get? i = some v →
      cs.length = ks.length + 1 → (k, v) ∈ interleave ks vs cs := by
  intro i
  induction i with
  | zero =>
    intro ks vs cs k v hk hv hcnt
    cases ks with
    | nil => cases hk
    | cons k0 ks0 =>
      cases vs with
      | nil => cases hv
      | cons v0 vs0 =>
        cases cs with
        | nil => simp at hcnt
        | cons c0 cs0 =>
          have hk0 : k0 = k := by simpa using hk
          have hv0 : v0 = v := by simpa using hv
          subst hk0
          subst hv0
          rw [interleave_cons]
          exact List.mem_append_right _ (List.mem_cons_self _ _)
  | succ i ih =>
    intro ks vs cs k v hk hv hcnt
    cases ks with
    | nil => cases hk
    | cons k0 ks0 =>
      cases vs with
      | nil => cases hv
      | cons v0 vs0 =>
        cases cs with
        | nil => simp at hcnt
        | cons c0 cs0 =>
          rw [interleave_cons]
          exact List.mem_append_right _ (List.mem_cons_of_mem _
            (ih (by simpa using hk) (by simpa using hv)
              (by simpa using hcnt)))

theorem pair_mem_inorder {n : BT} (hs : Shape n) {i : Nat} {k : Key}
    {v : List Int} (hk : n.keys.get? i = some k)
    (hv : n.vals.get? i = some v) : (k, v) ∈ inorder n := by
  obtain ⟨ks, vs, cs, lf⟩ := n
  cases lf with
  | true =>
    rw [inorder_node, if_pos rfl]
    exact zip_pair_mem hk hv
  | false =>
    rw [inorder_node, if_neg (by simp)]
    exact interleave_pair_mem i hk hv hs.count

theorem mm_of_entry {n : BT} {p : Key × List Int} {r : Int}
    (hp : p ∈ inorder n) (hr : r ∈ p.2) : (p.1, r) ∈ mmBT n := by
  unfold mmBT
  rw [List.mem_flatMap]
  exact ⟨p, hp, List.mem_map.mpr ⟨r, hr, rfl⟩⟩

theorem mm_entry_exists {n : BT} {x : Key × Int} (h : x ∈ mmBT n) :
    ∃ p ∈ inorder n, p.1 = x.1 ∧ x.2 ∈ p.2 := by
  unfold mmBT at h
  rw [List.mem_flatMap] at h
  obtain ⟨p, hp, hx⟩ := h
  rcases List.mem_map.mp hx with ⟨r, hr, rfl⟩
  exact ⟨p, hp, rfl, hr⟩

theorem shape_setVals {ks : List Key} {vs : List (List Int)} {cs : List BT}
    {lf : Bool} {i : Nat} {L : List Int} (h : Shape (.node ks vs cs lf)) :
    Shape (.node ks (vs.set i L) cs lf) := by
  cases h with
  | leaf ks vs hl => exact Shape.leaf _ _ (by rw [List.length_set, hl])
  | internal ks vs cs hl hcnt hcs =>
    exact Shape.internal _ _ _ (by rw [List.length_set, hl]) hcnt hcs

theorem addToVals_found_mem {u : Bool} {n : BT} {i : Nat} {rid : Int}
    {lst : List Int} (hg : n.vals.get? i = some lst) (hmem : rid ∈ lst) :
    addToVals u n i rid = (n, none) := by
  obtain ⟨ks, vs, cs, lf⟩ := n
  simp only [addToVals]
  rw [show (BT.node ks vs cs lf).vals = vs from rfl] at hg
  rw [hg]
  dsimp only
  rw [if_neg (by simp [hmem]), if_neg (by simp [hmem])]

theorem addToVals_unique_dup {n : BT} {i : Nat} {rid : Int}
    {lst : List Int} (hg : n.vals.get? i = some lst) (hmem : rid ∉ lst) :
    addToVals true n i rid = (n, some "Duplicate key in unique index") := by
  obtain ⟨ks, vs, cs, lf⟩ := n
  simp only [addToVals]
  rw [show (BT.node ks vs cs lf).vals = vs from rfl] at hg
  rw [hg]
  dsimp only
  rw [if_pos (by simp [hmem])]

theorem addToVals_rel (u : Bool) (n : BT) (i : Nat) (rid : Int) :
    (addToVals u n i rid).1 = n ∨
      ∃ ks vs cs lf lst, n = .node ks vs cs lf ∧ vs.get? i = some lst ∧
        rid ∉ lst ∧ addToVals u n i rid
          = (.node ks (vs.set i (lst ++ [rid])) cs lf, none) := by
  obtain ⟨ks, vs, cs, lf⟩ := n
  simp only [addToVals]
  cases hg : vs.get? i with
  | none => exact .inl rfl
  | some lst =>
    dsimp only
    by_cases h1 : u = true ∧ ¬ lst.contains rid = true
    · rw [if_pos h1]
      exact .inl rfl
    · rw [if_neg h1]
      by_cases hmem : rid ∈ lst
      · rw [if_neg (by simp [hmem])]
        exact .inl rfl
      · rw [if_pos (by simp [hmem])]
        exact .inr ⟨ks, vs, cs, lf, lst, rfl, hg, hmem, rfl⟩

theorem addToVals_ixerr {u : Bool} {ks : List Key} {vs : List (List Int)}
    {cs : List BT} {lf : Bool} {i : Nat} {rid : Int}
    (hg : vs.get? i = none) :
    addToVals u (.node ks vs cs lf) i rid
      = (.node ks vs cs lf, some "IndexError") := by
  simp only [addToVals]
  rw [hg]

theorem addToVals_append {u : Bool} {ks : List Key} {vs : List (List Int)}
    {cs : List BT} {lf : Bool} {i : Nat} {rid : Int} {lst : List Int}
    (hg : vs.get? i = some lst) (hmem : rid ∉ lst) (hu : u = false) :
    addToVals u (.node ks vs cs lf) i rid
      = (.node ks (vs.set i (lst ++ [rid])) cs lf, none) := by
  subst hu
  simp only [addToVals]
  rw [hg]
  dsimp only
  rw [if_neg (by simp), if_pos (by simp [hmem])]

theorem addToVals_none_mm {u : Bool} {n : BT} {i : Nat} {rid : Int}
    {k : Key} (hs : Shape n) (hk : n.keys.get? i = some k)
    (h : (addToVals u n i rid).2 = none) :
    (k, rid) ∈ mmBT (addToVals u n i rid).1 := by
  obtain ⟨ks, vs, cs, lf⟩ := n
  cases hg : vs.get? i with
  | none =>
    rw [addToVals_ixerr hg] at h
    simp at h
  | some lst =>
    by_cases hmem : rid ∈ lst
    · rw [addToVals_found_mem
        (show (BT.node ks vs cs lf).vals.get? i = some lst from hg) hmem]
      exact mm_of_entry (pair_mem_inorder hs hk hg) hmem
    · cases u with
      | true =>
        rw [addToVals_unique_dup
          (show (BT.node ks vs cs lf).vals.get? i = some lst from hg)
          hmem] at h
        simp at h
      | false =>
        rw [addToVals_append hg hmem rfl]
        have hlt : i < vs.length := (List.get?_eq_some.mp hg).1
        exact mm_of_entry (pair_mem_inorder (shape_setVals hs) hk
          (List.get?_set_eq_of_lt _ hlt)) (by simp)

theorem zip_set_mm {i : Nat} :
    ∀ {ks : List Key} {vs : List (List Int)} {lst L : List Int},
      vs.get? i = some lst → lst ⊆ L → ∀ p ∈ ks.zip vs,
        ∃ q ∈ ks.zip (vs.set i L), p.1 = q.1 ∧ p.2 ⊆ q.2 := by
  induction i with
  | zero =>
    intro ks vs lst L hg hsub p hp
    cases vs with
    | nil => cases hg
    | cons v0 vs0 =>
      have hv0 : v0 = lst := by simpa using hg
      subst hv0
      cases ks with
      | nil => cases hp
      | cons k0 ks0 =>
        rcases List.mem_cons.mp hp with rfl | hp2
        · exact ⟨(k0, L), List.mem_cons_self _ _, rfl, hsub⟩
        · exact ⟨p, List.mem_cons_of_mem _ hp2, rfl, fun x hx => hx⟩
  | succ i ih =>
    intro ks vs lst L hg hsub p hp
    cases vs with
    | nil => cases hg
    | cons v0 vs0 =>
      cases ks with
      | nil => cases hp
      | cons k0 ks0 =>
        rcases List.mem_cons.mp hp with rfl | hp2
        · exact ⟨(k0, v0), List.mem_cons_self _ _, rfl, fun x hx => hx⟩
        · obtain ⟨q, hq, h1, h2⟩ := ih (by simpa using hg) hsub p hp2
          exact ⟨q, List.mem_cons_of_mem _ hq, h1, h2⟩

theorem interleave_set_mm :
    ∀ (ks : List Key) {vs : List (List Int)} {cs : List BT} {i : Nat}
      {lst L : List Int}, vs.get? i = some lst → lst ⊆ L →
      ∀ p ∈ interleave ks vs cs,
        ∃ q ∈ interleave ks (vs.set i L) cs, p.1 = q.1 ∧ p.2 ⊆ q.2 := by
  intro ks
  induction ks with
  | nil =>
    intro vs cs i lst L hg hsub p hp
    rw [interleave_nilk] at hp
    rw [interleave_nilk]
    exact ⟨p, hp, rfl, fun x hx => hx⟩
  | cons k0 ks0 ih =>
    intro vs cs i lst L hg hsub p hp
    cases vs with
    | nil => cases hg
    | cons v0 vs0 =>
      cases cs with
      | nil =>
        rw [interleave_nilc] at hp
        cases hp
      | cons c0 cs0 =>
        rw [interleave_cons] at hp
        cases i with
        | zero =>
          have hv0 : v0 = lst := by simpa using hg
          subst hv0
          rw [show ((v0 :: vs0).set 0 L) = L :: vs0 from rfl,
            interleave_cons]
          rcases List.mem_append.mp hp with h1 | h1
          · exact ⟨p, List.mem_append_left _ h1, rfl, fun x hx => hx⟩
          · rcases List.mem_cons.mp h1 with rfl | h2
            · refine ⟨(k0, L), ?_, rfl, hsub⟩
              exact List.mem_append_right _ (List.mem_cons_self _ _)
            · exact ⟨p, List.mem_append_right _ (List.mem_cons_of_mem _ h2),
                rfl, fun x hx => hx⟩
        | succ i =>
          rw [show ((v0 :: vs0).set (i + 1) L) = v0 :: vs0.set i L
            from rfl, interleave_cons]
          rcases List.mem_append.mp hp with h1 | h1
          · exact ⟨p, List.mem_append_left _ h1, rfl, fun x hx => hx⟩
          · rcases List.mem_cons.mp h1 with rfl | h2
            · refine ⟨(k0, v0), ?_, rfl, fun x hx => hx⟩
              exact List.mem_append_right _ (List.mem_cons_self _ _)
            · obtain ⟨q, hq, hq1, hq2⟩ :=
                ih (by simpa using hg) hsub p h2
              exact ⟨q, List.mem_append_right _ (List.mem_cons_of_mem _ hq),
                hq1, hq2⟩

theorem mm_mono_of_entry {n n2 : BT}
    (H : ∀ p ∈ inorder n, ∃ q ∈ inorder n2, p.1 = q.1 ∧ p.2 ⊆ q.2) :
    ∀ x ∈ mmBT n, x ∈ mmBT n2 := by
  intro x hx
  obtain ⟨p, hp, h1, h2⟩ := mm_entry_exists hx
  obtain ⟨q, hq, hq1, hq2⟩ := H p hp
  have : x = (q.1, x.2) := by
    rw [← hq1, h1]
  rw [this]
  exact mm_of_entry hq (hq2 h2)

theorem mm_setVals_mono {ks : List Key} {vs : List (List Int)}
    {cs : List BT} {lf : Bool} {i : Nat} {lst L : List Int}
    (hg : vs.get? i = some lst) (hsub : lst ⊆ L) :
    ∀ x ∈ mmBT (.node ks vs cs lf), x ∈ mmBT (.node ks (vs.set i L) cs lf) := by
  apply mm_mono_of_entry
  intro p hp
  rw [inorder_node] at hp
  rw [inorder_node]
  cases lf with
  | true =>
    rw [if_pos rfl] at hp ⊢
    exact zip_set_mm hg hsub p hp
  | false =>
    rw [if_neg (by simp)] at hp ⊢
    exact interleave_set_mm ks hg hsub p hp

theorem mmBT_decomp_mono {ks : List Key} {vs : List (List Int)}
    {cs : List BT} {c c2 : BT} {j : Nat}
    (hs : Shape (.node ks vs cs false)) (hc : cs.get? j = some c)
    (H : ∀ x ∈ mmBT c, x ∈ mmBT c2) :
    ∀ x ∈ mmBT (.node ks vs cs false),
      x ∈ mmBT (setChild (.node ks vs cs false) j c2) := by
  obtain ⟨A, B, h1, h2, -⟩ := inorder_decomp hs hc
  intro x hx
  unfold mmBT at hx ⊢
  rw [h1] at hx
  rw [h2 c2]
  simp only [List.flatMap_append] at hx ⊢
  rcases List.mem_append.mp hx with hx1 | hx1
  · rcases List.mem_append.mp hx1 with hx2 | hx2
    · exact List.mem_append_left _ (List.mem_append_left _ hx2)
    · have : x ∈ mmBT c2 := H x hx2
      exact List.mem_append_left _ (List.mem_append_right _ this)
  · exact List.mem_append_right _ hx1

theorem mmBT_setChild_child {ks : List Key} {vs : List (List Int)}
    {cs : List BT} {c c2 : BT} {j : Nat}
    (hs : Shape (.node ks vs cs false)) (hc : cs.get? j = some c) :
    ∀ x ∈ mmBT c2, x ∈ mmBT (setChild (.node ks vs cs false) j c2) := by
  obtain ⟨A, B, -, h2, -⟩ := inorder_decomp hs hc
  intro x hx
  unfold mmBT at hx ⊢
  rw [h2 c2]
  simp only [List.flatMap_append]
  exact List.mem_append_left _ (List.mem_append_right _ hx)

/-! ### B-tree: a failed insert leaves the contents unchanged -/

theorem insertNF_err_inorder {t : Nat} (ht : 1 ≤ t) (u : Bool) :
    ∀ (fuel : Nat) (n : BT) (key : Key) (rid : Int), Shape n →
      (insertNF t u fuel n key rid).2 ≠ none →
      inorder (insertNF t u fuel n key rid).1 = inorder n := by
  intro fuel
  induction fuel with
  | zero => exact fun n key rid hs h => rfl
  | succ fuel ih =>
    intro n key rid hs herr
    obtain ⟨ks, vs, cs, lf⟩ := n
    have hstep := insertNF_succ_step t u fuel ks vs cs lf key rid
    generalize hr : insertNF t u (fuel + 1) (.node ks vs cs lf) key rid
      = r at hstep herr ⊢
    cases hstep with
    | found i k hs2 hz =>
      obtain ⟨e, he⟩ := Option.ne_none_iff_exists'.mp herr
      rw [addToVals_err_eq he]
    | leaf pos hp hlf => exact absurd rfl herr
    | ixChild pos hp hlf hc => rfl
    | descend pos child hp hlf hc hnf =>
      subst hlf
      dsimp only at herr ⊢
      have hrec := ih child key rid (hs.child (List.get?_mem hc)) herr
      exact inorder_setChild hs hc hrec
    | ixSplitKey pos child hp hlf hc hf hk =>
      subst hlf
      exact inorder_splitChild ht hs hc hf
    | splitGtIx pos child kci hp hlf hc hf hk hgt hc2 =>
      subst hlf
      exact inorder_splitChild ht hs hc hf
    | splitGt pos child kci c2 hp hlf hc hf hk hgt hc2 =>
      subst hlf
      dsimp only at herr ⊢
      have hsp := shape_splitChild ht hs hc hf
      have hrec := ih c2 key rid (hsp.childOf (List.get?_mem hc2)) herr
      rw [inorder_setChild hsp hc2 hrec]
      exact inorder_splitChild ht hs hc hf
    | splitEq pos child kci hp hlf hc hf hk heq =>
      subst hlf
      obtain ⟨e, he⟩ := Option.ne_none_iff_exists'.mp herr
      rw [addToVals_err_eq he]
      exact inorder_splitChild ht hs hc hf
    | splitLtIx pos child kci hp hlf hc hf hk hlt hc2 =>
      subst hlf
      exact inorder_splitChild ht hs hc hf
    | splitLt pos child kci c2 hp hlf hc hf hk hlt hc2 =>
      subst hlf
      dsimp only at herr ⊢
      have hsp := shape_splitChild ht hs hc hf
      have hrec := ih c2 key rid (hsp.childOf (List.get?_mem hc2)) herr
      rw [inorder_setChild hsp hc2 hrec]
      exact inorder_splitChild ht hs hc hf

/-! ### B-tree: inserts only grow the multimap, and a successful insert
adds its pair -/

theorem zip_insertIdx_mm :
    ∀ (pos : Nat) (ks : List Key) (vs : List (List Int)) (kk : Key)
      (L : List Int), ∀ p ∈ ks.zip vs,
      ∃ q ∈ (ks.insertIdx pos kk).zip (vs.insertIdx pos L),
        p.1 = q.1 ∧ p.2 ⊆ q.2 := by
  intro pos
  induction pos with
  | zero =>
    intro ks vs kk L p hp
    rw [insertIdx_zero, insertIdx_zero, List.zip_cons_cons]
    exact ⟨p, List.mem_cons_of_mem _ hp, rfl, fun y hy => hy⟩
  | succ pos ih =>
    intro ks vs kk L p hp
    cases ks with
    | nil => cases hp
    | cons k0 ks0 =>
      cases vs with
      | nil => cases hp
      | cons v0 vs0 =>
        rw [insertIdx_succ_cons, insertIdx_succ_cons, List.zip_cons_cons]
        rcases List.mem_cons.mp hp with rfl | h2
        · exact ⟨(k0, v0), List.mem_cons_self _ _, rfl, fun y hy => hy⟩
        · obtain ⟨q, hq, h3, h4⟩ := ih ks0 vs0 kk L p h2
          exact ⟨q, List.mem_cons_of_mem _ hq, h3, h4⟩

theorem splitChild_leafF (t : Nat) (ks : List Key) (vs : List (List Int))
    (cs : List BT) (ci : Nat) :
    (splitChild t (.node ks vs cs false) ci).leafF = false := by
  simp only [splitChild]
  cases hg : cs.get? ci with
  | none => rfl
  | some child =>
    obtain ⟨cks, cvs, ccs, clf⟩ := child
    dsimp only
    cases (cks.take t).getLast? with
    | none => rfl
    | some mk =>
      cases (cvs.take t).getLast? with
      | none => rfl
      | some mv => rfl

theorem mmBT_decomp_mono2 {n : BT} {c c2 : BT} {j : Nat} (hs : Shape n)
    (hlf : n.leafF = false) (hc : n.children.get? j = some c)
    (H : ∀ x ∈ mmBT c, x ∈ mmBT c2) :
    ∀ x ∈ mmBT n, x ∈ mmBT (setChild n j c2) := by
  obtain ⟨ks, vs, cs, lf⟩ := n
  cases lf with
  | true => cases hlf
  | false => exact mmBT_decomp_mono hs hc H

theorem mmBT_setChild_child2 {n : BT} {c c2 : BT} {j : Nat} (hs : Shape n)
    (hlf : n.leafF = false) (hc : n.children.get? j = some c) :
    ∀ x ∈ mmBT c2, x ∈ mmBT (setChild n j c2) := by
  obtain ⟨ks, vs, cs, lf⟩ := n
  cases lf with
  | true => cases hlf
  | false => exact mmBT_setChild_child hs hc

theorem mmBT_insertNF_mono {t : Nat} (ht : 1 ≤ t) (u : Bool) :
    ∀ (fuel : Nat) (n : BT) (key : Key) (rid : Int), Shape n →
      ∀ x ∈ mmBT n, x ∈ mmBT (insertNF t u fuel n key rid).1 := by
  intro fuel
  induction fuel with
  | zero => exact fun n key rid hs x hx => hx
  | succ fuel ih =>
    intro n key rid hs x hx
    obtain ⟨ks, vs, cs, lf⟩ := n
    have hstep := insertNF_succ_step t u fuel ks vs cs lf key rid
    generalize hr : insertNF t u (fuel + 1) (.node ks vs cs lf) key rid
      = r at hstep ⊢
    cases hstep with
    | found i k hs2 hz =>
      rcases addToVals_rel u (.node ks vs cs lf) i rid with h1 |
        ⟨ks2, vs2, cs2, lf2, lst, heq, hg, hmem, hres⟩
      · rw [h1]
        exact hx
      · obtain ⟨rfl, rfl, rfl, rfl⟩ :
            ks2 = ks ∧ vs2 = vs ∧ cs2 = cs ∧ lf2 = lf := by
          injection heq with h1 h2 h3 h4
          exact ⟨h1.symm, h2.symm, h3.symm, h4.symm⟩
        rw [hres]
        exact mm_setVals_mono hg (by simp) x hx
    | leaf pos hp hlf =>
      subst hlf
      have hcs := hs.noChildren
      subst hcs
      dsimp only
      refine mm_mono_of_entry ?_ x hx
      intro p hp2
      rw [inorder_node, if_pos rfl] at hp2 ⊢
      exact zip_insertIdx_mm pos ks vs key [rid] p hp2
    | ixChild pos hp hlf hc => exact hx
    | descend pos child hp hlf hc hnf =>
      subst hlf
      dsimp only
      exact mmBT_decomp_mono hs hc
        (fun y hy => ih child key rid (hs.child (List.get?_mem hc)) y hy)
        x hx
    | ixSplitKey pos child hp hlf hc hf hk =>
      subst hlf
      rw [mmBT, inorder_splitChild ht hs hc hf]
      exact hx
    | splitGtIx pos child kci hp hlf hc hf hk hgt hc2 =>
      subst hlf
      rw [mmBT, inorder_splitChild ht hs hc hf]
      exact hx
    | splitGt pos child kci c2 hp hlf hc hf hk hgt hc2 =>
      subst hlf
      dsimp only
      have hsp := shape_splitChild ht hs hc hf
      have hx2 : x ∈ mmBT (splitChild t (.node ks vs cs false) pos) := by
        rw [mmBT, inorder_splitChild ht hs hc hf]
        exact hx
      exact mmBT_decomp_mono2 hsp (splitChild_leafF t ks vs cs pos) hc2
        (fun y hy => ih c2 key rid (hsp.childOf (List.get?_mem hc2)) y hy)
        x hx2
    | splitEq pos child kci hp hlf hc hf hk heq =>
      subst hlf
      rcases addToVals_rel u (splitChild t (.node ks vs cs false) pos)
          pos rid with h1 | ⟨ks2, vs2, cs2, lf2, lst, heq2, hg, hmem, hres⟩
      · rw [h1, mmBT, inorder_splitChild ht hs hc hf]
        exact hx
      · rw [hres]
        have hx2 : x ∈ mmBT (BT.node ks2 vs2 cs2 lf2) := by
          rw [← heq2, mmBT, inorder_splitChild ht hs hc hf]
          exact hx
        exact mm_setVals_mono hg (by simp) x hx2
    | splitLtIx pos child kci hp hlf hc hf hk hlt hc2 =>
      subst hlf
      rw [mmBT, inorder_splitChild ht hs hc hf]
      exact hx
    | splitLt pos child kci c2 hp hlf hc hf hk hlt hc2 =>
      subst hlf
      dsimp only
      have hsp := shape_splitChild ht hs hc hf
      have hx2 : x ∈ mmBT (splitChild t (.node ks vs cs false) pos) := by
        rw [mmBT, inorder_splitChild ht hs hc hf]
        exact hx
      exact mmBT_decomp_mono2 hsp (splitChild_leafF t ks vs cs pos) hc2
        (fun y hy => ih c2 key rid (hsp.childOf (List.get?_mem hc2)) y hy)
        x hx2

theorem insertNF_none_mm {t : Nat} (ht : 1 ≤ t) (u : Bool) :
    ∀ (fuel : Nat) (n : BT) (key : Key) (rid : Int), Shape n →
      (insertNF t u fuel n key rid).2 = none →
      (key, rid) ∈ mmBT (insertNF t u fuel n key rid).1 := by
  intro fuel
  induction fuel with
  | zero => exact fun n key rid hs h => Option.noConfusion h
  | succ fuel ih =>
    intro n key rid hs hnone
    obtain ⟨ks, vs, cs, lf⟩ := n
    have hstep := insertNF_succ_step t u fuel ks vs cs lf key rid
    generalize hr : insertNF t u (fuel + 1) (.node ks vs cs lf) key rid
      = r at hstep hnone ⊢
    cases hstep with
    | found i k hs2 hz =>
      have hkk : key = k := cmpK_eq_zero hz
      subst hkk
      exact addToVals_none_mm hs (scanIdx_some hs2).1 hnone
    | leaf pos hp hlf =>
      subst hlf
      dsimp only
      have hpos := posSpec_le hp
      have hk2 : (ks.insertIdx pos key).get? pos = some key :=
        get?_insertIdx_self hpos
      have hv2 : (vs.insertIdx pos [rid]).get? pos = some [rid] :=
        get?_insertIdx_self (by rw [← hs.lens]; exact hpos)
      refine mm_of_entry (p := (key, [rid])) ?_ (by simp)
      rw [inorder_node, if_pos rfl]
      exact zip_pair_mem hk2 hv2
    | ixChild pos hp hlf hc => exact absurd hnone (by simp)
    | descend pos child hp hlf hc hnf =>
      subst hlf
      dsimp only at hnone ⊢
      have hrec := ih child key rid (hs.child (List.get?_mem hc)) hnone
      exact mmBT_setChild_child2 hs rfl hc _ hrec
    | ixSplitKey pos child hp hlf hc hf hk => exact absurd hnone (by simp)
    | splitGtIx pos child kci hp hlf hc hf hk hgt hc2 =>
      exact absurd hnone (by simp)
    | splitGt pos child kci c2 hp hlf hc hf hk hgt hc2 =>
      subst hlf
      dsimp only at hnone ⊢
      have hsp := shape_splitChild ht hs hc hf
      have hrec := ih c2 key rid (hsp.childOf (List.get?_mem hc2)) hnone
      exact mmBT_setChild_child2 hsp (splitChild_leafF t ks vs cs pos)
        hc2 _ hrec
    | splitEq pos child kci hp hlf hc hf hk heq =>
      subst hlf
      have hkk : key = kci := cmpK_eq_zero heq
      subst hkk
      exact addToVals_none_mm (shape_splitChild ht hs hc hf) hk hnone
    | splitLtIx pos child kci hp hlf hc hf hk hlt hc2 =>
      exact absurd hnone (by simp)
    | splitLt pos child kci c2 hp hlf hc hf hk hlt hc2 =>
      subst hlf
      dsimp only at hnone ⊢
      have hsp := shape_splitChild ht hs hc hf
      have hrec := ih c2 key rid (hsp.childOf (List.get?_mem hc2)) hnone
      exact mmBT_setChild_child2 hsp (splitChild_leafF t ks vs cs pos)
        hc2 _ hrec

/-! ### B-tree: heights bound the recursion depth -/

theorem le_foldr_max {l : List Nat} {x : Nat} (h : x ∈ l) :
    x ≤ l.foldr max 0 := by
  induction l with
  | nil => cases h
  | cons y ys ih =>
    rcases List.mem_cons.mp h with rfl | h2
    · exact le_max_left _ _
    · exact le_trans (ih h2) (le_max_right _ _)

theorem foldr_max_le {l : List Nat} {m : Nat} (h : ∀ x ∈ l, x ≤ m) :
    l.foldr max 0 ≤ m := by
  induction l with
  | nil => exact Nat.zero_le m
  | cons y ys ih =>
    exact max_le (h y (List.mem_cons_self _ _))
      (ih fun x hx => h x (List.mem_cons_of_mem _ hx))

theorem height_node (ks : List Key) (vs : List (List Int)) (cs : List BT)
    (lf : Bool) :
    BT.height (.node ks vs cs lf)
      = 1 + (cs.map BT.height).foldr max 0 := by
  rw [BT.height]
  congr 1
  congr 1
  rw [List.attach_map_coe]

theorem height_pos (n : BT) : 1 ≤ BT.height n := by
  obtain ⟨ks, vs, cs, lf⟩ := n
  rw [height_node]
  omega

theorem height_child_lt {ks : List Key} {vs : List (List Int)}
    {cs : List BT} {lf : Bool} {c : BT} (hc : c ∈ cs) :
    BT.height c < BT.height (.node ks vs cs lf) := by
  rw [height_node]
  have : BT.height c ≤ (cs.map BT.height).foldr max 0 :=
    le_foldr_max (List.mem_map.mpr ⟨c, hc, rfl⟩)
  omega

theorem height_le_of_children {ks : List Key} {vs : List (List Int)}
    {cs : List BT} {lf : Bool} {m : Nat}
    (h : ∀ c ∈ cs, BT.height c ≤ m) :
    BT.height (.node ks vs cs lf) ≤ m + 1 := by
  rw [height_node]
  have : (cs.map BT.height).foldr max 0 ≤ m := by
    refine foldr_max_le ?_
    intro x hx
    rcases List.mem_map.mp hx with ⟨c, hc, rfl⟩
    exact h c hc
  omega

theorem height_splitChild_children {t : Nat} {ks : List Key}
    {vs : List (List Int)} {cs : List BT} {lf : Bool} {ci : Nat} :
    ∀ c2 ∈ (splitChild t (.node ks vs cs lf) ci).children,
      ∃ c ∈ cs, BT.height c2 ≤ BT.height c := by
  simp only [splitChild]
  cases hg : cs.get? ci with
  | none => exact fun c2 hc2 => ⟨c2, hc2, le_refl _⟩
  | some child =>
    obtain ⟨cks, cvs, ccs, clf⟩ := child
    dsimp only
    cases hm1 : (cks.take t).getLast? with
    | none => exact fun c2 hc2 => ⟨c2, hc2, le_refl _⟩
    | some mk =>
      cases hm2 : (cvs.take t).getLast? with
      | none => exact fun c2 hc2 => ⟨c2, hc2, le_refl _⟩
      | some mv =>
        dsimp only
        intro c2 hc2
        have hchild : BT.node cks cvs ccs clf ∈ cs := List.get?_mem hg
        have hkept : BT.height (BT.node (cks.take t).dropLast
            (cvs.take t).dropLast (if clf then ccs else ccs.take t) clf)
            ≤ BT.height (BT.node cks cvs ccs clf) := by
          have h1 : ∀ c3 ∈ (if clf then ccs else ccs.take t),
              BT.height c3 ≤ BT.height (BT.node cks cvs ccs clf) - 1 := by
            intro c3 hc3
            have hc4 : c3 ∈ ccs := by
              cases clf with
              | true => simpa using hc3
              | false => exact List.mem_of_mem_take (by simpa using hc3)
            have : BT.height c3 < BT.height (BT.node cks cvs ccs clf) :=
              height_child_lt hc4
            omega
          have h2 : BT.height (BT.node (cks.take t).dropLast
              (cvs.take t).dropLast (if clf then ccs else ccs.take t) clf)
              ≤ BT.height (BT.node cks cvs ccs clf) - 1 + 1 :=
            height_le_of_children h1
          have h3 := height_pos (BT.node cks cvs ccs clf)
          omega
        have hnew : BT.height (BT.node (cks.drop t) (cvs.drop t)
            (if clf then [] else ccs.drop t) clf)
            ≤ BT.height (BT.node cks cvs ccs clf) := by
          have h1 : ∀ c3 ∈ (if clf then [] else ccs.drop t),
              BT.height c3 ≤ BT.height (BT.node cks cvs ccs clf) - 1 := by
            intro c3 hc3
            have hc4 : c3 ∈ ccs := by
              cases clf with
              | true => simp at hc3
              | false => exact List.mem_of_mem_drop (by simpa using hc3)
            have : BT.height c3 < BT.height (BT.node cks cvs ccs clf) :=
              height_child_lt hc4
            omega
          have h2 : BT.height (BT.node (cks.drop t) (cvs.drop t)
              (if clf then [] else ccs.drop t) clf)
              ≤ BT.height (BT.node cks cvs ccs clf) - 1 + 1 :=
            height_le_of_children h1
          have h3 := height_pos (BT.node cks cvs ccs clf)
          omega
        rcases mem_insertIdx_weak hc2 with rfl | hc3
        · exact ⟨_, hchild, hnew⟩
        · rcases List.mem_or_eq_of_mem_set hc3 with hc4 | rfl
          · exact ⟨c2, hc4, le_refl _⟩
          · exact ⟨_, hchild, hkept⟩

/-! ### B-tree: sorted in-order keys -/

theorem keysOf_node_leaf {ks : List Key} {vs : List (List Int)}
    {cs : List BT} (hl : ks.length = vs.length) :
    keysOf (.node ks vs cs true) = ks := by
  unfold keysOf
  rw [inorder_node, if_pos rfl]
  exact List.map_fst_zip ks vs (le_of_eq hl)

theorem keys_sublist_interleave :
    ∀ (ks : List Key) (vs : List (List Int)) (cs : List BT),
      ks.length = vs.length → cs.length = ks.length + 1 →
      ks.Sublist ((interleave ks vs cs).map Prod.fst) := by
  intro ks
  induction ks with
  | nil => exact fun vs cs hl hcnt => List.nil_sublist _
  | cons k0 ks0 ih =>
    intro vs cs hl hcnt
    cases vs with
    | nil => simp at hl
    | cons v0 vs0 =>
      cases cs with
      | nil => simp at hcnt
      | cons c0 cs0 =>
        rw [interleave_cons, List.map_append]
        refine List.Sublist.trans ?_ (List.sublist_append_right _ _)
        rw [List.map_cons]
        exact List.Sublist.cons₂ _
          (ih vs0 cs0 (by simpa using hl) (by simpa using hcnt))

theorem sorted_node_keys {ks : List Key} {vs : List (List Int)}
    {cs : List BT} {lf : Bool} (hs : Shape (.node ks vs cs lf))
    (hsort : SortedBT (.node ks vs cs lf)) : ks.Pairwise keyLt := by
  cases lf with
  | true =>
    have := hsort
    unfold SortedBT at this
    rw [keysOf_node_leaf hs.lens] at this
    exact this
  | false =>
    have := hsort
    unfold SortedBT keysOf at this
    rw [inorder_node, if_neg (by simp)] at this
    exact this.sublist (keys_sublist_interleave ks vs cs hs.lens hs.count)

theorem pairwise_fst_unique {l : List (Key × List Int)}
    (h : (l.map Prod.fst).Pairwise keyLt) {k : Key} {a b : List Int}
    (ha : (k, a) ∈ l) (hb : (k, b) ∈ l) : a = b := by
  induction l with
  | nil => cases ha
  | cons x xs ih =>
    rw [List.map_cons, List.pairwise_cons] at h
    rcases List.mem_cons.mp ha with rfl | ha2
    · rcases List.mem_cons.mp hb with hbb | hb2
      · exact (Prod.mk.injEq _ _ _ _ ▸ hbb.symm).2
      · exfalso
        exact keyLt_irrefl k (h.1 k (List.mem_map.mpr ⟨(k, b), hb2, rfl⟩))
    · rcases List.mem_cons.mp hb with rfl | hb2
      · exfalso
        exact keyLt_irrefl k (h.1 k (List.mem_map.mpr ⟨(k, a), ha2, rfl⟩))
      · exact ih h.2 ha2 hb2

theorem entry_unique {n : BT} (hsort : SortedBT n) {k : Key}
    {a b : List Int} (ha : (k, a) ∈ inorder n) (hb : (k, b) ∈ inorder n) :
    a = b :=
  pairwise_fst_unique hsort ha hb

theorem posSpec_not_mem {key : Key} {ks : List Key} {pos : Nat}
    (hp : posSpec key ks pos) (hsort : ks.Pairwise keyLt) : key ∉ ks := by
  intro hmem
  obtain ⟨m, hm⟩ := List.get?_of_mem hmem
  rcases hp with ⟨hsc, -⟩ | ⟨i, k, hsc, hne, -⟩
  · have := scanIdx_none hsc key hmem
    rw [cmpK_self] at this
    omega
  · obtain ⟨h1, h2, h3⟩ := scanIdx_some hsc
    rcases Nat.lt_trichotomy m i with hmi | hmi | hmi
    · have hlt : keyLt key k := pairwise_get hsort hmi hm h1
      have hgt : keyLt k key := keyLt_of_pos (by omega)
      exact keyLt_irrefl key (keyLt_trans hlt hgt)
    · subst hmi
      rw [hm] at h1
      have := Option.some.inj h1
      subst this
      rw [cmpK_self] at hne
      exact hne rfl
    · have := h3 m key hmi hm
      rw [cmpK_self] at this
      omega

theorem sorted_child {ks : List Key} {vs : List (List Int)} {cs : List BT}
    {j : Nat} {c : BT} (hs : Shape (.node ks vs cs false))
    (hsort : SortedBT (.node ks vs cs false)) (hc : cs.get? j = some c) :
    SortedBT c ∧
      (∀ x ∈ keysOf c, ∀ k1, j ≠ 0 → ks.get? (j - 1) = some k1 →
        keyLt k1 x) ∧
      (∀ x ∈ keysOf c, ∀ k2, ks.get? j = some k2 → keyLt x k2) := by
  obtain ⟨A, B, h1, -, -, h4, -, h6⟩ := inorder_decomp hs hc
  have hsp : (A.map Prod.fst ++ ((inorder c).map Prod.fst
      ++ B.map Prod.fst)).Pairwise keyLt := by
    have h0 := hsort
    unfold SortedBT keysOf at h0
    rw [h1] at h0
    simpa using h0
  rw [List.pairwise_append] at hsp
  obtain ⟨hpA, hpCB, hAcb⟩ := hsp
  rw [List.pairwise_append] at hpCB
  obtain ⟨hpC, hpB, hCB⟩ := hpCB
  refine ⟨hpC, ?_, ?_⟩
  · intro x hx k1 hj hk1
    have hj2 : j - 1 < vs.length := by
      have h5 := (List.get?_eq_some.mp hk1).1
      rw [← hs.lens]
      exact h5
    obtain ⟨v1, hv1⟩ : ∃ v1, vs.get? (j - 1) = some v1 :=
      ⟨_, List.get?_eq_get hj2⟩
    obtain ⟨A2, hA2⟩ := h4 k1 v1 hj hk1 hv1
    have hk1A : k1 ∈ A.map Prod.fst := by
      rw [hA2]
      simp
    exact hAcb k1 hk1A x (List.mem_append_left _ hx)
  · intro x hx k2 hk2
    have hj2 : j < vs.length := by
      rw [← hs.lens]
      exact (List.get?_eq_some.mp hk2).1
    obtain ⟨v2, hv2⟩ : ∃ v2, vs.get? j = some v2 :=
      ⟨_, List.get?_eq_get hj2⟩
    obtain ⟨B2, hB2⟩ := h6 k2 v2 hk2 hv2
    have hk2B : k2 ∈ B.map Prod.fst := by
      rw [hB2]
      simp
    exact hCB x hx k2 hk2B

theorem entry_in_child {ks : List Key} {vs : List (List Int)} {cs : List BT}
    {j : Nat} {c : BT} {key : Key} {lst : List Int}
    (hs : Shape (.node ks vs cs false))
    (hsort : SortedBT (.node ks vs cs false)) (hc : cs.get? j = some c)
    (hleft : ∀ k1, j ≠ 0 → ks.get? (j - 1) = some k1 → keyLt k1 key)
    (hright : ∀ k2, ks.get? j = some k2 → keyLt key k2)
    (hmem : (key, lst) ∈ inorder (.node ks vs cs false)) :
    (key, lst) ∈ inorder c := by
  have hjle : j < cs.length := (List.get?_eq_some.mp hc).1
  have hjks : j ≤ ks.length := by
    have := hs.count
    omega
  obtain ⟨A, B, h1, -, h3, h4, h5, h6⟩ := inorder_decomp hs hc
  have hsp : (A.map Prod.fst ++ ((inorder c).map Prod.fst
      ++ B.map Prod.fst)).Pairwise keyLt := by
    have h0 := hsort
    unfold SortedBT keysOf at h0
    rw [h1] at h0
    simpa using h0
  rw [List.pairwise_append] at hsp
  obtain ⟨hpA, hpCB, hAcb⟩ := hsp
  rw [List.pairwise_append] at hpCB
  obtain ⟨hpC, hpB, hCB⟩ := hpCB
  rw [h1] at hmem
  rcases List.mem_append.mp hmem with hACmem | hB
  swap
  · exfalso
    have hkey : key ∈ B.map Prod.fst :=
      List.mem_map.mpr ⟨(key, lst), hB, rfl⟩
    by_cases hjl : j = ks.length
    · rw [h5 hjl] at hkey
      simp at hkey
    · have hjlt : j < ks.length := by omega
      obtain ⟨k2, hk2⟩ : ∃ k2, ks.get? j = some k2 :=
        ⟨_, List.get?_eq_get hjlt⟩
      have hj2 : j < vs.length := by
        rw [← hs.lens]
        exact hjlt
      obtain ⟨v2, hv2⟩ : ∃ v2, vs.get? j = some v2 :=
        ⟨_, List.get?_eq_get hj2⟩
      obtain ⟨B2, hB2⟩ := h6 k2 v2 hk2 hv2
      have hkeyk2 : keyLt key k2 := hright k2 hk2
      rw [hB2, List.map_cons] at hkey
      rcases List.mem_cons.mp hkey with rfl | hkey2
      · exact keyLt_irrefl key hkeyk2
      · rw [hB2, List.map_cons, List.pairwise_cons] at hpB
        have : keyLt k2 key := hpB.1 key hkey2
        exact keyLt_irrefl key (keyLt_trans hkeyk2 this)
  rcases List.mem_append.mp hACmem with hA | hC
  swap
  · exact hC
  · exfalso
    have hkey : key ∈ A.map Prod.fst :=
      List.mem_map.mpr ⟨(key, lst), hA, rfl⟩
    by_cases hj0 : j = 0
    · rw [h3 hj0] at hkey
      simp at hkey
    · have hj1 : j - 1 < ks.length := by omega
      obtain ⟨k1, hk1⟩ : ∃ k1, ks.get? (j - 1) = some k1 :=
        ⟨_, List.get?_eq_get hj1⟩
      have hj2 : j - 1 < vs.length := by
        rw [← hs.lens]
        exact hj1
      obtain ⟨v1, hv1⟩ : ∃ v1, vs.get? (j - 1) = some v1 :=
        ⟨_, List.get?_eq_get hj2⟩
      obtain ⟨A2, hA2⟩ := h4 k1 v1 hj0 hk1 hv1
      have hk1key : keyLt k1 key := hleft k1 hj0 hk1
      rw [hA2, List.map_append] at hkey
      rcases List.mem_append.mp hkey with hkey2 | hkey2
      · rw [hA2, List.map_append] at hpA
        rw [List.pairwise_append] at hpA
        have : keyLt key k1 := hpA.2.2 key hkey2 k1 (by simp)
        exact keyLt_irrefl key (keyLt_trans this hk1key)
      · have : key = k1 := by simpa using hkey2
        subst this
        exact keyLt_irrefl key hk1key

theorem splitChild_eq {t : Nat} (ht : 1 ≤ t) {ks : List Key}
    {vs : List (List Int)} {cs : List BT} {lf : Bool} {ci : Nat}
    {cks : List Key} {cvs : List (List Int)} {ccs : List BT} {clf : Bool}
    (hc : cs.get? ci = some (.node cks cvs ccs clf))
    (hf : cks.length = 2 * t - 1) (hlens : cks.length = cvs.length) :
    ∃ mk mv,
      cks.get? (t - 1) = some mk ∧ cvs.get? (t - 1) = some mv ∧
      splitChild t (.node ks vs cs lf) ci
        = .node (ks.insertIdx ci mk) (vs.insertIdx ci mv)
            ((cs.set ci (.node (cks.take t).dropLast (cvs.take t).dropLast
              (if clf then ccs else ccs.take t) clf)).insertIdx (ci + 1)
              (.node (cks.drop t) (cvs.drop t)
                (if clf then [] else ccs.drop t) clf)) lf := by
  have htake : (cks.take t).length = t := by
    rw [List.length_take]
    omega
  have htakev : (cvs.take t).length = t := by
    rw [List.length_take]
    omega
  simp only [splitChild]
  rw [hc]
  dsimp only
  cases hm1 : (cks.take t).getLast? with
  | none =>
    have h0 := getLast?_none hm1
    rw [h0, List.length_nil] at htake
    exact absurd htake (by omega)
  | some mk =>
    cases hm2 : (cvs.take t).getLast? with
    | none =>
      have h0 := getLast?_none hm2
      rw [h0, List.length_nil] at htakev
      exact absurd htakev (by omega)
    | some mv =>
      exact ⟨mk, mv, getLast?_take_eq_get? hm1 ht (by omega),
        getLast?_take_eq_get? hm2 ht (by omega), rfl⟩

theorem map_fst_zip_set :
    ∀ (ks : List Key) (vs : List (List Int)) (i : Nat) (L : List Int),
      (ks.zip (vs.set i L)).map Prod.fst = (ks.zip vs).map Prod.fst := by
  intro ks
  induction ks with
  | nil => intro vs i L; rfl
  | cons k0 ks0 ih =>
    intro vs i L
    cases vs with
    | nil => rfl
    | cons v0 vs0 =>
      cases i with
      | zero => simp [ih]
      | succ i => simp [ih]

theorem map_fst_interleave_set :
    ∀ (ks : List Key) (vs : List (List Int)) (cs : List BT) (i : Nat)
      (L : List Int),
      (interleave ks (vs.set i L) cs).map Prod.fst
        = (interleave ks vs cs).map Prod.fst := by
  intro ks
  induction ks with
  | nil =>
    intro vs cs i L
    rw [interleave_nilk, interleave_nilk]
  | cons k0 ks0 ih =>
    intro vs cs i L
    cases vs with
    | nil => rfl
    | cons v0 vs0 =>
      cases cs with
      | nil => rw [interleave_nilc, interleave_nilc]
      | cons c0 cs0 =>
        cases i with
        | zero =>
          rw [show ((v0 :: vs0).set 0 L) = L :: vs0 from rfl,
            interleave_cons, interleave_cons]
          simp
        | succ i =>
          rw [show ((v0 :: vs0).set (i + 1) L) = v0 :: vs0.set i L from rfl,
            interleave_cons, interleave_cons]
          simp [ih]

theorem keysOf_setVals2 {ks : List Key} {vs : List (List Int)}
    {cs : List BT} {lf : Bool} {i : Nat} {L : List Int} :
    keysOf (.node ks (vs.set i L) cs lf) = keysOf (.node ks vs cs lf) := by
  unfold keysOf
  rw [inorder_node, inorder_node]
  cases lf with
  | true =>
    rw [if_pos rfl, if_pos rfl]
    exact map_fst_zip_set ks vs i L
  | false =>
    rw [if_neg (by simp), if_neg (by simp)]
    exact map_fst_interleave_set ks vs cs i L

theorem keysOf_addToVals (u : Bool) (n : BT) (i : Nat) (rid : Int) :
    keysOf (addToVals u n i rid).1 = keysOf n := by
  rcases addToVals_rel u n i rid with h1 |
    ⟨ks, vs, cs, lf, lst, heq, hg, hmem, hres⟩
  · rw [h1]
  · rw [hres, heq]
    exact keysOf_setVals2

theorem insertIdx_eq_take_drop {α : Type} :
    ∀ (pos : Nat) (l : List α) (a : α), pos ≤ l.length →
      l.insertIdx pos a = l.take pos ++ a :: l.drop pos := by
  intro pos
  induction pos with
  | zero => intro l a h; simp [insertIdx_zero]
  | succ pos ih =>
    intro l a h
    cases l with
    | nil => simp at h
    | cons x xs =>
      rw [insertIdx_succ_cons, List.take_succ_cons, List.drop_succ_cons,
        List.cons_append, ih xs a (by simpa using h)]

theorem get?_of_mem_take {α : Type} {l : List α} {p : Nat} {a : α}
    (h : a ∈ l.take p) : ∃ i, i < p ∧ l.get? i = some a := by
  obtain ⟨i, hi⟩ := List.get?_of_mem h
  have hip : i < p := by
    have := (List.get?_eq_some.mp hi).1
    rw [List.length_take] at this
    omega
  rw [List.get?_take hip] at hi
  exact ⟨i, hip, hi⟩

theorem get?_of_mem_drop {α : Type} {l : List α} {p : Nat} {a : α}
    (h : a ∈ l.drop p) : ∃ i, p ≤ i ∧ l.get? i = some a := by
  obtain ⟨j, hj⟩ := List.get?_of_mem h
  rw [List.get?_drop] at hj
  exact ⟨p + j, by omega, hj⟩

theorem pairwise_insertIdx {ks : List Key} {pos : Nat} {key : Key}
    (hsort : ks.Pairwise keyLt) (hp : posSpec key ks pos) :
    (ks.insertIdx pos key).Pairwise keyLt := by
  have hpos := posSpec_le hp
  rw [insertIdx_eq_take_drop pos ks key hpos, List.pairwise_append]
  refine ⟨hsort.sublist (List.take_sublist _ _), ?_, ?_⟩
  · rw [List.pairwise_cons]
    refine ⟨?_, hsort.sublist (List.drop_sublist _ _)⟩
    intro x hx
    obtain ⟨i, hi, hg⟩ := get?_of_mem_drop hx
    exact keyLt_of_neg (posSpec_drop hp i x hi hg)
  · intro a ha b hb
    obtain ⟨i, hi, hg⟩ := get?_of_mem_take ha
    rcases List.mem_cons.mp hb with rfl | hb2
    · have hne : pos ≠ 0 := by omega
      have hlt : pos - 1 < ks.length := by omega
      obtain ⟨k1, hk1⟩ : ∃ k1, ks.get? (pos - 1) = some k1 :=
        ⟨_, List.get?_eq_get hlt⟩
      have h2 : keyLt k1 b := keyLt_of_pos (posSpec_last hp k1 hne hk1)
      rcases Nat.lt_or_ge i (pos - 1) with hi2 | hi2
      · exact keyLt_trans (pairwise_get hsort hi2 hg hk1) h2
      · have hieq : i = pos - 1 := by omega
        subst hieq
        rw [hg] at hk1
        have := Option.some.inj hk1
        subst this
        exact h2
    · obtain ⟨j, hj, hg2⟩ := get?_of_mem_drop hb2
      exact pairwise_get hsort (by omega) hg hg2

theorem sorted_setChild {ks : List Key} {vs : List (List Int)}
    {cs : List BT} {j : Nat} {c c2 : BT} {key : Key}
    (hs : Shape (.node ks vs cs false))
    (hsort : SortedBT (.node ks vs cs false))
    (hc : cs.get? j = some c) (hc2sort : SortedBT c2)
    (hsub : ∀ x ∈ keysOf c2, x ∈ keysOf c ∨ x = key)
    (hleft : ∀ k1, j ≠ 0 → ks.get? (j - 1) = some k1 → keyLt k1 key)
    (hright : ∀ k2, ks.get? j = some k2 → keyLt key k2) :
    SortedBT (setChild (.node ks vs cs false) j c2) ∧
      ∀ x ∈ keysOf (setChild (.node ks vs cs false) j c2),
        x ∈ keysOf (.node ks vs cs false) ∨ x = key := by
  have hjle : j < cs.length := (List.get?_eq_some.mp hc).1
  have hjks : j ≤ ks.length := by
    have := hs.count
    omega
  obtain ⟨A, B, h1, h2, h3, h4, h5, h6⟩ := inorder_decomp hs hc
  have hsp : (A.map Prod.fst ++ ((inorder c).map Prod.fst
      ++ B.map Prod.fst)).Pairwise keyLt := by
    have h0 := hsort
    unfold SortedBT keysOf at h0
    rw [h1] at h0
    simpa using h0
  rw [List.pairwise_append] at hsp
  obtain ⟨hpA, hpCB, hAcb⟩ := hsp
  rw [List.pairwise_append] at hpCB
  obtain ⟨hpC, hpB, hCB⟩ := hpCB
  have hknew : keysOf (setChild (.node ks vs cs false) j c2)
      = A.map Prod.fst ++ ((inorder c2).map Prod.fst ++ B.map Prod.fst) := by
    unfold keysOf
    rw [h2 c2]
    simp
  have hkold : keysOf (.node ks vs cs false)
      = A.map Prod.fst ++ ((inorder c).map Prod.fst ++ B.map Prod.fst) := by
    unfold keysOf
    rw [h1]
    simp
  have hBbound : ∀ b ∈ B.map Prod.fst, keyLt key b := by
    intro b hb
    by_cases hjl : j = ks.length
    · rw [h5 hjl] at hb
      simp at hb
    · have hjlt : j < ks.length := by omega
      obtain ⟨k2, hk2⟩ : ∃ k2, ks.get? j = some k2 :=
        ⟨_, List.get?_eq_get hjlt⟩
      have hj2 : j < vs.length := by
        rw [← hs.lens]
        exact hjlt
      obtain ⟨v2, hv2⟩ : ∃ v2, vs.get? j = some v2 :=
        ⟨_, List.get?_eq_get hj2⟩
      obtain ⟨B2, hB2⟩ := h6 k2 v2 hk2 hv2
      have hkk2 : keyLt key k2 := hright k2 hk2
      rw [hB2, List.map_cons] at hb
      rcases List.mem_cons.mp hb with rfl | hb2
      · exact hkk2
      · rw [hB2, List.map_cons, List.pairwise_cons] at hpB
        exact keyLt_trans hkk2 (hpB.1 b hb2)
  have hAbound : ∀ a ∈ A.map Prod.fst, keyLt a key := by
    intro a ha
    by_cases hj0 : j = 0
    · rw [h3 hj0] at ha
      simp at ha
    · have hj1 : j - 1 < ks.length := by omega
      obtain ⟨k1, hk1⟩ : ∃ k1, ks.get? (j - 1) = some k1 :=
        ⟨_, List.get?_eq_get hj1⟩
      have hj2 : j - 1 < vs.length := by
        rw [← hs.lens]
        exact hj1
      obtain ⟨v1, hv1⟩ : ∃ v1, vs.get? (j - 1) = some v1 :=
        ⟨_, List.get?_eq_get hj2⟩
      obtain ⟨A2, hA2⟩ := h4 k1 v1 hj0 hk1 hv1
      have hk1key : keyLt k1 key := hleft k1 hj0 hk1
      rw [hA2, List.map_append] at ha
      rcases List.mem_append.mp ha with ha2 | ha2
      · rw [hA2, List.map_append, List.pairwise_append] at hpA
        exact keyLt_trans (hpA.2.2 a ha2 k1 (by simp)) hk1key
      · have : a = k1 := by simpa using ha2
        subst this
        exact hk1key
  constructor
  · show (keysOf _).Pairwise keyLt
    rw [hknew, List.pairwise_append]
    refine ⟨hpA, ?_, ?_⟩
    · rw [List.pairwise_append]
      refine ⟨hc2sort, hpB, ?_⟩
      intro x hx b hb
      rcases hsub x hx with hx2 | rfl
      · exact hCB x hx2 b hb
      · exact hBbound b hb
    · intro a ha y hy
      rcases List.mem_append.mp hy with hy2 | hy2
      · rcases hsub y hy2 with hy3 | rfl
        · exact hAcb a ha y (List.mem_append_left _ hy3)
        · exact hAbound a ha
      · exact hAcb a ha y (List.mem_append_right _ hy2)
  · intro x hx
    rw [hknew] at hx
    rw [hkold]
    rcases List.mem_append.mp hx with hx2 | hx2
    · exact .inl (List.mem_append_left _ hx2)
    · rcases List.mem_append.mp hx2 with hx3 | hx3
      · rcases hsub x hx3 with hx4 | rfl
        · exact .inl (List.mem_append_right _ (List.mem_append_left _ hx4))
        · exact .inr rfl
      · exact .inl (List.mem_append_right _ (List.mem_append_right _ hx3))

theorem insertNF_sorted {t : Nat} (ht : 1 ≤ t) (u : Bool) :
    ∀ (fuel : Nat) (n : BT) (key : Key) (rid : Int), Shape n → SortedBT n →
      SortedBT (insertNF t u fuel n key rid).1 ∧
        ∀ x ∈ keysOf (insertNF t u fuel n key rid).1,
          x ∈ keysOf n ∨ x = key := by
  intro fuel
  induction fuel with
  | zero => exact fun n key rid hs hsort => ⟨hsort, fun x hx => .inl hx⟩
  | succ fuel ih =>
    intro n key rid hs hsort
    obtain ⟨ks, vs, cs, lf⟩ := n
    have hstep := insertNF_succ_step t u fuel ks vs cs lf key rid
    generalize hr : insertNF t u (fuel + 1) (.node ks vs cs lf) key rid
      = r at hstep ⊢
    cases hstep with
    | found i k hs2 hz =>
      constructor
      · show (keysOf _).Pairwise keyLt
        rw [keysOf_addToVals]
        exact hsort
      · intro x hx
        rw [keysOf_addToVals] at hx
        exact .inl hx
    | leaf pos hp hlf =>
      subst hlf
      have hcs := hs.noChildren
      subst hcs
      dsimp only
      have hkeq : keysOf (BT.node (ks.insertIdx pos key)
          (vs.insertIdx pos [rid]) [] true) = ks.insertIdx pos key := by
        refine keysOf_node_leaf ?_
        rw [List.length_insertIdx _ _ (posSpec_le hp),
          List.length_insertIdx _ _ (by rw [← hs.lens]; exact posSpec_le hp),
          hs.lens]
      constructor
      · show (keysOf _).Pairwise keyLt
        rw [hkeq]
        exact pairwise_insertIdx (sorted_node_keys hs hsort) hp
      · intro x hx
        rw [hkeq] at hx
        rw [keysOf_node_leaf hs.lens]
        rcases mem_insertIdx_weak hx with rfl | hx2
        · exact .inr rfl
        · exact .inl hx2
    | ixChild pos hp hlf hc => exact ⟨hsort, fun x hx => .inl hx⟩
    | descend pos child hp hlf hc hnf =>
      subst hlf
      dsimp only
      obtain ⟨hsc, -, -⟩ := sorted_child hs hsort hc
      obtain ⟨hrecSort, hrecSub⟩ := ih child key rid
        (hs.child (List.get?_mem hc)) hsc
      exact sorted_setChild hs hsort hc hrecSort hrecSub
        (fun k1 h0 hk1 => keyLt_of_pos (posSpec_last hp k1 h0 hk1))
        (fun k2 hk2 => keyLt_of_neg (posSpec_drop hp pos k2 (le_refl _) hk2))
    | ixSplitKey pos child hp hlf hc hf hk =>
      subst hlf
      have hsort2 : SortedBT (splitChild t (.node ks vs cs false) pos) := by
        show (keysOf _).Pairwise keyLt
        unfold keysOf
        rw [inorder_splitChild ht hs hc hf]
        exact hsort
      refine ⟨hsort2, ?_⟩
      intro x hx
      left
      unfold keysOf at hx ⊢
      rw [inorder_splitChild ht hs hc hf] at hx
      exact hx
    | splitGtIx pos child kci hp hlf hc hf hk hgt hc2 =>
      subst hlf
      have hsort2 : SortedBT (splitChild t (.node ks vs cs false) pos) := by
        show (keysOf _).Pairwise keyLt
        unfold keysOf
        rw [inorder_splitChild ht hs hc hf]
        exact hsort
      refine ⟨hsort2, ?_⟩
      intro x hx
      left
      unfold keysOf at hx ⊢
      rw [inorder_splitChild ht hs hc hf] at hx
      exact hx
    | splitGt pos child kci c2 hp hlf hc hf hk hgt hc2 =>
      subst hlf
      dsimp only
      have hposle := posSpec_le hp
      have hsp := shape_splitChild ht hs hc hf
      have hio2 := inorder_splitChild ht hs hc hf
      obtain ⟨cks, cvs, ccs, clf⟩ := child
      obtain ⟨mk, mv, hmk, hmv, hsceq⟩ := splitChild_eq ht hc hf
        (hs.child (List.get?_mem hc)).lens
      have hsort2 : SortedBT (splitChild t (.node ks vs cs false) pos) := by
        show (keysOf _).Pairwise keyLt
        unfold keysOf
        rw [hio2]
        exact hsort
      rw [hsceq] at hsp hsort2 hc2 ⊢
      try dsimp only at hc2
      obtain ⟨hsc2, -, -⟩ := sorted_child hsp hsort2 hc2
      obtain ⟨hrecSort, hrecSub⟩ := ih c2 key rid
        (hsp.child (List.get?_mem hc2)) hsc2
      have hres := sorted_setChild hsp hsort2 hc2 hrecSort hrecSub
        (fun k1 h0 hk1 => ?hl) (fun k2 hk2 => ?hr)
      case hl =>
        have hgetmk : (ks.insertIdx pos mk).get? (pos + 1 - 1) = some mk := by
          simpa using get?_insertIdx_self (a := mk) hposle
        rw [hgetmk] at hk1
        have hkk : k1 = mk := Option.some.inj hk1.symm
        subst hkk
        have hkci : kci = k1 := by
          rw [hsceq] at hk
          simp only [BT.keys] at hk
          rw [get?_insertIdx_self hposle] at hk
          exact Option.some.inj hk.symm
        subst hkci
        exact keyLt_of_pos hgt
      case hr =>
        rw [get?_insertIdx_succ (le_refl pos)] at hk2
        exact keyLt_of_neg (posSpec_drop hp pos k2 (le_refl _) hk2)
      refine ⟨hres.1, ?_⟩
      intro x hx
      rcases hres.2 x hx with hx2 | rfl
      · left
        unfold keysOf at hx2 ⊢
        rw [← hsceq] at hx2
        rw [← hio2]
        exact hx2
      · exact .inr rfl
    | splitEq pos child kci hp hlf hc hf hk heq =>
      subst hlf
      have hio2 := inorder_splitChild ht hs hc hf
      constructor
      · show (keysOf _).Pairwise keyLt
        rw [keysOf_addToVals]
        unfold keysOf
        rw [hio2]
        exact hsort
      · intro x hx
        left
        rw [keysOf_addToVals] at hx
        unfold keysOf at hx ⊢
        rw [hio2] at hx
        exact hx
    | splitLtIx pos child kci hp hlf hc hf hk hlt hc2 =>
      subst hlf
      have hsort2 : SortedBT (splitChild t (.node ks vs cs false) pos) := by
        show (keysOf _).Pairwise keyLt
        unfold keysOf
        rw [inorder_splitChild ht hs hc hf]
        exact hsort
      refine ⟨hsort2, ?_⟩
      intro x hx
      left
      unfold keysOf at hx ⊢
      rw [inorder_splitChild ht hs hc hf] at hx
      exact hx
    | splitLt pos child kci c2 hp hlf hc hf hk hlt hc2 =>
      subst hlf
      dsimp only
      have hposle := posSpec_le hp
      have hsp := shape_splitChild ht hs hc hf
      have hio2 := inorder_splitChild ht hs hc hf
      obtain ⟨cks, cvs, ccs, clf⟩ := child
      obtain ⟨mk, mv, hmk, hmv, hsceq⟩ := splitChild_eq ht hc hf
        (hs.child (List.get?_mem hc)).lens
      have hsort2 : SortedBT (splitChild t (.node ks vs cs false) pos) := by
        show (keysOf _).Pairwise keyLt
        unfold keysOf
        rw [hio2]
        exact hsort
      rw [hsceq] at hsp hsort2 hc2 ⊢
      try dsimp only at hc2
      obtain ⟨hsc2, -, -⟩ := sorted_child hsp hsort2 hc2
      obtain ⟨hrecSort, hrecSub⟩ := ih c2 key rid
        (hsp.child (List.get?_mem hc2)) hsc2
      have hres := sorted_setChild hsp hsort2 hc2 hrecSort hrecSub
        (fun k1 h0 hk1 => ?hl2) (fun k2 hk2 => ?hr2)
      case hl2 =>
        rw [get?_insertIdx_lt (by omega)] at hk1
        exact keyLt_of_pos (posSpec_last hp k1 h0 hk1)
      case hr2 =>
        rw [get?_insertIdx_self hposle] at hk2
        have hkk : k2 = mk := Option.some.inj hk2.symm
        subst hkk
        have hkci : kci = k2 := by
          rw [hsceq] at hk
          simp only [BT.keys] at hk
          rw [get?_insertIdx_self hposle] at hk
          exact Option.some.inj hk.symm
        subst hkci
        exact keyLt_of_neg hlt
      refine ⟨hres.1, ?_⟩
      intro x hx
      rcases hres.2 x hx with hx2 | rfl
      · left
        unfold keysOf at hx2 ⊢
        rw [← hsceq] at hx2
        rw [← hio2]
        exact hx2
      · exact .inr rfl

/-! ### B-tree: behaviour of an insert whose key is already present -/

theorem insertNF_found {t : Nat} (ht : 1 ≤ t) (u : Bool) :
    ∀ (fuel : Nat) (n : BT) (key : Key) (rid : Int) (lst : List Int),
      Shape n → SortedBT n → BT.height n < fuel →
      (key, lst) ∈ inorder n →
      (rid ∈ lst → (insertNF t u fuel n key rid).2 = none ∧
        inorder (insertNF t u fuel n key rid).1 = inorder n) ∧
      (u = true → rid ∉ lst →
        ∃ e, (insertNF t u fuel n key rid).2 = some e) := by
  intro fuel
  induction fuel with
  | zero =>
    intro n key rid lst hs hsort hfuel hin
    have := height_pos n
    omega
  | succ fuel ih =>
    intro n key rid lst hs hsort hfuel hin
    obtain ⟨ks, vs, cs, lf⟩ := n
    have hstep := insertNF_succ_step t u fuel ks vs cs lf key rid
    generalize hr : insertNF t u (fuel + 1) (.node ks vs cs lf) key rid
      = r at hstep ⊢
    cases hstep with
    | found i k hs2 hz =>
      have hkk : key = k := cmpK_eq_zero hz
      subst hkk
      have hks : ks.get? i = some key := (scanIdx_some hs2).1
      have hilt : i < vs.length := by
        rw [← hs.lens]
        exact (List.get?_eq_some.mp hks).1
      obtain ⟨v, hv⟩ : ∃ v, vs.get? i = some v := ⟨_, List.get?_eq_get hilt⟩
      have hpair := pair_mem_inorder hs hks hv
      have hveq : v = lst := entry_unique hsort hpair hin
      subst hveq
      constructor
      · intro hmem
        rw [addToVals_found_mem
          (show (BT.node ks vs cs lf).vals.get? i = some v from hv) hmem]
        exact ⟨rfl, rfl⟩
      · intro hu hmem
        subst hu
        rw [addToVals_unique_dup
          (show (BT.node ks vs cs lf).vals.get? i = some v from hv) hmem]
        exact ⟨_, rfl⟩
    | leaf pos hp hlf =>
      subst hlf
      rw [inorder_node, if_pos rfl] at hin
      exact ((posSpec_not_mem hp (sorted_node_keys hs hsort))
        (List.of_mem_zip hin).1).elim
    | ixChild pos hp hlf hc =>
      subst hlf
      have h1 := List.get?_eq_none.mp hc
      have h2 := hs.count
      have h3 := posSpec_le hp
      exact absurd h1 (by omega)
    | descend pos child hp hlf hc hnf =>
      subst hlf
      dsimp only
      have hinc := entry_in_child hs hsort hc
        (fun k1 h0 hk1 => keyLt_of_pos (posSpec_last hp k1 h0 hk1))
        (fun k2 hk2 => keyLt_of_neg (posSpec_drop hp pos k2 (le_refl _) hk2))
        hin
      obtain ⟨hsc, -, -⟩ := sorted_child hs hsort hc
      have hhc : BT.height child < fuel := by
        have : BT.height child < BT.height (BT.node ks vs cs false) :=
          height_child_lt (List.get?_mem hc)
        omega
      obtain ⟨ih1, ih2⟩ := ih child key rid lst
        (hs.child (List.get?_mem hc)) hsc hhc hinc
      constructor
      · intro hmem
        obtain ⟨he, hio3⟩ := ih1 hmem
        exact ⟨he, inorder_setChild hs hc hio3⟩
      · exact fun hu hmem => ih2 hu hmem
    | ixSplitKey pos child hp hlf hc hf hk =>
      subst hlf
      obtain ⟨cks, cvs, ccs, clf⟩ := child
      obtain ⟨mk, mv, hmk, hmv, hsceq⟩ := splitChild_eq ht hc hf
        (hs.child (List.get?_mem hc)).lens
      rw [hsceq] at hk
      simp only [BT.keys] at hk
      rw [get?_insertIdx_self (posSpec_le hp)] at hk
      cases hk
    | splitGtIx pos child kci hp hlf hc hf hk hgt hc2 =>
      subst hlf
      obtain ⟨cks, cvs, ccs, clf⟩ := child
      obtain ⟨mk, mv, hmk, hmv, hsceq⟩ := splitChild_eq ht hc hf
        (hs.child (List.get?_mem hc)).lens
      rw [hsceq] at hc2
      simp only [BT.children] at hc2
      have h1 := List.get?_eq_none.mp hc2
      have hposlt : pos < cs.length := (List.get?_eq_some.mp hc).1
      rw [List.length_insertIdx _ _ (by rw [List.length_set]; omega),
        List.length_set] at h1
      exact absurd h1 (by omega)
    | splitGt pos child kci c2 hp hlf hc hf hk hgt hc2 =>
      subst hlf
      dsimp only
      have hposle := posSpec_le hp
      have hsp := shape_splitChild ht hs hc hf
      have hio2 := inorder_splitChild ht hs hc hf
      obtain ⟨c, hcmem, hcle⟩ := height_splitChild_children _
        (List.get?_mem hc2)
      have hhc2 : BT.height c2 < fuel := by
        have : BT.height c < BT.height (BT.node ks vs cs false) :=
          height_child_lt hcmem
        omega
      obtain ⟨cks, cvs, ccs, clf⟩ := child
      obtain ⟨mk, mv, hmk, hmv, hsceq⟩ := splitChild_eq ht hc hf
        (hs.child (List.get?_mem hc)).lens
      have hsort2 : SortedBT (splitChild t (.node ks vs cs false) pos) := by
        show (keysOf _).Pairwise keyLt
        unfold keysOf
        rw [hio2]
        exact hsort
      have hkci : kci = mk := by
        rw [hsceq] at hk
        simp only [BT.keys] at hk
        rw [get?_insertIdx_self hposle] at hk
        exact Option.some.inj hk.symm
      rw [hsceq] at hsp hsort2 hc2
      have hleft : ∀ k1, pos + 1 ≠ 0 →
          (ks.insertIdx pos mk).get? (pos + 1 - 1) = some k1 →
          keyLt k1 key := by
        intro k1 h0 hk1
        have hgm : (ks.insertIdx pos mk).get? (pos + 1 - 1) = some mk := by
          simpa using get?_insertIdx_self (a := mk) hposle
        rw [hgm] at hk1
        have hx : k1 = mk := (Option.some.inj hk1).symm
        subst hx
        rw [← hkci]
        exact keyLt_of_pos hgt
      have hright : ∀ k2, (ks.insertIdx pos mk).get? (pos + 1) = some k2 →
          keyLt key k2 := by
        intro k2 hk2
        rw [get?_insertIdx_succ (le_refl pos)] at hk2
        exact keyLt_of_neg (posSpec_drop hp pos k2 (le_refl _) hk2)
      have hin2 : (key, lst) ∈ inorder (BT.node (ks.insertIdx pos mk)
          (vs.insertIdx pos mv)
          ((cs.set pos (.node (cks.take t).dropLast (cvs.take t).dropLast
            (if clf then ccs else ccs.take t) clf)).insertIdx (pos + 1)
            (.node (cks.drop t) (cvs.drop t)
              (if clf then [] else ccs.drop t) clf)) false) := by
        rw [← hsceq, hio2]
        exact hin
      have hinc2 := entry_in_child hsp hsort2 hc2 hleft hright hin2
      obtain ⟨hsc2, -, -⟩ := sorted_child hsp hsort2 hc2
      obtain ⟨ih1, ih2⟩ := ih c2 key rid lst
        (hsp.child (List.get?_mem hc2)) hsc2 hhc2 hinc2
      constructor
      · intro hmem
        obtain ⟨he, hio3⟩ := ih1 hmem
        refine ⟨he, ?_⟩
        rw [hsceq, inorder_setChild hsp hc2 hio3, ← hsceq, hio2]
      · exact fun hu hmem => ih2 hu hmem
    | splitEq pos child kci hp hlf hc hf hk heq =>
      subst hlf
      have hposle := posSpec_le hp
      obtain ⟨cks, cvs, ccs, clf⟩ := child
      obtain ⟨mk, mv, hmk, hmv, hsceq⟩ := splitChild_eq ht hc hf
        (hs.child (List.get?_mem hc)).lens
      have hsp := shape_splitChild ht hs hc hf
      have hio2 := inorder_splitChild ht hs hc hf
      have hsort2 : SortedBT (splitChild t (.node ks vs cs false) pos) := by
        show (keysOf _).Pairwise keyLt
        unfold keysOf
        rw [hio2]
        exact hsort
      have hkk : key = kci := cmpK_eq_zero heq
      subst hkk
      have hvget : (splitChild t (.node ks vs cs false) pos).vals.get? pos
          = some mv := by
        rw [hsceq]
        simp only [BT.vals]
        exact get?_insertIdx_self (by rw [← hs.lens]; exact hposle)
      have hin2 : (key, lst) ∈ inorder
          (splitChild t (.node ks vs cs false) pos) := by
        rw [hio2]
        exact hin
      have hpair := pair_mem_inorder hsp hk hvget
      have hveq : mv = lst := entry_unique hsort2 hpair hin2
      subst hveq
      constructor
      · intro hmem
        rw [addToVals_found_mem hvget hmem]
        exact ⟨rfl, hio2⟩
      · intro hu hmem
        subst hu
        rw [addToVals_unique_dup hvget hmem]
        exact ⟨_, rfl⟩
    | splitLtIx pos child kci hp hlf hc hf hk hlt hc2 =>
      subst hlf
      obtain ⟨cks, cvs, ccs, clf⟩ := child
      obtain ⟨mk, mv, hmk, hmv, hsceq⟩ := splitChild_eq ht hc hf
        (hs.child (List.get?_mem hc)).lens
      rw [hsceq] at hc2
      simp only [BT.children] at hc2
      have h1 := List.get?_eq_none.mp hc2
      have hposlt : pos < cs.length := (List.get?_eq_some.mp hc).1
      rw [List.length_insertIdx _ _ (by rw [List.length_set]; omega),
        List.length_set] at h1
      exact absurd h1 (by omega)
    | splitLt pos child kci c2 hp hlf hc hf hk hlt hc2 =>
      subst hlf
      dsimp only
      have hposle := posSpec_le hp
      have hsp := shape_splitChild ht hs hc hf
      have hio2 := inorder_splitChild ht hs hc hf
      obtain ⟨c, hcmem, hcle⟩ := height_splitChild_children _
        (List.get?_mem hc2)
      have hhc2 : BT.height c2 < fuel := by
        have : BT.height c < BT.height (BT.node ks vs cs false) :=
          height_child_lt hcmem
        omega
      obtain ⟨cks, cvs, ccs, clf⟩ := child
      obtain ⟨mk, mv, hmk, hmv, hsceq⟩ := splitChild_eq ht hc hf
        (hs.child (List.get?_mem hc)).lens
      have hsort2 : SortedBT (splitChild t (.node ks vs cs false) pos) := by
        show (keysOf _).Pairwise keyLt
        unfold keysOf
        rw [hio2]
        exact hsort
      have hkci : kci = mk := by
        rw [hsceq] at hk
        simp only [BT.keys] at hk
        rw [get?_insertIdx_self hposle] at hk
        exact Option.some.inj hk.symm
      rw [hsceq] at hsp hsort2 hc2
      have hleft : ∀ k1, pos ≠ 0 →
          (ks.insertIdx pos mk).get? (pos - 1) = some k1 →
          keyLt k1 key := by
        intro k1 h0 hk1
        rw [get?_insertIdx_lt (by omega)] at hk1
        exact keyLt_of_pos (posSpec_last hp k1 h0 hk1)
      have hright : ∀ k2, (ks.insertIdx pos mk).get? pos = some k2 →
          keyLt key k2 := by
        intro k2 hk2
        rw [get?_insertIdx_self hposle] at hk2
        have hx : k2 = mk := Option.some.inj hk2.symm
        subst hx
        rw [← hkci]
        exact keyLt_of_neg hlt
      have hin2 : (key, lst) ∈ inorder (BT.node (ks.insertIdx pos mk)
          (vs.insertIdx pos mv)
          ((cs.set pos (.node (cks.take t).dropLast (cvs.take t).dropLast
            (if clf then ccs else ccs.take t) clf)).insertIdx (pos + 1)
            (.node (cks.drop t) (cvs.drop t)
              (if clf then [] else ccs.drop t) clf)) false) := by
        rw [← hsceq, hio2]
        exact hin
      have hinc2 := entry_in_child hsp hsort2 hc2 hleft hright hin2
      obtain ⟨hsc2, -, -⟩ := sorted_child hsp hsort2 hc2
      obtain ⟨ih1, ih2⟩ := ih c2 key rid lst
        (hsp.child (List.get?_mem hc2)) hsc2 hhc2 hinc2
      constructor
      · intro hmem
        obtain ⟨he, hio3⟩ := ih1 hmem
        refine ⟨he, ?_⟩
        rw [hsceq, inorder_setChild hsp hc2 hio3, ← hsceq, hio2]
      · exact fun hu hmem => ih2 hu hmem

/-! ### B-tree: the whole-index level -/

theorem inorder_newRoot (c : BT) :
    inorder (.node [] [] [c] false) = inorder c := by
  rw [inorder_node, if_neg (by simp), interleave_nilk]
  simp

theorem height_le_of_children2 {n : BT} {m : Nat}
    (h : ∀ c ∈ n.children, BT.height c ≤ m) : BT.height n ≤ m + 1 := by
  obtain ⟨ks, vs, cs, lf⟩ := n
  exact height_le_of_children h

theorem shape_newRoot {n : BT} (h : Shape n) :
    Shape (BT.node [] [] [n] false) := by
  refine Shape.internal _ _ _ rfl rfl ?_
  intro c hc
  rcases List.mem_singleton.mp hc with rfl
  exact h

theorem sorted_idx_insert {idx : BTreeIdx} (ht : 1 ≤ idx.order)
    (hs : Shape idx.root) (hsort : SortedBT idx.root) (key : Key)
    (rid : Int) : SortedBT (idx.insert key rid).1.root := by
  unfold BTreeIdx.insert
  dsimp only
  by_cases hfull : idx.root.keys.length = 2 * idx.order - 1
  · rw [if_pos hfull]
    have hnr := shape_newRoot hs
    have hsortNR : SortedBT (BT.node [] [] [idx.root] false) := by
      show (keysOf _).Pairwise keyLt
      unfold keysOf
      rw [inorder_newRoot]
      exact hsort
    have hsort2 : SortedBT (splitChild idx.order
        (BT.node [] [] [idx.root] false) 0) := by
      show (keysOf _).Pairwise keyLt
      unfold keysOf
      rw [inorder_splitChild ht hnr List.get?_cons_zero hfull]
      exact hsortNR
    exact (insertNF_sorted ht idx.unique _ _ key rid
      (shape_splitChild ht hnr List.get?_cons_zero hfull) hsort2).1
  · rw [if_neg hfull]
    exact (insertNF_sorted ht idx.unique _ _ key rid hs hsort).1

theorem idx_insert_order (idx : BTreeIdx) (key : Key) (rid : Int) :
    (idx.insert key rid).1.order = idx.order := by
  unfold BTreeIdx.insert
  dsimp only
  by_cases hfull : idx.root.keys.length = 2 * idx.order - 1
  · rw [if_pos hfull]
  · rw [if_neg hfull]

theorem idx_insert_unique (idx : BTreeIdx) (key : Key) (rid : Int) :
    (idx.insert key rid).1.unique = idx.unique := by
  unfold BTreeIdx.insert
  dsimp only
  by_cases hfull : idx.root.keys.length = 2 * idx.order - 1
  · rw [if_pos hfull]
  · rw [if_neg hfull]

theorem keysOf_setChild_congr {n c c2 : BT} {j : Nat} (hs : Shape n)
    (hc : n.children.get? j = some c) (hk : keysOf c2 = keysOf c) :
    keysOf (setChild n j c2) = keysOf n := by
  obtain ⟨ks, vs, cs, lf⟩ := n
  cases lf with
  | true =>
    rw [hs.noChildren] at hc
    cases hc
  | false =>
    obtain ⟨A, B, h1, h2, -⟩ := inorder_decomp hs hc
    unfold keysOf
    rw [h2 c2, h1]
    unfold keysOf at hk
    simp only [List.map_append]
    rw [hk]

theorem keysOf_deleteBT (n : BT) (key : Key) (rid : Int) (hs : Shape n) :
    keysOf (deleteBT n key rid).1 = keysOf n := by
  induction n, key, rid using deleteBT.induct with
  | case1 key rid ks vs cs lf i ki hki hz lst hlst hcont =>
    have hki2 : ks.get? (ks.findIdx (fun kk => !(0 < cmpK key kk)))
      = some ki := hki
    have hlst2 : vs.get? (ks.findIdx (fun kk => !(0 < cmpK key kk)))
      = some lst := hlst
    rw [deleteBT]
    dsimp only
    rw [hki2]
    dsimp only
    rw [if_pos hz, hlst2]
    dsimp only
    rw [if_pos hcont]
    dsimp only
    exact keysOf_setVals2
  | case2 key rid ks vs cs lf i ki hki hz lst hlst hcont =>
    have hki2 : ks.get? (ks.findIdx (fun kk => !(0 < cmpK key kk)))
      = some ki := hki
    have hlst2 : vs.get? (ks.findIdx (fun kk => !(0 < cmpK key kk)))
      = some lst := hlst
    rw [deleteBT]
    dsimp only
    rw [hki2]
    dsimp only
    rw [if_pos hz, hlst2]
    dsimp only
    rw [if_neg hcont]
  | case3 key rid ks vs cs lf i ki hki hz hlst =>
    have hki2 : ks.get? (ks.findIdx (fun kk => !(0 < cmpK key kk)))
      = some ki := hki
    have hlst2 : vs.get? (ks.findIdx (fun kk => !(0 < cmpK key kk)))
      = none := hlst
    rw [deleteBT]
    dsimp only
    rw [hki2]
    dsimp only
    rw [if_pos hz, hlst2]
  | case4 key rid ks vs cs i ki hki hz =>
    have hki2 : ks.get? (ks.findIdx (fun kk => !(0 < cmpK key kk)))
      = some ki := hki
    rw [deleteBT]
    dsimp only
    rw [hki2]
    dsimp only
    rw [if_neg hz]
    rfl
  | case5 key rid ks vs cs lf i ki hki hz hlf c hc ih =>
    have hki2 : ks.get? (ks.findIdx (fun kk => !(0 < cmpK key kk)))
      = some ki := hki
    have hc2 : cs.get? (ks.findIdx (fun kk => !(0 < cmpK key kk)))
      = some c := hc
    rw [deleteBT]
    dsimp only
    rw [hki2]
    dsimp only
    rw [if_neg hz, if_neg hlf, hc2]
    dsimp only
    have hlf2 : lf = false := by
      cases lf
      · rfl
      · exact absurd rfl hlf
    subst hlf2
    exact keysOf_setChild_congr hs hc2 (ih (hs.child (List.get?_mem hc2)))
  | case6 key rid ks vs cs lf i ki hki hz hlf hc =>
    have hki2 : ks.get? (ks.findIdx (fun kk => !(0 < cmpK key kk)))
      = some ki := hki
    have hc2 : cs.get? (ks.findIdx (fun kk => !(0 < cmpK key kk)))
      = none := hc
    rw [deleteBT]
    dsimp only
    rw [hki2]
    dsimp only
    rw [if_neg hz, if_neg hlf, hc2]
  | case7 key rid ks vs cs i hki =>
    have hki2 : ks.get? (ks.findIdx (fun kk => !(0 < cmpK key kk)))
      = none := hki
    rw [deleteBT]
    dsimp only
    rw [hki2]
    rfl
  | case8 key rid ks vs cs lf i hki hlf c hc ih =>
    have hki2 : ks.get? (ks.findIdx (fun kk => !(0 < cmpK key kk)))
      = none := hki
    have hc2 : cs.get? (ks.findIdx (fun kk => !(0 < cmpK key kk)))
      = some c := hc
    rw [deleteBT]
    dsimp only
    rw [hki2]
    dsimp only
    rw [if_neg hlf, hc2]
    dsimp only
    have hlf2 : lf = false := by
      cases lf
      · rfl
      · exact absurd rfl hlf
    subst hlf2
    exact keysOf_setChild_congr hs hc2 (ih (hs.child (List.get?_mem hc2)))
  | case9 key rid ks vs cs lf i hki hlf hc =>
    have hki2 : ks.get? (ks.findIdx (fun kk => !(0 < cmpK key kk)))
      = none := hki
    have hc2 : cs.get? (ks.findIdx (fun kk => !(0 < cmpK key kk)))
      = none := hc
    rw [deleteBT]
    dsimp only
    rw [hki2]
    dsimp only
    rw [if_neg hlf, hc2]

theorem WF_stepIdx {idx : BTreeIdx} (ht : 1 ≤ idx.order)
    (hs : Shape idx.root) (hsort : SortedBT idx.root) (op : IdxOp) :
    Shape (stepIdx idx op).root ∧ SortedBT (stepIdx idx op).root := by
  cases op with
  | ins k r =>
    exact ⟨shape_idx_insert ht hs k r, sorted_idx_insert ht hs hsort k r⟩
  | del k r =>
    refine ⟨shape_deleteBT _ k r hs, ?_⟩
    show (keysOf (deleteBT idx.root k r).1).Pairwise keyLt
    rw [keysOf_deleteBT _ k r hs]
    exact hsort

theorem WF_runIdx (t : Nat) (u : Bool) (ht : 1 ≤ t) (ops : List IdxOp) :
    Shape (runIdx (initIdx t u) ops).root ∧
      SortedBT (runIdx (initIdx t u) ops).root ∧
      (runIdx (initIdx t u) ops).order = t ∧
      (runIdx (initIdx t u) ops).unique = u := by
  suffices h : ∀ (ops : List IdxOp) (idx : BTreeIdx), 1 ≤ idx.order →
      Shape idx.root → SortedBT idx.root →
      Shape (runIdx idx ops).root ∧ SortedBT (runIdx idx ops).root ∧
        (runIdx idx ops).order = idx.order ∧
        (runIdx idx ops).unique = idx.unique by
    refine h ops (initIdx t u) ht (shape_initIdx t u) ?_
    show (keysOf (BT.node [] [] [] true)).Pairwise keyLt
    rw [keysOf_node_leaf rfl]
    exact List.Pairwise.nil
  intro ops
  induction ops with
  | nil => exact fun idx ht2 hs hsort => ⟨hs, hsort, rfl, rfl⟩
  | cons op ops ih =>
    intro idx ht2 hs hsort
    obtain ⟨h1, h2⟩ := WF_stepIdx ht2 hs hsort op
    obtain ⟨g1, g2, g3, g4⟩ := ih (stepIdx idx op)
      (by rw [stepIdx_order]; exact ht2) h1 h2
    exact ⟨g1, g2, g3.trans (stepIdx_order idx op),
      g4.trans (stepIdx_unique idx op)⟩

theorem idx_insert_found {idx : BTreeIdx} (ht : 1 ≤ idx.order)
    (hs : Shape idx.root) (hsort : SortedBT idx.root) {key : Key}
    {lst : List Int} (hin : (key, lst) ∈ inorder idx.root) (rid : Int) :
    (rid ∈ lst → (idx.insert key rid).2 = none ∧
      inorder (idx.insert key rid).1.root = inorder idx.root) ∧
    (idx.unique = true → rid ∉ lst → (idx.insert key rid).2 ≠ none ∧
      inorder (idx.insert key rid).1.root = inorder idx.root) := by
  unfold BTreeIdx.insert
  dsimp only
  by_cases hfull : idx.root.keys.length = 2 * idx.order - 1
  · rw [if_pos hfull]
    have hnr := shape_newRoot hs
    have hioNR : inorder (BT.node [] [] [idx.root] false)
        = inorder idx.root := inorder_newRoot idx.root
    have hsortNR : SortedBT (BT.node [] [] [idx.root] false) := by
      show (keysOf _).Pairwise keyLt
      unfold keysOf
      rw [hioNR]
      exact hsort
    have hsp := shape_splitChild ht hnr List.get?_cons_zero hfull
    have hio2 := inorder_splitChild ht hnr List.get?_cons_zero hfull
    have hsort2 : SortedBT (splitChild idx.order
        (BT.node [] [] [idx.root] false) 0) := by
      show (keysOf _).Pairwise keyLt
      unfold keysOf
      rw [hio2, hioNR]
      exact hsort
    have hfuel : BT.height (splitChild idx.order
        (BT.node [] [] [idx.root] false) 0) < idx.root.height + 2 := by
      have hc : ∀ c ∈ (splitChild idx.order
          (BT.node [] [] [idx.root] false) 0).children,
          BT.height c ≤ BT.height idx.root := by
        intro c hc
        obtain ⟨c2, hc2, hle⟩ := height_splitChild_children c hc
        rcases List.mem_singleton.mp hc2 with rfl
        exact hle
      have := height_le_of_children2 hc
      omega
    have hin2 : (key, lst) ∈ inorder (splitChild idx.order
        (BT.node [] [] [idx.root] false) 0) := by
      rw [hio2, hioNR]
      exact hin
    obtain ⟨f1, f2⟩ := insertNF_found ht idx.unique
      (idx.root.height + 2) _ key rid lst hsp hsort2 hfuel hin2
    constructor
    · intro hmem
      obtain ⟨he, hio3⟩ := f1 hmem
      exact ⟨he, by rw [hio3, hio2, hioNR]⟩
    · intro hu hmem
      obtain ⟨e, he⟩ := f2 hu hmem
      refine ⟨by rw [he]; simp, ?_⟩
      have herr := insertNF_err_inorder ht idx.unique
        (idx.root.height + 2) _ key rid hsp (by rw [he]; simp)
      rw [herr, hio2, hioNR]
  · rw [if_neg hfull]
    have hfuel : BT.height idx.root < idx.root.height + 2 := by omega
    obtain ⟨f1, f2⟩ := insertNF_found ht idx.unique
      (idx.root.height + 2) _ key rid lst hs hsort hfuel hin
    constructor
    · intro hmem
      obtain ⟨he, hio3⟩ := f1 hmem
      exact ⟨he, hio3⟩
    · intro hu hmem
      obtain ⟨e, he⟩ := f2 hu hmem
      refine ⟨by rw [he]; simp, ?_⟩
      exact insertNF_err_inorder ht idx.unique
        (idx.root.height + 2) _ key rid hs (by rw [he]; simp)

theorem mmBT_idx_insert_mono {idx : BTreeIdx} (ht : 1 ≤ idx.order)
    (hs : Shape idx.root) (key : Key) (rid : Int) :
    ∀ x ∈ mmBT idx.root, x ∈ mmBT (idx.insert key rid).1.root := by
  unfold BTreeIdx.insert
  dsimp only
  by_cases hfull : idx.root.keys.length = 2 * idx.order - 1
  · rw [if_pos hfull]
    intro x hx
    have hnr := shape_newRoot hs
    have hx2 : x ∈ mmBT (splitChild idx.order
        (BT.node [] [] [idx.root] false) 0) := by
      rw [mmBT, inorder_splitChild ht hnr List.get?_cons_zero hfull, inorder_newRoot]
      exact hx
    exact mmBT_insertNF_mono ht idx.unique _ _ key rid
      (shape_splitChild ht hnr List.get?_cons_zero hfull) x hx2
  · rw [if_neg hfull]
    exact mmBT_insertNF_mono ht idx.unique _ _ key rid hs


/-! ### C4 and C10: the B-tree index claims -/

/-- C4: on a unique B-tree index built by any sequence of insert and
delete operations, no key ever holds two distinct row ids in its row-id
list, and inserting a row id different from one already stored under an
existing key raises an error and leaves the index contents (its inorder
key/row-id listing) unchanged. -/
theorem C4_confirmed (t : Nat) (ht : 1 ≤ t) (ops : List IdxOp) :
    (∀ p ∈ inorder (runIdx (initIdx t true) ops).root,
        ∀ r1 ∈ p.2, ∀ r2 ∈ p.2, r1 = r2) ∧
    (∀ key lst rid rid2,
        (key, lst) ∈ inorder (runIdx (initIdx t true) ops).root →
        rid2 ∈ lst → rid ≠ rid2 →
        ((runIdx (initIdx t true) ops).insert key rid).2 ≠ none ∧
        inorder ((runIdx (initIdx t true) ops).insert key rid).1.root
          = inorder (runIdx (initIdx t true) ops).root) := by
  have hone := oneId_runIdx t ops
  obtain ⟨hs, hsort, hord, huniq⟩ := WF_runIdx t true ht ops
  constructor
  · intro p hp r1 h1 r2 h2
    exact hone p.2 (inorder_entry_valLists _ p hp) r1 h1 r2 h2
  · intro key lst rid rid2 hin h2 hne
    have hnot : rid ∉ lst := fun hrid =>
      hne (hone lst (inorder_entry_valLists _ (key, lst) hin) rid hrid
        rid2 h2)
    have ht2 : 1 ≤ (runIdx (initIdx t true) ops).order := by
      rw [hord]; exact ht
    exact (idx_insert_found ht2 hs hsort hin rid).2 huniq hnot

unseal BT.height inorder interleave valLists in
/-- C4 (witness): a unique index of order 1 holding row id 5 under the
NULL key rejects inserting row id 7 under that key and keeps its
contents. -/
theorem C4_witness :
    (1 : Nat) ≤ 1 ∧
    (((runIdx (initIdx 1 true) [.ins none 5]).insert none 7).2 ≠ none ∧
      inorder ((runIdx (initIdx 1 true) [.ins none 5]).insert
          none 7).1.root
        = inorder (runIdx (initIdx 1 true) [.ins none 5]).root) :=
  ⟨by decide, (C4_confirmed 1 (by decide) [.ins none 5]).2 none [5] 7 5
    (by decide) (by decide) (by decide)⟩

/-- C10: on any B-tree index (unique or not) built by any sequence of
insert and delete operations, re-inserting a key/row-id pair that is
already present raises no error and leaves the key-to-row-id multimap
unchanged. -/
theorem C10_confirmed (t : Nat) (ht : 1 ≤ t) (u : Bool) (ops : List IdxOp)
    (key : Key) (rid : Int)
    (hin : (key, rid) ∈ mmBT (runIdx (initIdx t u) ops).root) :
    ((runIdx (initIdx t u) ops).insert key rid).2 = none ∧
    mmBT ((runIdx (initIdx t u) ops).insert key rid).1.root
      = mmBT (runIdx (initIdx t u) ops).root := by
  obtain ⟨hs, hsort, hord, huniq⟩ := WF_runIdx t u ht ops
  obtain ⟨p, hp, h1, h2⟩ := mm_entry_exists hin
  obtain ⟨k0, lst⟩ := p
  dsimp only at h1 h2
  subst h1
  have ht2 : 1 ≤ (runIdx (initIdx t u) ops).order := by
    rw [hord]; exact ht
  obtain ⟨he, hio⟩ := (idx_insert_found ht2 hs hsort hp rid).1 h2
  refine ⟨he, ?_⟩
  unfold mmBT
  rw [hio]

unseal BT.height inorder interleave valLists in
/-- C10 (witness): a unique index of order 1 holding row id 7 under the
NULL key accepts re-inserting that same pair, with the multimap
unchanged. -/
theorem C10_witness :
    ((1 : Nat) ≤ 1 ∧
      (none, (7 : Int)) ∈ mmBT (runIdx (initIdx 1 true)
        [.ins none 7]).root) ∧
    ((runIdx (initIdx 1 true) [.ins none 7]).insert none 7).2 = none ∧
    mmBT ((runIdx (initIdx 1 true) [.ins none 7]).insert none 7).1.root
      = mmBT (runIdx (initIdx 1 true) [.ins none 7]).root :=
  ⟨⟨by decide, by decide⟩,
    C10_confirmed 1 (by decide) true [.ins none 7] none 7 (by decide)⟩

/-! ### Multi-row INSERT: the failing-statement behaviour -/

theorem mmBT_idx_insert_none {idx : BTreeIdx} (ht : 1 ≤ idx.order)
    (hs : Shape idx.root) (key : Key) (rid : Int)
    (h : (idx.insert key rid).2 = none) :
    (key, rid) ∈ mmBT (idx.insert key rid).1.root := by
  unfold BTreeIdx.insert at h ⊢
  dsimp only at h ⊢
  by_cases hfull : idx.root.keys.length = 2 * idx.order - 1
  · rw [if_pos hfull] at h ⊢
    exact insertNF_none_mm ht idx.unique _ _ key rid
      (shape_splitChild ht (shape_newRoot hs) List.get?_cons_zero hfull) h
  · rw [if_neg hfull] at h ⊢
    exact insertNF_none_mm ht idx.unique _ _ key rid hs h


theorem idxUpdate_cons_other {row : RowV} {rid : Int} {c0 : String}
    {idx0 : BTreeIdx} {rest : List (String × BTreeIdx)}
    (h : ∀ n, rowGet row c0 ≠ some (.pint n)) :
    idxUpdate row rid ((c0, idx0) :: rest)
      = ((c0, idx0) :: (idxUpdate row rid rest).1,
         (idxUpdate row rid rest).2) := by
  cases hg : rowGet row c0 with
  | none =>
    conv_lhs => rw [idxUpdate, hg]
  | some v =>
    cases v
    case pint n => exact absurd hg (h n)
    all_goals conv_lhs => rw [idxUpdate, hg]

theorem idxUpdate_cons_pint_err {row : RowV} {rid : Int} {c0 : String}
    {idx0 : BTreeIdx} {rest : List (String × BTreeIdx)} {n : Int}
    {e : String} (h : rowGet row c0 = some (.pint n))
    (he : (idx0.insert (some n) rid).2 = some e) :
    idxUpdate row rid ((c0, idx0) :: rest)
      = ((c0, (idx0.insert (some n) rid).1) :: rest, some e) := by
  conv_lhs => rw [idxUpdate, h]
  dsimp only
  rw [he]

theorem idxUpdate_cons_pint_ok {row : RowV} {rid : Int} {c0 : String}
    {idx0 : BTreeIdx} {rest : List (String × BTreeIdx)} {n : Int}
    (h : rowGet row c0 = some (.pint n))
    (he : (idx0.insert (some n) rid).2 = none) :
    idxUpdate row rid ((c0, idx0) :: rest)
      = ((c0, (idx0.insert (some n) rid).1) :: (idxUpdate row rid rest).1,
         (idxUpdate row rid rest).2) := by
  conv_lhs => rw [idxUpdate, h]
  dsimp only
  rw [he]

theorem idxUpdate_length (row : RowV) (rid : Int) :
    ∀ idxs, (idxUpdate row rid idxs).1.length = idxs.length := by
  intro idxs
  induction idxs with
  | nil => rfl
  | cons ci rest ih =>
    obtain ⟨c0, idx0⟩ := ci
    by_cases hp : ∃ n, rowGet row c0 = some (.pint n)
    · obtain ⟨n, hn⟩ := hp
      cases he : (idx0.insert (some n) rid).2 with
      | some e =>
        rw [idxUpdate_cons_pint_err hn he]
        simp
      | none =>
        rw [idxUpdate_cons_pint_ok hn he]
        simp [ih]
    · rw [idxUpdate_cons_other (fun n hn => hp ⟨n, hn⟩)]
      simp [ih]

theorem idxUpdate_spec (row : RowV) (rid : Int) :
    ∀ idxs, (∀ ci ∈ idxs, 1 ≤ ci.2.order ∧ Shape ci.2.root) →
    ∀ j (c : String) (idx : BTreeIdx), idxs.get? j = some (c, idx) →
    ∃ idx2, (idxUpdate row rid idxs).1.get? j = some (c, idx2) ∧
      idx2.order = idx.order ∧ Shape idx2.root ∧
      (∀ x ∈ mmBT idx.root, x ∈ mmBT idx2.root) ∧
      ((idxUpdate row rid idxs).2 = none →
        ∀ n, rowGet row c = some (.pint n) →
          (some n, rid) ∈ mmBT idx2.root) := by
  intro idxs
  induction idxs with
  | nil =>
    intro hwf j c idx hj
    simp at hj
  | cons ci rest ih =>
    obtain ⟨c0, idx0⟩ := ci
    intro hwf j c idx hj
    have hwf0 := hwf (c0, idx0) (List.mem_cons_self _ _)
    have hwfr : ∀ ci ∈ rest, 1 ≤ ci.2.order ∧ Shape ci.2.root :=
      fun ci hci => hwf ci (List.mem_cons_of_mem _ hci)
    by_cases hp : ∃ n, rowGet row c0 = some (.pint n)
    · obtain ⟨n0, hn0⟩ := hp
      cases he : (idx0.insert (some n0) rid).2 with
      | some e =>
        rw [idxUpdate_cons_pint_err hn0 he]
        cases j with
        | zero =>
          rw [List.get?_cons_zero] at hj
          injection hj with hj
          injection hj with h1 h2
          subst h1
          subst h2
          refine ⟨(idx0.insert (some n0) rid).1, List.get?_cons_zero,
            idx_insert_order idx0 (some n0) rid,
            shape_idx_insert hwf0.1 hwf0.2 (some n0) rid,
            mmBT_idx_insert_mono hwf0.1 hwf0.2 (some n0) rid, ?_⟩
          intro hcontra
          exact absurd hcontra (by simp)
        | succ j2 =>
          rw [List.get?_cons_succ] at hj
          exact ⟨idx, by rw [List.get?_cons_succ]; exact hj, rfl,
            (hwfr (c, idx) (List.get?_mem hj)).2, fun x hx => hx,
            fun hcontra => absurd hcontra (by simp)⟩
      | none =>
        rw [idxUpdate_cons_pint_ok hn0 he]
        cases j with
        | zero =>
          rw [List.get?_cons_zero] at hj
          injection hj with hj
          injection hj with h1 h2
          subst h1
          subst h2
          refine ⟨(idx0.insert (some n0) rid).1, List.get?_cons_zero,
            idx_insert_order idx0 (some n0) rid,
            shape_idx_insert hwf0.1 hwf0.2 (some n0) rid,
            mmBT_idx_insert_mono hwf0.1 hwf0.2 (some n0) rid, ?_⟩
          intro hnone2 n hn
          have hnn : n = n0 := by
            rw [hn0] at hn
            injection hn with hn
            injection hn with hn
            exact hn.symm
          subst hnn
          exact mmBT_idx_insert_none hwf0.1 hwf0.2 (some n) rid he
        | succ j2 =>
          rw [List.get?_cons_succ] at hj
          obtain ⟨idx2, h1, h2, h3, h4, h5⟩ := ih hwfr j2 c idx hj
          exact ⟨idx2, by rw [List.get?_cons_succ]; exact h1, h2, h3, h4,
            h5⟩
    · rw [idxUpdate_cons_other (fun n hn => hp ⟨n, hn⟩)]
      cases j with
      | zero =>
        rw [List.get?_cons_zero] at hj
        injection hj with hj
        injection hj with h1 h2
        subst h1
        subst h2
        refine ⟨idx0, List.get?_cons_zero, rfl, hwf0.2,
          fun x hx => hx, ?_⟩
        intro hnone2 n hn
        exact absurd ⟨n, hn⟩ hp
      | succ j2 =>
        rw [List.get?_cons_succ] at hj
        obtain ⟨idx2, h1, h2, h3, h4, h5⟩ := ih hwfr j2 c idx hj
        exact ⟨idx2, by rw [List.get?_cons_succ]; exact h1, h2, h3, h4, h5⟩

theorem wf_of_pointwise {l l2 : List (String × BTreeIdx)}
    (hlen : l2.length = l.length)
    (hpt : ∀ j (c : String) (idx : BTreeIdx), l.get? j = some (c, idx) →
      ∃ idx2, l2.get? j = some (c, idx2) ∧ idx2.order = idx.order ∧
        Shape idx2.root)
    (hwf : ∀ ci ∈ l, 1 ≤ ci.2.order ∧ Shape ci.2.root) :
    ∀ ci ∈ l2, 1 ≤ ci.2.order ∧ Shape ci.2.root := by
  intro ci hci
  obtain ⟨j, hj⟩ := List.get?_of_mem hci
  have hjlt : j < l2.length := (List.get?_eq_some.mp hj).1
  cases hg : l.get? j with
  | none =>
    rw [List.get?_eq_none] at hg
    omega
  | some p =>
    obtain ⟨c, idx⟩ := p
    obtain ⟨idx2, h1, h2, h3⟩ := hpt j c idx hg
    rw [hj] at h1
    injection h1 with h1
    subst h1
    refine ⟨?_, h3⟩
    rw [h2]
    exact (hwf (c, idx) (List.get?_mem hg)).1

theorem insertRow_spec (st : ExecSt) (row : RowV) :
    (insertRow st row).1.ts.schema = st.ts.schema ∧
    (insertRow st row).1.ts.uniqueCols = st.ts.uniqueCols ∧
    (∀ p ∈ st.ts.rows, p ∈ (insertRow st row).1.ts.rows) ∧
    (insertRow st row).1.idxs.length = st.idxs.length ∧
    ((∀ ci ∈ st.idxs, 1 ≤ ci.2.order ∧ Shape ci.2.root) →
      ∀ j (c : String) (idx : BTreeIdx), st.idxs.get? j = some (c, idx) →
        ∃ idx2, (insertRow st row).1.idxs.get? j = some (c, idx2) ∧
          idx2.order = idx.order ∧ Shape idx2.root ∧
          ∀ x ∈ mmBT idx.root, x ∈ mmBT idx2.root) := by
  unfold insertRow
  cases hI : st.ts.insert row with
  | error e =>
    dsimp only
    exact ⟨rfl, rfl, fun p hp => hp, rfl, fun hwf j c idx hj =>
      ⟨idx, hj, rfl, (hwf (c, idx) (List.get?_mem hj)).2, fun x hx => hx⟩⟩
  | ok p =>
    obtain ⟨ts2, rid⟩ := p
    dsimp only
    obtain ⟨vr, hv, hrid, hts2⟩ := insert_ok_shape hI
    subst hts2
    refine ⟨rfl, rfl, ?_, idxUpdate_length row rid st.idxs, ?_⟩
    · intro p hp
      exact List.mem_append_left _ hp
    · intro hwf j c idx hj
      obtain ⟨idx2, h1, h2, h3, h4, h5⟩ :=
        idxUpdate_spec row rid st.idxs hwf j c idx hj
      exact ⟨idx2, h1, h2, h3, h4⟩

theorem execInsert_cons_err {st : ExecSt} {row : RowV} {rest : List RowV}
    {st2 : ExecSt} {e : String} (h : insertRow st row = (st2, some e)) :
    execInsert st (row :: rest) = (st2, some e, 0) := by
  rw [execInsert, h]

theorem execInsert_cons_ok {st : ExecSt} {row : RowV} {rest : List RowV}
    {st2 : ExecSt} (h : insertRow st row = (st2, none)) :
    execInsert st (row :: rest) =
      ((execInsert st2 rest).1, (execInsert st2 rest).2.1,
        (execInsert st2 rest).2.2 + 1) := by
  rw [execInsert, h]

theorem execInsert_spec : ∀ (rows : List RowV) (st : ExecSt),
    (execInsert st rows).1.ts.schema = st.ts.schema ∧
    (∀ p ∈ st.ts.rows, p ∈ (execInsert st rows).1.ts.rows) ∧
    ((∀ ci ∈ st.idxs, 1 ≤ ci.2.order ∧ Shape ci.2.root) →
      (∀ ci ∈ (execInsert st rows).1.idxs,
        1 ≤ ci.2.order ∧ Shape ci.2.root) ∧
      ∀ j (c : String) (idx : BTreeIdx), st.idxs.get? j = some (c, idx) →
        ∃ idx2, (execInsert st rows).1.idxs.get? j = some (c, idx2) ∧
          idx2.order = idx.order ∧ Shape idx2.root ∧
          ∀ x ∈ mmBT idx.root, x ∈ mmBT idx2.root) := by
  intro rows
  induction rows with
  | nil =>
    intro st
    exact ⟨rfl, fun p hp => hp, fun hwf => ⟨hwf, fun j c idx hj =>
      ⟨idx, hj, rfl, (hwf (c, idx) (List.get?_mem hj)).2,
        fun x hx => hx⟩⟩⟩
  | cons row rest ih =>
    intro st
    obtain ⟨hsch, huc, hrows, hlen, hpt⟩ := insertRow_spec st row
    cases hI : insertRow st row with
    | mk st2 e2 =>
      rw [hI] at hsch hrows hlen hpt
      dsimp only at hsch hrows hlen hpt
      cases e2 with
      | some e =>
        rw [execInsert_cons_err hI]
        dsimp only
        refine ⟨hsch, hrows, ?_⟩
        intro hwf
        refine ⟨?_, fun j c idx hj => hpt hwf j c idx hj⟩
        exact wf_of_pointwise hlen
          (fun j c idx hj =>
            (hpt hwf j c idx hj).imp
              (fun idx2 h => ⟨h.1, h.2.1, h.2.2.1⟩)) hwf
      | none =>
        rw [execInsert_cons_ok hI]
        dsimp only
        obtain ⟨ih1, ih2, ih3⟩ := ih st2
        refine ⟨ih1.trans hsch, fun p hp => ih2 p (hrows p hp), ?_⟩
        intro hwf
        have hwf2 : ∀ ci ∈ st2.idxs, 1 ≤ ci.2.order ∧ Shape ci.2.root :=
          wf_of_pointwise hlen
            (fun j c idx hj =>
              (hpt hwf j c idx hj).imp
                (fun idx2 h => ⟨h.1, h.2.1, h.2.2.1⟩)) hwf
        obtain ⟨ihwf, ihpt⟩ := ih3 hwf2
        refine ⟨ihwf, ?_⟩
        intro j c idx hj
        obtain ⟨idx2, h1, h2, h3, h4⟩ := hpt hwf j c idx hj
        obtain ⟨idx3, g1, g2, g3, g4⟩ := ihpt j c idx2 h1
        exact ⟨idx3, g1, g2.trans h2, g3, fun x hx => g4 x (h4 x hx)⟩

theorem insertRow_ok_storage {st : ExecSt} {row : RowV} {st2 : ExecSt}
    (h : insertRow st row = (st2, none)) :
    ∃ vr, validateRow st.ts.schema row = .ok vr ∧
      st2.ts = { st.ts with
        rows := st.ts.rows ++ [(st.ts.nextRowId, vr)],
        nextRowId := st.ts.nextRowId + 1 } ∧
      st2.idxs = (idxUpdate row (st.ts.nextRowId : Int) st.idxs).1 ∧
      (idxUpdate row (st.ts.nextRowId : Int) st.idxs).2 = none := by
  unfold insertRow at h
  cases hS : st.ts.insert row with
  | error e =>
    rw [hS] at h
    dsimp only at h
    injection h with h1 h2
    cases h2
  | ok p =>
    obtain ⟨ts2, rid⟩ := p
    rw [hS] at h
    dsimp only at h
    injection h with h1 h2
    obtain ⟨vr, hv, hrid, hts2⟩ := insert_ok_shape hS
    subst hrid
    subst hts2
    subst h1
    exact ⟨vr, hv, rfl, rfl, h2⟩

theorem execInsert_stores : ∀ (pre : List RowV) (st : ExecSt),
    (∀ ci ∈ st.idxs, 1 ≤ ci.2.order ∧ Shape ci.2.root) →
    (execInsert st pre).2.1 = none →
    (execInsert st pre).2.2 = pre.length ∧
    ∀ j row2, pre.get? j = some row2 → ∃ (rid : Nat) (vr : RowV),
      validateRow st.ts.schema row2 = .ok vr ∧
      (rid, vr) ∈ (execInsert st pre).1.ts.rows ∧
      ∀ jc (c : String) (idx : BTreeIdx),
        st.idxs.get? jc = some (c, idx) → ∀ n,
        rowGet row2 c = some (.pint n) →
        ∃ idx2, (execInsert st pre).1.idxs.get? jc = some (c, idx2) ∧
          (some n, (rid : Int)) ∈ mmBT idx2.root := by
  intro pre
  induction pre with
  | nil =>
    intro st hwf hnone
    refine ⟨rfl, ?_⟩
    intro j row2 hj
    simp at hj
  | cons row rest ih =>
    intro st hwf hnone
    cases hI : insertRow st row with
    | mk st2 e2 =>
      cases e2 with
      | some e =>
        rw [execInsert_cons_err hI] at hnone
        cases hnone
      | none =>
        rw [execInsert_cons_ok hI] at hnone ⊢
        dsimp only at hnone ⊢
        obtain ⟨vr, hv, hts2, hidx2, hupd⟩ := insertRow_ok_storage hI
        have hwf2 : ∀ ci ∈ st2.idxs, 1 ≤ ci.2.order ∧ Shape ci.2.root := by
          rw [hidx2]
          exact wf_of_pointwise
            (idxUpdate_length row (st.ts.nextRowId : Int) st.idxs)
            (fun j c idx hj =>
              (idxUpdate_spec row (st.ts.nextRowId : Int) st.idxs hwf
                j c idx hj).imp
                (fun idx2 h => ⟨h.1, h.2.1, h.2.2.1⟩)) hwf
        obtain ⟨ihcnt, ihst⟩ := ih st2 hwf2 hnone
        refine ⟨by rw [ihcnt]; rfl, ?_⟩
        intro j row2 hj
        cases j with
        | zero =>
          rw [List.get?_cons_zero] at hj
          injection hj with hj
          subst hj
          refine ⟨st.ts.nextRowId, vr, hv, ?_, ?_⟩
          · refine (execInsert_spec rest st2).2.1 _ ?_
            rw [hts2]
            exact List.mem_append_right _ (List.mem_singleton.mpr rfl)
          · intro jc c idx hjc n hn
            obtain ⟨idx2, h1, h2, h3, h4, h5⟩ :=
              idxUpdate_spec row (st.ts.nextRowId : Int) st.idxs hwf
                jc c idx hjc
            have hmem : (some n, (st.ts.nextRowId : Int)) ∈ mmBT idx2.root :=
              h5 hupd n hn
            have h1b : st2.idxs.get? jc = some (c, idx2) := by
              rw [hidx2]
              exact h1
            obtain ⟨idx3, g1, g2, g3, g4⟩ :=
              ((execInsert_spec rest st2).2.2 hwf2).2 jc c idx2 h1b
            exact ⟨idx3, g1, g4 _ hmem⟩
        | succ j2 =>
          rw [List.get?_cons_succ] at hj
          obtain ⟨rid, vr2, hv2, hmem, hidxmem⟩ := ihst j2 row2 hj
          have hsch : st2.ts.schema = st.ts.schema := by rw [hts2]
          refine ⟨rid, vr2, by rw [hsch] at hv2; exact hv2, hmem, ?_⟩
          intro jc c idx hjc n hn
          obtain ⟨idx2, h1, h2, h3, h4, h5⟩ :=
            idxUpdate_spec row (st.ts.nextRowId : Int) st.idxs hwf
              jc c idx hjc
          have h1b : st2.idxs.get? jc = some (c, idx2) := by
            rw [hidx2]
            exact h1
          obtain ⟨idx3, g1, g2⟩ := hidxmem jc c idx2 h1b n hn
          exact ⟨idx3, g1, g2⟩

theorem execInsert_append_fail :
    ∀ (pre : List RowV) (st : ExecSt) (bad : RowV) (rest : List RowV)
      (e : String),
    (execInsert st pre).2.1 = none →
    (insertRow (execInsert st pre).1 bad).2 = some e →
    execInsert st (pre ++ bad :: rest)
      = ((insertRow (execInsert st pre).1 bad).1, some e, pre.length) := by
  intro pre
  induction pre with
  | nil =>
    intro st bad rest e hnone hbad
    rw [List.nil_append]
    rw [show (execInsert st ([] : List RowV)).1 = st from rfl] at hbad ⊢
    cases hI : insertRow st bad with
    | mk st2 e2 =>
      have h2 : (insertRow st bad).2 = e2 := by rw [hI]
      rw [h2] at hbad
      subst hbad
      rw [execInsert_cons_err hI]
      rfl
  | cons row pre2 ih =>
    intro st bad rest e hnone hbad
    cases hI : insertRow st row with
    | mk st2 e2 =>
      cases e2 with
      | some e3 =>
        rw [execInsert_cons_err hI] at hnone
        cases hnone
      | none =>
        rw [execInsert_cons_ok hI] at hnone hbad
        dsimp only at hnone hbad
        rw [List.cons_append, execInsert_cons_ok hI,
          ih st2 bad rest e hnone hbad, execInsert_cons_ok hI]
        rfl

/-- C7: when, after a successfully inserted prefix of a multi-row
INSERT, the next value row raises (e.g. a constraint violation), the
statement fails with that error, the `inserted` counter stops at the
prefix length, every prefix row remains stored in validated form and
its index entries remain in the corresponding column indexes, and no
index entry present at the point of failure is rolled back: the
statement has no statement-level atomicity. -/
theorem C7_confirmed (st : ExecSt) (pre : List RowV) (bad : RowV)
    (rest : List RowV) (e : String)
    (hwf : ∀ ci ∈ st.idxs, 1 ≤ ci.2.order ∧ Shape ci.2.root)
    (hpre : (execInsert st pre).2.1 = none)
    (hbad : (insertRow (execInsert st pre).1 bad).2 = some e) :
    (execInsert st (pre ++ bad :: rest)).2.1 = some e ∧
    (execInsert st (pre ++ bad :: rest)).2.2 = pre.length ∧
    (∀ j row2, pre.get? j = some row2 → ∃ (rid : Nat) (vr : RowV),
      validateRow st.ts.schema row2 = .ok vr ∧
      (rid, vr) ∈ (execInsert st (pre ++ bad :: rest)).1.ts.rows ∧
      ∀ jc (c : String) (idx : BTreeIdx),
        st.idxs.get? jc = some (c, idx) → ∀ n,
        rowGet row2 c = some (.pint n) →
        ∃ idx2, (execInsert st (pre ++ bad :: rest)).1.idxs.get? jc
            = some (c, idx2) ∧
          (some n, (rid : Int)) ∈ mmBT idx2.root) ∧
    (∀ j (c : String) (idx : BTreeIdx),
      (execInsert st pre).1.idxs.get? j = some (c, idx) →
      ∃ idx2, (execInsert st (pre ++ bad :: rest)).1.idxs.get? j
          = some (c, idx2) ∧
        ∀ x ∈ mmBT idx.root, x ∈ mmBT idx2.root) := by
  have hfin := execInsert_append_fail pre st bad rest e hpre hbad
  rw [hfin]
  dsimp only
  have hwf1 : ∀ ci ∈ (execInsert st pre).1.idxs,
      1 ≤ ci.2.order ∧ Shape ci.2.root :=
    ((execInsert_spec pre st).2.2 hwf).1
  obtain ⟨hsch, huc, hrows, hlen, hpt⟩ :=
    insertRow_spec (execInsert st pre).1 bad
  refine ⟨rfl, rfl, ?_, ?_⟩
  · intro j row2 hj
    obtain ⟨-, hst⟩ := execInsert_stores pre st hwf hpre
    obtain ⟨rid, vr, hv, hmem, hidxm⟩ := hst j row2 hj
    refine ⟨rid, vr, hv, hrows _ hmem, ?_⟩
    intro jc c idx hjc n hn
    obtain ⟨idx2, h1, h2⟩ := hidxm jc c idx hjc n hn
    obtain ⟨idx3, g1, g2, g3, g4⟩ := hpt hwf1 jc c idx2 h1
    exact ⟨idx3, g1, g4 _ h2⟩
  · intro j c idx hj
    obtain ⟨idx2, h1, h2, h3, h4⟩ := hpt hwf1 j c idx hj
    exact ⟨idx2, h1, h4⟩

/-- The one-table executor state used to exercise the failing multi-row
INSERT: one INTEGER column `a` with a UNIQUE constraint, one unique
index of order 1 on `a`. -/
def uniqSt : ExecSt :=
  ⟨initTS [⟨"a", ⟨.integer, none⟩, false, true, false, .pnull⟩] ["a"],
   [("a", initIdx 1 true)]⟩

unseal BT.height inorder interleave valLists in
/-- C7 (witness): inserting `{a: 1}` twice in one statement fails on the
second row with the duplicate-value error while the first row stays,
with the counter stopped at 1. -/
theorem C7_witness :
    ((execInsert uniqSt [[("a", PyVal.pint 1)]]).2.1 = none ∧
      (insertRow (execInsert uniqSt [[("a", PyVal.pint 1)]]).1
        [("a", PyVal.pint 1)]).2
        = some "Duplicate value for unique column") ∧
    (execInsert uniqSt ([[("a", PyVal.pint 1)]] ++
        [("a", PyVal.pint 1)] :: [])).2.1
      = some "Duplicate value for unique column" ∧
    (execInsert uniqSt ([[("a", PyVal.pint 1)]] ++
        [("a", PyVal.pint 1)] :: [])).2.2 = 1 := by
  refine ⟨⟨by decide, by decide⟩, ?_, ?_⟩
  · exact (C7_confirmed uniqSt [[("a", PyVal.pint 1)]]
      [("a", PyVal.pint 1)] [] "Duplicate value for unique column"
      (by
        intro ci hci
        rw [show uniqSt.idxs = [("a", initIdx 1 true)] from rfl] at hci
        rcases List.mem_singleton.mp hci with rfl
        exact ⟨le_refl 1, shape_initIdx 1 true⟩)
      (by decide) (by decide)).1
  · exact (C7_confirmed uniqSt [[("a", PyVal.pint 1)]]
      [("a", PyVal.pint 1)] [] "Duplicate value for unique column"
      (by
        intro ci hci
        rw [show uniqSt.idxs = [("a", initIdx 1 true)] from rfl] at hci
        rcases List.mem_singleton.mp hci with rfl
        exact ⟨le_refl 1, shape_initIdx 1 true⟩)
      (by decide) (by decide)).2.1
